import Mathlib

/-!
# meryl-utility: bit-level storage (`src/utility/bits.H`)

A shallow embedding of `bitArray`, of the head/block bookkeeping of
`stuffedBits`, of the free bit functions of `bits.H`, of the base codes of
`sequence.H` and of the word list of `strings.H`, followed by the properties
proved about them.  The members whose
bodies are not in the sources at hand (the codes of `stuffedBits`, `wordArray`)
are modelled from the specification and marked as such.

Conventions of the embedding

* `uint64` / `uint32` values are natural numbers; where the C arithmetic can
  wrap, the operation carries an explicit `% 2 ^ 64` or `% 2 ^ 32`.
* `assert(...)` aborts the process: a function that can abort returns an
  `Except Fault _`, the fault being `Fault.assertFailed`.
* C arrays reached through a pointer (`_dataBlockBgn`, `_dataBlockLen`,
  `_dataBlocks`) are maps from index to value; the words of a `bitArray` are a
  list, so that the number of allocated words is part of the state.
-/

/-- The two ways an operation can stop abnormally: a failed `assert`, or an
access through a null pointer / outside the allocated words. -/
inductive Fault where
  | assertFailed
  | badAccess
  deriving DecidableEq, Repr

deriving instance DecidableEq for Except

/-- The largest `uint64`, `~((uint64)0)`. -/
def uint64max : Nat := 2 ^ 64 - 1

/-- Bitwise complement of a 64-bit word, the C `~m`. -/
def not64 (m : Nat) : Nat := m ^^^ uint64max

/-! ## bitArray -/

/-- The three members of `class bitArray`; `_bits` is `none` for the null
pointer and otherwise the allocated words. -/
structure bitArray where
  _maxBitSet : Nat
  _maxBitAvail : Nat
  _bits : Option (List Nat)
  deriving DecidableEq, Repr

namespace bitArray

/-- `isAllocated()`: `_bits != NULL`. -/
def isAllocated (a : bitArray) : Bool := a._bits.isSome

/-- `clear()`: `memset` of the first `_maxBitAvail / 64 + 1` words to zero. -/
def clear (a : bitArray) : Except Fault bitArray :=
  match a._bits with
  | none => .error .badAccess
  | some ws =>
    let k := a._maxBitAvail / 64 + 1
    if ws.length < k then .error .badAccess
    else .ok { a with _bits := some (List.replicate k 0 ++ ws.drop k) }

/-- `allocate(maxNumBits)`: nothing when already allocated; otherwise
`new uint64 [_maxBitAvail / 64 + 1]` followed by `clear()`. -/
def allocate (a : bitArray) (maxNumBits : Nat) : bitArray :=
  if a.isAllocated = true then a
  else
    { _maxBitSet := 0
      _maxBitAvail := maxNumBits
      _bits := some (List.replicate (maxNumBits / 64 + 1) 0) }

/-- The constructor `bitArray(maxNumBits)`. -/
def new (maxNumBits : Nat) : bitArray :=
  let a : bitArray := { _maxBitSet := 0, _maxBitAvail := maxNumBits, _bits := none }
  if 0 < maxNumBits then a.allocate maxNumBits else a

/-- `getBit(position)`: the assertion `position < _maxBitAvail`, then
`(_bits[w] >> b) & 1` with `w = position / 64`, `b = 63 - position % 64`. -/
def getBit (a : bitArray) (position : Nat) : Except Fault Bool :=
  let w := position / 64
  let b := 63 - position % 64
  if ¬ position < a._maxBitAvail then .error .assertFailed
  else
    match a._bits with
    | none => .error .badAccess
    | some ws =>
      match ws[w]? with
      | none => .error .badAccess
      | some x => .ok (((x >>> b) &&& 1) != 0)

/-- `setBit(position, value)`: the assertion, then `_bits[w] &= ~m` and
`_bits[w] |= ((uint64)value) << b` with `m = 1 << b`.  The second component is
the array as the call leaves it, also when the call stops at the assertion. -/
def setBit (a : bitArray) (position : Nat) (value : Bool) : Except Fault Unit × bitArray :=
  let w := position / 64
  let b := 63 - position % 64
  let m := 1 <<< b
  if ¬ position < a._maxBitAvail then (.error .assertFailed, a)
  else
    match a._bits with
    | none => (.error .badAccess, a)
    | some ws =>
      match ws[w]? with
      | none => (.error .badAccess, a)
      | some x =>
        let x1 := x &&& not64 m
        let x2 := x1 ||| ((if value then 1 else 0) <<< b)
        (.ok (), { a with _bits := some (ws.set w x2) })

/-- `flipBit(position)`: the assertion, then `v = _bits[w] & m`,
`_bits[w] ^= m`, returning `v >> b` as a `bool`. -/
def flipBit (a : bitArray) (position : Nat) : Except Fault Bool × bitArray :=
  let w := position / 64
  let b := 63 - position % 64
  let m := 1 <<< b
  if ¬ position < a._maxBitAvail then (.error .assertFailed, a)
  else
    match a._bits with
    | none => (.error .badAccess, a)
    | some ws =>
      match ws[w]? with
      | none => (.error .badAccess, a)
      | some x =>
        let v := x &&& m
        (.ok ((v >>> b) != 0), { a with _bits := some (ws.set w (x ^^^ m)) })

/-- An allocated array of capacity `_maxBitAvail`: the storage is the
`_maxBitAvail / 64 + 1` words that `allocate` reserves. -/
def allocated (a : bitArray) : Prop :=
  a._bits.map List.length = some (a._maxBitAvail / 64 + 1)

instance (a : bitArray) : Decidable a.allocated := by
  unfold allocated; infer_instance

/-- Backing word `w` of the array (zero when there is none). -/
def word (a : bitArray) (w : Nat) : Nat :=
  match a._bits with
  | none => 0
  | some ws => ws.getD w 0

/-- The number of words of the backing storage (`none` for the null pointer). -/
def numWords (a : bitArray) : Option Nat :=
  a._bits.map List.length

end bitArray

/-! ## stuffedBits: the head and the block list -/

/-- Addition of two `uint64` values. -/
def add64 (a b : Nat) : Nat := (a + b) % 2 ^ 64

/-- Addition of two `uint32` values. -/
def add32 (a b : Nat) : Nat := (a + b) % 2 ^ 32

/-- Subtraction of a small constant from a `uint32` value (wrapping below zero). -/
def sub32 (a b : Nat) : Nat := (a + 2 ^ 32 - b) % 2 ^ 32

/-- The data members of `class stuffedBits` (the Fibonacci table apart).
`_dataBlocks` holds one pointer per block and `_data` is a pointer; `heap`
gives the words stored behind each pointer and `heapTop` is the pointer the
next `new uint64 [...]` returns. -/
structure stuffedBits where
  _dataBlockLenMaxB : Nat
  _dataBlockLenMaxW : Nat
  _dataBlocksLen : Nat
  _dataBlocksMax : Nat
  _dataBlockBgn : Nat → Nat
  _dataBlockLen : Nat → Nat
  _dataBlocks : Nat → Nat
  _dataPos : Nat
  _data : Nat
  _dataBlk : Nat
  _dataWrd : Nat
  _dataBit : Nat
  heap : Nat → Nat → Nat
  heapTop : Nat

/-- Modelled from the spec: `setArraySize` of `arrays.H`, which is not part of
the sources at hand.  The list of blocks grows in chunks (`+128`) and is
index-stable: the entries already present keep their index and value, and the
capacity becomes `newMax`. -/
def setArraySize {α : Type} (array : Nat → α) (_arrayLen : Nat) (_arrayMax : Nat)
    (newMax : Nat) : (Nat → α) × Nat :=
  (array, newMax)

namespace stuffedBits

/-- `updateLen()`: `_dataBlockLen[_dataBlk] = max(_dataPos, _dataBlockLen[_dataBlk])`. -/
def updateLen (s : stuffedBits) : stuffedBits :=
  { s with
    _dataBlockLen := Function.update s._dataBlockLen s._dataBlk
      (max s._dataPos (s._dataBlockLen s._dataBlk)) }

/-- `updateBit()`: step to the next word when no bit is left in this one. -/
def updateBit (s : stuffedBits) : stuffedBits :=
  if s._dataBit = 0 then
    { s with _dataWrd := add64 s._dataWrd 1, _dataBit := 64 }
  else s

/-- `updateBlk(readLength)`. -/
def updateBlk (s : stuffedBits) (readLength : Nat) : Except Fault stuffedBits :=
  if ¬ s._dataBit ≠ 0 then .error .assertFailed
  else if ¬ s._dataBit ≤ 64 then .error .assertFailed
  else if add64 s._dataPos readLength ≤ s._dataBlockLen s._dataBlk then .ok s
  else if ¬ s._dataPos = s._dataBlockLen s._dataBlk then .error .assertFailed
  else
    let blk := add64 s._dataBlk 1
    if ¬ blk < s._dataBlocksLen then .error .assertFailed
    else
      .ok { s with
        _dataBlk := blk
        _dataPos := 0
        _data := s._dataBlocks blk
        _dataWrd := 0
        _dataBit := 64 }

/-- `clearBlock()`: zero the first `_dataBlockLenMaxW` words behind `_data`. -/
def clearBlock (s : stuffedBits) : stuffedBits :=
  { s with
    heap := Function.update s.heap s._data
      (fun ii => if ii < s._dataBlockLenMaxW then 0 else s.heap s._data ii) }

/-- The three `setArraySize` calls of `ensureSpace`, growing the block lists to
`_dataBlocksLen + 128` entries. -/
def growBlockLists (s : stuffedBits) : stuffedBits :=
  let r1 := setArraySize s._dataBlocks s._dataBlocksLen s._dataBlocksMax (add32 s._dataBlocksLen 128)
  let r2 := setArraySize s._dataBlockBgn s._dataBlocksLen r1.2 (add32 s._dataBlocksLen 128)
  let r3 := setArraySize s._dataBlockLen s._dataBlocksLen r2.2 (add32 s._dataBlocksLen 128)
  { s with _dataBlocks := r1.1, _dataBlockBgn := r2.1, _dataBlockLen := r3.1, _dataBlocksMax := r3.2 }

/-- `ensureSpace(spaceNeeded)`, statement by statement. -/
def ensureSpace (s : stuffedBits) (spaceNeeded : Nat) : Except Fault stuffedBits :=
  if ¬ s._dataBit ≠ 0 then .error .assertFailed
  else if ¬ s._dataBit ≤ 64 then .error .assertFailed
  -- If enough space in the current block, just return.
  else if add64 s._dataPos spaceNeeded < s._dataBlockLenMaxB then .ok s
  else
    -- Otherwise, terminate the current block.
    let s1 : stuffedBits := { s with
      _dataBlockLen := Function.update s._dataBlockLen (sub32 s._dataBlocksLen 1) s._dataPos }
    -- Move to the new block.
    let s2 : stuffedBits := { s1 with _dataBlocksLen := add32 s1._dataBlocksLen 1 }
    let s3 : stuffedBits := if s2._dataBlocksLen ≥ s2._dataBlocksMax then growBlockLists s2 else s2
    if ¬ spaceNeeded ≤ s3._dataBlockLenMaxB then .error .assertFailed
    else
      let s4 : stuffedBits := { s3 with _dataPos := 0 }
      let s5 : stuffedBits := { s4 with
        _data := s4.heapTop
        _dataBlocks := Function.update s4._dataBlocks (sub32 s4._dataBlocksLen 1) s4.heapTop
        heapTop := s4.heapTop + 1 }
      let s6 : stuffedBits := clearBlock s5
      let s7 : stuffedBits := { s6 with
        _dataBlockBgn := Function.update s6._dataBlockBgn (sub32 s6._dataBlocksLen 1)
          (add64 (s6._dataBlockBgn (sub32 s6._dataBlocksLen 2))
            (s6._dataBlockLen (sub32 s6._dataBlocksLen 2))) }
      let s8 : stuffedBits := { s7 with
        _dataBlockLen := Function.update s7._dataBlockLen (sub32 s7._dataBlocksLen 1) 0 }
      .ok { s8 with _dataBlk := add64 s8._dataBlk 1, _dataWrd := 0, _dataBit := 64 }

/-- The block-chain relation, read as the C expression
`_dataBlockBgn[i] == _dataBlockBgn[i-1] + _dataBlockLen[i-1]` on `uint64`
values, for every block `0 < i < _dataBlocksLen`. -/
def chainInv (s : stuffedBits) : Prop :=
  ∀ i, i < s._dataBlocksLen → 0 < i →
    s._dataBlockBgn i = add64 (s._dataBlockBgn (i - 1)) (s._dataBlockLen (i - 1))

instance (s : stuffedBits) : Decidable s.chainInv := by
  unfold chainInv; infer_instance

/-- The stream after `ensureSpace` has started a new block: all statements
after the early return, composed. -/
def afterNewBlock (s : stuffedBits) : stuffedBits :=
  { s with
    _dataBlocksLen := add32 s._dataBlocksLen 1
    _dataBlocksMax := if add32 s._dataBlocksLen 1 ≥ s._dataBlocksMax
      then add32 (add32 s._dataBlocksLen 1) 128 else s._dataBlocksMax
    _dataBlockLen := Function.update
      (Function.update s._dataBlockLen (sub32 s._dataBlocksLen 1) s._dataPos)
      (sub32 (add32 s._dataBlocksLen 1) 1) 0
    _dataBlockBgn := Function.update s._dataBlockBgn (sub32 (add32 s._dataBlocksLen 1) 1)
      (add64 (s._dataBlockBgn (sub32 (add32 s._dataBlocksLen 1) 2))
        (Function.update s._dataBlockLen (sub32 s._dataBlocksLen 1) s._dataPos
          (sub32 (add32 s._dataBlocksLen 1) 2)))
    _dataPos := 0
    _data := s.heapTop
    _dataBlocks := Function.update s._dataBlocks (sub32 (add32 s._dataBlocksLen 1) 1) s.heapTop
    heap := Function.update s.heap s.heapTop
      (fun ii => if ii < s._dataBlockLenMaxW then 0 else s.heap s.heapTop ii)
    heapTop := s.heapTop + 1
    _dataBlk := add64 s._dataBlk 1
    _dataWrd := 0
    _dataBit := 64 }

/-- A stream of the given block capacity (in bits) with a list of blocks whose
start offsets and used lengths are `bgn` and `len`, block `i` stored behind
pointer `i`, and the head in block `blk` at bit `pos`. -/
def ofBlocks (maxB : Nat) (bgn len : List Nat) (blk pos : Nat) : stuffedBits :=
  { _dataBlockLenMaxB := maxB
    _dataBlockLenMaxW := maxB / 64
    _dataBlocksLen := len.length
    _dataBlocksMax := 64
    _dataBlockBgn := fun i => bgn.getD i 0
    _dataBlockLen := fun i => len.getD i 0
    _dataBlocks := fun i => i
    _dataPos := pos
    _data := blk
    _dataBlk := blk
    _dataWrd := pos / 64
    _dataBit := 64 - pos % 64
    heap := fun _ _ => 0
    heapTop := len.length }

end stuffedBits


/-! ## Bit masks and word helpers (`bits.H`, the free functions) -/

/-- The largest `uint128`, `~((uint128)0)`. -/
def uint128max : Nat := 2 ^ 128 - 1

/-- The C expression `x << k` on an unsigned type of `W` bits.  A shift by `W`
or more is undefined in C; `oob x k` stands for the word the machine leaves
there. -/
def shlC (W : Nat) (oob : Nat → Nat → Nat) (x k : Nat) : Nat :=
  if k < W then (x <<< k) % 2 ^ W else oob x k % 2 ^ W

/-- The C expression `x >> k` on an unsigned type of `W` bits, with `oob x k`
for the shifts by `W` or more. -/
def shrC (W : Nat) (oob : Nat → Nat → Nat) (x k : Nat) : Nat :=
  if k < W then x >>> k else oob x k % 2 ^ W

/-- Negation on an unsigned type of `W` bits, `-(uintType)x`. -/
def negC (W x : Nat) : Nat := (2 ^ W - x % 2 ^ W) % 2 ^ W

/-- `buildLowBitMask<uintType>(numBits)` for an unsigned type of `W` bits
(`W = 8 * sizeof(uintType)`); the shift count `8 * sizeof(uintType) - numBits`
is a `size_t` and wraps modulo `2 ^ 64`. -/
def buildLowBitMask (W : Nat) (oob : Nat → Nat → Nat) (numBits : Nat) : Nat :=
  let r0 := 2 ^ W - 1
  let r1 := shrC W oob r0 ((W + 2 ^ 64 - numBits) % 2 ^ 64)
  let r2 := r1 &&& negC W (if numBits ≠ 0 then 1 else 0)
  let r3 := r2 ||| negC W (if numBits > W then 1 else 0)
  r3

/-- `buildHighBitMask<uintType>(numBits)` for an unsigned type of `W` bits. -/
def buildHighBitMask (W : Nat) (oob : Nat → Nat → Nat) (numBits : Nat) : Nat :=
  let r0 := 2 ^ W - 1
  let r1 := shlC W oob r0 ((W + 2 ^ 64 - numBits) % 2 ^ 64)
  let r2 := r1 &&& negC W (if numBits ≠ 0 then 1 else 0)
  let r3 := r2 ||| negC W (if numBits > W then 1 else 0)
  r3

/-- `clearLeftBits(uint64 v, uint32 l)`. -/
def clearLeftBits (v l : Nat) : Nat :=
  if l ≥ 64 then 0 else v &&& (uint64max >>> l)

/-- `saveLeftBits(uint64 v, uint32 l)`; the shift count `64 - l` is a `uint32`. -/
def saveLeftBits (oob : Nat → Nat → Nat) (v l : Nat) : Nat :=
  if l = 0 then 0 else v &&& shlC 64 oob uint64max (sub32 64 l)

/-- `clearRightBits(uint64 v, uint32 r)`. -/
def clearRightBits (v r : Nat) : Nat :=
  if r ≥ 64 then 0 else v &&& ((uint64max <<< r) % 2 ^ 64)

/-- `saveRightBits(uint64 v, uint32 r)`; the shift count `64 - r` is a `uint32`. -/
def saveRightBits (oob : Nat → Nat → Nat) (v r : Nat) : Nat :=
  if r = 0 then 0 else v &&& shrC 64 oob uint64max (sub32 64 r)

/-- `clearLeftBits(uint128 v, uint32 l)`. -/
def clearLeftBits128 (v l : Nat) : Nat :=
  if l ≥ 128 then 0 else v &&& (uint128max >>> l)

/-- `saveLeftBits(uint128 v, uint32 l)`. -/
def saveLeftBits128 (oob : Nat → Nat → Nat) (v l : Nat) : Nat :=
  if l = 0 then 0 else v &&& shlC 128 oob uint128max (sub32 128 l)

/-- `clearRightBits(uint128 v, uint32 r)`. -/
def clearRightBits128 (v r : Nat) : Nat :=
  if r ≥ 128 then 0 else v &&& ((uint128max <<< r) % 2 ^ 128)

/-- `saveRightBits(uint128 v, uint32 r)`. -/
def saveRightBits128 (oob : Nat → Nat → Nat) (v r : Nat) : Nat :=
  if r = 0 then 0 else v &&& shrC 128 oob uint128max (sub32 128 r)

/-- `countNumberOfSetBits32(x)`: the five masked additions; the constants are
`unsigned long`, and each assignment stores a `uint32`. -/
def countNumberOfSetBits32 (x : Nat) : Nat :=
  let x1 := (((x >>> 1) &&& 0x55555555) + (x &&& 0x55555555)) % 2 ^ 32
  let x2 := (((x1 >>> 2) &&& 0x33333333) + (x1 &&& 0x33333333)) % 2 ^ 32
  let x3 := (((x2 >>> 4) &&& 0x0f0f0f0f) + (x2 &&& 0x0f0f0f0f)) % 2 ^ 32
  let x4 := (((x3 >>> 8) &&& 0x00ff00ff) + (x3 &&& 0x00ff00ff)) % 2 ^ 32
  let x5 := (((x4 >>> 16) &&& 0x0000ffff) + (x4 &&& 0x0000ffff)) % 2 ^ 32
  x5

/-- `countNumberOfSetBits64(x)`: the six masked additions on `uint64`. -/
def countNumberOfSetBits64 (x : Nat) : Nat :=
  let x1 := add64 ((x >>> 1) &&& 0x5555555555555555) (x &&& 0x5555555555555555)
  let x2 := add64 ((x1 >>> 2) &&& 0x3333333333333333) (x1 &&& 0x3333333333333333)
  let x3 := add64 ((x2 >>> 4) &&& 0x0f0f0f0f0f0f0f0f) (x2 &&& 0x0f0f0f0f0f0f0f0f)
  let x4 := add64 ((x3 >>> 8) &&& 0x00ff00ff00ff00ff) (x3 &&& 0x00ff00ff00ff00ff)
  let x5 := add64 ((x4 >>> 16) &&& 0x0000ffff0000ffff) (x4 &&& 0x0000ffff0000ffff)
  let x6 := add64 ((x5 >>> 32) &&& 0x00000000ffffffff) (x5 &&& 0x00000000ffffffff)
  x6

/-- `countNumberOfBits32(x)`: smear the highest set bit to the right, then
count the set bits. -/
def countNumberOfBits32 (x : Nat) : Nat :=
  let x1 := x ||| (x >>> 1)
  let x2 := x1 ||| (x1 >>> 2)
  let x3 := x2 ||| (x2 >>> 4)
  let x4 := x3 ||| (x3 >>> 8)
  let x5 := x4 ||| (x4 >>> 16)
  countNumberOfSetBits32 x5

/-- `countNumberOfBits64(x)`. -/
def countNumberOfBits64 (x : Nat) : Nat :=
  let x1 := x ||| (x >>> 1)
  let x2 := x1 ||| (x1 >>> 2)
  let x3 := x2 ||| (x2 >>> 4)
  let x4 := x3 ||| (x3 >>> 8)
  let x5 := x4 ||| (x4 >>> 16)
  let x6 := x5 ||| (x5 >>> 32)
  countNumberOfSetBits64 x6

/-- The word `o` that `expandTo3(v)` builds, before its assertion.  Every term
is a two-bit field moved left by at most 20 places, so no shift leaves the 64
bits. -/
def expandTo3Word (v : Nat) : Nat :=
  let o := (v &&& 0x0000000000000003) <<< 0
  let o := o ||| (v &&& 0x000000000000000c) <<< 1
  let o := o ||| (v &&& 0x0000000000000030) <<< 2
  let o := o ||| (v &&& 0x00000000000000c0) <<< 3
  let o := o ||| (v &&& 0x0000000000000300) <<< 4
  let o := o ||| (v &&& 0x0000000000000c00) <<< 5
  let o := o ||| (v &&& 0x0000000000003000) <<< 6
  let o := o ||| (v &&& 0x000000000000c000) <<< 7
  let o := o ||| (v &&& 0x0000000000030000) <<< 8
  let o := o ||| (v &&& 0x00000000000c0000) <<< 9
  let o := o ||| (v &&& 0x0000000000300000) <<< 10
  let o := o ||| (v &&& 0x0000000000c00000) <<< 11
  let o := o ||| (v &&& 0x0000000003000000) <<< 12
  let o := o ||| (v &&& 0x000000000c000000) <<< 13
  let o := o ||| (v &&& 0x0000000030000000) <<< 14
  let o := o ||| (v &&& 0x00000000c0000000) <<< 15
  let o := o ||| (v &&& 0x0000000300000000) <<< 16
  let o := o ||| (v &&& 0x0000000c00000000) <<< 17
  let o := o ||| (v &&& 0x0000003000000000) <<< 18
  let o := o ||| (v &&& 0x000000c000000000) <<< 19
  let o := o ||| (v &&& 0x0000030000000000) <<< 20
  o

/-- `expandTo3(v)`: the word above, returned when
`assert((v & 0xffffc0000000000llu) == 0)` holds. -/
def expandTo3 (v : Nat) : Except Fault Nat :=
  if ¬ (v &&& 0xffffc0000000000) = 0 then .error .assertFailed
  else .ok (expandTo3Word v)

namespace stuffedBits

/-- `bitsToWords(bits)`: `bits / 64 + ((bits % 64) ? 1 : 0)`. -/
def bitsToWords (bits : Nat) : Nat :=
  add64 (bits / 64) (if bits % 64 ≠ 0 then 1 else 0)

end stuffedBits

/-! ## Bases (`sequence.H`) -/

/-- `encode2bitBase(base)`: the table `{0, 1, 2, 3, 4, 4, 4, 4}` indexed by
`base >> 1 & 0x07`.  `base` is a `char`, promoted to `int` (so it may be
negative); `>>` on a negative `int` is the arithmetic shift. -/
def encode2bitBase (base : Int) : Nat :=
  ([0, 1, 2, 3, 4, 4, 4, 4] : List Nat).getD (Int.land (Int.shiftRight base 1) 0x07).toNat 0

/-- `decode2bitBase(base)`: the character of `"ACTGNNNN"` at `base & 0x07`. -/
def decode2bitBase (base : Nat) : Char :=
  (['A', 'C', 'T', 'G', 'N', 'N', 'N', 'N'] : List Char).getD (base &&& 0x07) 'A'

/-! ## stuffedBits: the codes

The bodies of the constructor, of `setPosition`/`getPosition` and of the
`get*`/`set*` members are in `bits.C`, which is not among the sources at hand;
`bits.H` has their declarations and the bookkeeping they call (`updateLen`,
`updateBit`, `updateBlk`, `ensureSpace`).  The definitions of this section are
modelled from the specification (section 4.3, 4.4) on top of that bookkeeping.
-/

/-- Subtraction of two `uint64` values (wrapping below zero). -/
def sub64 (a b : Nat) : Nat := (a + 2 ^ 64 - b) % 2 ^ 64

namespace stuffedBits

/-- Modelled from the spec: the constructor `stuffedBits(nBits)`, whose body is
missing.  A fresh stream has one block of the configured capacity, zero-filled
and with nothing written, and the head at its start. -/
def new (nBits : Nat) : stuffedBits := ofBlocks nBits [0] [0] 0 0

/-- Modelled from the spec: `getPosition()`, whose body is missing: the head as
an absolute bit coordinate, the start of the current block plus the offset in
it. -/
def getPosition (s : stuffedBits) : Nat :=
  add64 (s._dataBlockBgn s._dataBlk) s._dataPos

/-- The first block, counting from `blk`, whose written data reaches
`position`; `fuel` bounds the blocks still to look at. -/
def findBlock (s : stuffedBits) (position : Nat) : Nat → Nat → Nat
  | 0, blk => blk
  | fuel + 1, blk =>
    if add64 (s._dataBlockBgn blk) (s._dataBlockLen blk) < position
    then findBlock s position fuel (blk + 1) else blk

/-- Modelled from the spec: `setPosition(position)`, whose body is missing: the
head is put at an absolute bit coordinate, in the block whose data holds it,
and decomposed into the word index and the bits remaining in that word.  A
position behind all data is a precondition violation. -/
def setPosition (s : stuffedBits) (position : Nat) : Except Fault stuffedBits :=
  let blk := findBlock s position s._dataBlocksLen 0
  if ¬ blk < s._dataBlocksLen then .error .assertFailed
  else
    let pos := position - s._dataBlockBgn blk
    .ok { s with
      _dataBlk := blk
      _dataPos := pos
      _data := s._dataBlocks blk
      _dataWrd := pos / 64
      _dataBit := 64 - pos % 64 }

/-- Modelled from the spec: the primitive write of one bit (body missing).
Codes are MSB-first within each word, so with `_dataBit` bits remaining in the
active word the bit goes to bit `_dataBit - 1` of it; the head moves on by one
bit and `updateBit` runs before and after. -/
def putBit (s : stuffedBits) (b : Bool) : stuffedBits :=
  let s1 := updateBit s
  let w := s1.heap s1._data s1._dataWrd
  let m := 1 <<< (s1._dataBit - 1)
  let w2 := if b then w ||| m else w &&& not64 m
  updateBit { s1 with
    heap := Function.update s1.heap s1._data (Function.update (s1.heap s1._data) s1._dataWrd w2)
    _dataPos := add64 s1._dataPos 1
    _dataBit := s1._dataBit - 1 }

/-- Modelled from the spec: the primitive read of one bit (body missing), the
mirror image of `putBit`. -/
def takeBit (s : stuffedBits) : Bool × stuffedBits :=
  let s1 := updateBit s
  let w := s1.heap s1._data s1._dataWrd
  (w.testBit (s1._dataBit - 1),
   updateBit { s1 with _dataPos := add64 s1._dataPos 1, _dataBit := s1._dataBit - 1 })

/-- Write the low `width` bits of `value`, most significant first. -/
def putBits (value : Nat) : Nat → stuffedBits → stuffedBits
  | 0, s => s
  | width + 1, s => putBits value width (putBit s (value.testBit width))

/-- Read `width` bits, most significant first, onto the accumulator `acc`. -/
def takeBits : Nat → Nat → stuffedBits → Nat × stuffedBits
  | 0, acc, s => (acc, s)
  | width + 1, acc, s =>
    takeBits width (2 * acc + (if (takeBit s).1 then 1 else 0)) (takeBit s).2

/-- Write `count` one-bits. -/
def putOnes : Nat → stuffedBits → stuffedBits
  | 0, s => s
  | count + 1, s => putOnes count (putBit s true)

/-- Read one-bits up to and including the first zero-bit, counting the ones
onto `count`; `avail` is the number of bits that may still be read, and running
out of them is a read past the end of the written data. -/
def takeOnes : Nat → Nat → stuffedBits → Except Fault (Nat × stuffedBits)
  | 0, _, _ => .error .assertFailed
  | avail + 1, count, s =>
    if (takeBit s).1 then takeOnes avail (count + 1) (takeBit s).2
    else .ok (count, (takeBit s).2)

/-- The bits of the current block that are written and lie at or after the
head. -/
def bitsAvailable (s : stuffedBits) : Nat :=
  s._dataBlockLen s._dataBlk - s._dataPos

/-- Modelled from the spec: `setBinary(width, value)` (body missing): after
`ensureSpace(width)`, the `width` low bits of `value`, MSB first; `width` is
0..64 and the call returns the number of bits written. -/
def setBinary (width : Nat) (s : stuffedBits) (value : Nat) : Except Fault (Nat × stuffedBits) :=
  if ¬ width ≤ 64 then .error .assertFailed
  else
    match ensureSpace s width with
    | .error e => .error e
    | .ok s1 => .ok (width, updateLen (putBits value width s1))

/-- Modelled from the spec: `getBinary(width)` (body missing): after
`updateBlk(width)`, read `width` bits and reassemble them. -/
def getBinary (width : Nat) (s : stuffedBits) : Except Fault (Nat × stuffedBits) :=
  if ¬ width ≤ 64 then .error .assertFailed
  else
    match updateBlk s width with
    | .error e => .error e
    | .ok s1 => .ok (takeBits width 0 s1)

/-- Modelled from the spec: `setUnary(value)` (body missing): `value` one-bits
followed by a terminating zero-bit, `value + 1` bits in all, written after
`ensureSpace(value + 1)`; returns the number of bits written, a `uint32`. -/
def setUnary (s : stuffedBits) (value : Nat) : Except Fault (Nat × stuffedBits) :=
  match ensureSpace s (add64 value 1) with
  | .error e => .error e
  | .ok s1 => .ok (add64 value 1 % 2 ^ 32, updateLen (putBit (putOnes value s1) false))

/-- Modelled from the spec: `getUnary()` (body missing): after `updateBlk(1)`,
read one-bits until a zero-bit; the count is the value. -/
def getUnary (s : stuffedBits) : Except Fault (Nat × stuffedBits) :=
  match updateBlk s 1 with
  | .error e => .error e
  | .ok s1 => takeOnes (bitsAvailable s1) 0 s1

/-- Modelled from the spec: `setEliasGamma(value)` (body missing): with
`n = floor(log2(value + 1))` (the bit count of `value + 1`, less one), the
unary code for `n`, then the low `n` bits of `value + 1`. -/
def setEliasGamma (s : stuffedBits) (value : Nat) : Except Fault (Nat × stuffedBits) :=
  let n := countNumberOfBits64 (add64 value 1) - 1
  match setUnary s n with
  | .error e => .error e
  | .ok (size1, s1) =>
    match setBinary n s1 (add64 value 1) with
    | .error e => .error e
    | .ok (size2, s2) => .ok (add32 size1 size2, s2)

/-- Modelled from the spec: `getEliasGamma()` (body missing): read the unary
prefix `n`, read `n` bits, the value is `(1 << n | bits) - 1`. -/
def getEliasGamma (s : stuffedBits) : Except Fault (Nat × stuffedBits) :=
  match getUnary s with
  | .error e => .error e
  | .ok (n, s1) =>
    match getBinary n s1 with
    | .error e => .error e
    | .ok (bits, s2) => .ok (sub64 (((1 <<< n) % 2 ^ 64) ||| bits) 1, s2)

/-- The pair `(F(n), F(n+1))` of Fibonacci numbers as the header documents
them, `F(0) = F(1) = 1` and `F(n) = F(n-1) + F(n-2)`, in `uint64` arithmetic. -/
def fibPair : Nat → Nat × Nat
  | 0 => (1, 1)
  | n + 1 => ((fibPair n).2, add64 (fibPair n).1 (fibPair n).2)

/-- Modelled from the spec: the table `_fibData[93]`, which the missing
constructor fills: the first 93 Fibonacci numbers. -/
def _fibData (i : Nat) : Nat := (fibPair i).1

/-- Write the values of a list one after the other with `set`; the result is
the stream afterwards. -/
def setAll (set : stuffedBits → Nat → Except Fault (Nat × stuffedBits)) :
    List Nat → stuffedBits → Except Fault stuffedBits
  | [], s => .ok s
  | v :: vs, s =>
    match set s v with
    | .error e => .error e
    | .ok (_, s1) => setAll set vs s1

/-- Read `number` values one after the other with `get`. -/
def getAll (get : stuffedBits → Except Fault (Nat × stuffedBits)) :
    Nat → stuffedBits → Except Fault (List Nat × stuffedBits)
  | 0, s => .ok ([], s)
  | number + 1, s =>
    match get s with
    | .error e => .error e
    | .ok (v, s1) =>
      match getAll get number s1 with
      | .error e => .error e
      | .ok (vs, s2) => .ok (v :: vs, s2)

/-- Write the values `vs` one after the other with `set`, put the head at the
start of the stream, and read as many values with `get`: the values read and
the number of blocks the stream has after the writes. -/
def writeAllThenReadAll (set : stuffedBits → Nat → Except Fault (Nat × stuffedBits))
    (get : stuffedBits → Except Fault (Nat × stuffedBits)) (s : stuffedBits) (vs : List Nat) :
    Except Fault (List Nat × Nat) :=
  match setAll set vs s with
  | .error e => .error e
  | .ok s1 =>
    match setPosition s1 0 with
    | .error e => .error e
    | .ok s2 =>
      match getAll get vs.length s2 with
      | .error e => .error e
      | .ok (rs, _) => .ok (rs, s1._dataBlocksLen)

end stuffedBits

/-! ## wordArray

`bits.H` declares `class wordArray`; the bodies of its members are in
`bits-wordArray.H`, which is not among the sources at hand.  The members below
are modelled from the specification (sections 3 and 4.2) for a single thread:
the lock fields (`_wordsPerLock`, `_locksPerSegment`, `_numValuesLock`,
`_segLocks`) and `setLock`/`relLock` have no part in it.
-/

/-- The data members of `class wordArray` that a single-threaded run uses.
`_segments seg wrd` is 128-bit word `wrd` of segment `seg`; the segments of
index `_segmentsLen` and above are not allocated. -/
structure wordArray where
  _valueWidth : Nat
  _valueMask : Nat
  _segmentSize : Nat
  _valuesPerSegment : Nat
  _wordsPerSegment : Nat
  _numValues : Nat
  _segmentsLen : Nat
  _segmentsMax : Nat
  _segments : Nat → Nat → Nat

namespace wordArray

/-- Modelled from the spec: the constructor `wordArray(valueWidth,
segmentsSizeInBits, useLocks)` (body missing): the value width and the segment
size are fixed, `_valueMask` is the precomputed `(1 << valueWidth) - 1` as the
`uint64` field that `bits.H` declares for it holds it (its low 64 bits), a
segment holds `segmentSizeBits / valueWidth` values, and no segment is
allocated yet. -/
def new (valueWidth segmentsSizeInBits : Nat) : wordArray :=
  { _valueWidth := valueWidth
    _valueMask := ((1 <<< valueWidth) - 1) % 2 ^ 64
    _segmentSize := segmentsSizeInBits
    _valuesPerSegment := segmentsSizeInBits / valueWidth
    _wordsPerSegment := segmentsSizeInBits / 128 + 1
    _numValues := 0
    _segmentsLen := 0
    _segmentsMax := 0
    _segments := fun _ _ => 0 }

/-- Modelled from the spec: lazy allocation (body missing).  Touching an index
of segment `seg` allocates, zero-filled, every segment up to and including
`seg` that is not allocated yet. -/
def touch (a : wordArray) (seg : Nat) : wordArray :=
  if seg < a._segmentsLen then a
  else
    { a with
      _segmentsLen := seg + 1
      _segmentsMax := max a._segmentsMax (seg + 1)
      _segments := fun s => if a._segmentsLen ≤ s ∧ s ≤ seg then fun _ => 0 else a._segments s }

/-- Modelled from the spec: `setNval(eIdx)` (body missing): `_numValues` is the
high-water mark of the elements ever set. -/
def setNval (a : wordArray) (eIdx : Nat) : wordArray :=
  { a with _numValues := max a._numValues (eIdx + 1) }

/-- Modelled from the spec: the masked read of `get` (body missing).  The
value of `width` bits that starts at bit `pos` of a segment, most significant
bit first, is taken from the one or the two 128-bit words its span covers. -/
def readSpan (f : Nat → Nat) (pos width mask : Nat) : Nat :=
  let wrd := pos / 128
  let bit := pos % 128
  if bit + width ≤ 128 then
    (f wrd >>> (128 - bit - width)) &&& mask
  else
    let n2 := bit + width - 128
    (((f wrd <<< n2) % 2 ^ 128) ||| (f (wrd + 1) >>> (128 - n2))) &&& mask

/-- Modelled from the spec: the masked write of `set` (body missing).  The bits
of the span are replaced in the one or the two 128-bit words it covers and the
other bits of those words are kept. -/
def writeSpan (f : Nat → Nat) (pos width mask val : Nat) : Nat → Nat :=
  let wrd := pos / 128
  let bit := pos % 128
  if bit + width ≤ 128 then
    let sh := 128 - bit - width
    let w1 := (f wrd &&& (uint128max ^^^ (mask <<< sh))) ||| (val <<< sh)
    Function.update f wrd w1
  else
    let n2 := bit + width - 128
    let n1 := 128 - bit
    let w1 := (f wrd &&& (uint128max ^^^ (2 ^ n1 - 1))) ||| (val >>> n2)
    let w2 := (f (wrd + 1) &&& (2 ^ (128 - n2) - 1)) ||| ((val &&& (2 ^ n2 - 1)) <<< (128 - n2))
    Function.update (Function.update f wrd w1) (wrd + 1) w2

/-- Modelled from the spec: `get(eIdx)` (body missing).  Element `eIdx` lives
in segment `eIdx / _valuesPerSegment` at bit position
`_valueWidth * (eIdx % _valuesPerSegment)` of it.  The second component is the
array afterwards (the read allocates the segment it touches). -/
def get (a : wordArray) (eIdx : Nat) : Nat × wordArray :=
  let seg := eIdx / a._valuesPerSegment
  let pos := (a._valueWidth * (eIdx % a._valuesPerSegment)) % 2 ^ 64
  let a1 := a.touch seg
  (readSpan (a1._segments seg) pos a._valueWidth a._valueMask, a1)

/-- Modelled from the spec: `set(eIdx, v)` (body missing).  `_valueMask` masks
the out-of-range high bits of `v` before storing, the value goes to the span of
element `eIdx`, and `_numValues` grows to cover `eIdx`. -/
def set (a : wordArray) (eIdx v : Nat) : wordArray :=
  let seg := eIdx / a._valuesPerSegment
  let pos := (a._valueWidth * (eIdx % a._valuesPerSegment)) % 2 ^ 64
  let a1 := a.touch seg
  let val := v &&& a._valueMask
  setNval { a1 with
    _segments := Function.update a1._segments seg
      (writeSpan (a1._segments seg) pos a._valueWidth a._valueMask val) } eIdx

/-- The parameters of an array as the constructor leaves them: a width of 1 to
128 bits, the mask of that width in the `uint64` field `_valueMask`, at least
one value per segment, and segments of fewer than `2 ^ 64` bits; every stored
word is a `uint128`. -/
def valid (a : wordArray) : Prop :=
  1 ≤ a._valueWidth ∧ a._valueWidth ≤ 128 ∧
    a._valueMask = (2 ^ a._valueWidth - 1) % 2 ^ 64 ∧
    0 < a._valuesPerSegment ∧ a._valueWidth * a._valuesPerSegment < 2 ^ 64 ∧
    ∀ seg wrd, a._segments seg wrd < 2 ^ 128

/-- The words of segment `seg` as a read sees them: zero where the segment is
not allocated yet. -/
def content (a : wordArray) (seg : Nat) : Nat → Nat :=
  if seg < a._segmentsLen then a._segments seg else fun _ => 0

end wordArray

/-- Bit `p` of a segment given by its 128-bit words, counting from the most
significant bit of word 0. -/
def segBit (f : Nat → Nat) (p : Nat) : Bool := (f (p / 128)).testBit (127 - p % 128)


/-! ## compressTo2, the head relation, Fibonacci numbers -/

/-- The word `o` that `compressTo2(v)` builds, before its assertion. -/
def compressTo2Word (v : Nat) : Nat :=
  let o := (v &&& 0x0000000000000003) >>> 0
  let o := o ||| (v &&& 0x0000000000000018) >>> 1
  let o := o ||| (v &&& 0x00000000000000c0) >>> 2
  let o := o ||| (v &&& 0x0000000000000600) >>> 3
  let o := o ||| (v &&& 0x0000000000003000) >>> 4
  let o := o ||| (v &&& 0x0000000000018000) >>> 5
  let o := o ||| (v &&& 0x00000000000c0000) >>> 6
  let o := o ||| (v &&& 0x0000000000600000) >>> 7
  let o := o ||| (v &&& 0x0000000003000000) >>> 8
  let o := o ||| (v &&& 0x0000000018000000) >>> 9
  let o := o ||| (v &&& 0x00000000c0000000) >>> 10
  let o := o ||| (v &&& 0x0000000600000000) >>> 11
  let o := o ||| (v &&& 0x0000003000000000) >>> 12
  let o := o ||| (v &&& 0x0000018000000000) >>> 13
  let o := o ||| (v &&& 0x00000c0000000000) >>> 14
  let o := o ||| (v &&& 0x0000600000000000) >>> 15
  let o := o ||| (v &&& 0x0003000000000000) >>> 16
  let o := o ||| (v &&& 0x0018000000000000) >>> 17
  let o := o ||| (v &&& 0x00c0000000000000) >>> 18
  let o := o ||| (v &&& 0x0600000000000000) >>> 19
  let o := o ||| (v &&& 0x3000000000000000) >>> 20
  o

/-- `compressTo2(v)`: the word above, returned when
`assert((o & 0xffffc0000000000llu) == 0)` holds. -/
def compressTo2 (v : Nat) : Except Fault Nat :=
  if ¬ (compressTo2Word v &&& 0xffffc0000000000) = 0 then .error .assertFailed
  else .ok (compressTo2Word v)

namespace stuffedBits

/-- The decomposition of the head: `_dataPos = 64 * _dataWrd + (64 - _dataBit)`,
the bit offset in the block against the active word and the bits left in it. -/
def headInv (s : stuffedBits) : Prop :=
  s._dataPos = 64 * s._dataWrd + (64 - s._dataBit)

instance (s : stuffedBits) : Decidable s.headInv := by
  unfold headInv; infer_instance

end stuffedBits

/-- The pair `(F(n), F(n+1))` of the Fibonacci numbers of the header comment,
`F(0) = F(1) = 1`, `F(n) = F(n-1) + F(n-2)`, as natural numbers. -/
def fibonacciPair : Nat → Nat × Nat
  | 0 => (1, 1)
  | n + 1 => ((fibonacciPair n).2, (fibonacciPair n).1 + (fibonacciPair n).2)

/-- The Fibonacci number `F(n)`. -/
def fibonacci (n : Nat) : Nat := (fibonacciPair n).1

/-! ## splitToWords (`strings.H`) -/

/-- The word list of `class splitToWords`.  `_words` is the array of
`_wordsMax` allocated pointers, each standing for the word it points to; the
first `_wordsLen` of them are the words of the line. -/
structure splitToWords where
  _wordsLen : Nat
  _wordsMax : Nat
  _words : List String
  deriving DecidableEq, Repr

namespace splitToWords

/-- The read `_words[i]`; outside the allocated pointers it is a bad access. -/
def wordAt (a : splitToWords) (i : Nat) : Except Fault (Option String) :=
  match a._words[i]? with
  | none => .error .badAccess
  | some w => .ok (some w)

/-- `numWords()`. -/
def numWords (a : splitToWords) : Nat := a._wordsLen

/-- `first(i)`: `(_wordsLen <= i) ? nullptr : _words[i]`. -/
def first (a : splitToWords) (i : Nat) : Except Fault (Option String) :=
  if a._wordsLen ≤ i then .ok none else a.wordAt i

/-- `last(i)`: `(_wordsLen == 0) ? nullptr : _words[_wordsLen - i - 1]`, the
index computed on `uint32`. -/
def last (a : splitToWords) (i : Nat) : Except Fault (Option String) :=
  if a._wordsLen = 0 then .ok none else a.wordAt (sub32 (sub32 a._wordsLen i) 1)

/-- `pop()`: `(_wordsLen == 0) ? nullptr : _words[--_wordsLen]`; the second
component is the list afterwards. -/
def pop (a : splitToWords) : Except Fault (Option String) × splitToWords :=
  if a._wordsLen = 0 then (.ok none, a)
  else
    let a1 : splitToWords := { a with _wordsLen := sub32 a._wordsLen 1 }
    (a1.wordAt a1._wordsLen, a1)

/-- The loop of `shift()`: while `ii < _wordsLen`, swap `_words[ii-1]` and
`_words[ii]` and step `ii`.  The first argument bounds the number of
iterations. -/
def shiftLoop (len : Nat) : Nat → Nat → List String → Except Fault (List String)
  | 0, _, ws => .ok ws
  | fuel + 1, ii, ws =>
    if ii < len then
      match ws[ii - 1]?, ws[ii]? with
      | some x, some y => shiftLoop len fuel (ii + 1) ((ws.set (ii - 1) y).set ii x)
      | _, _ => .error .badAccess
    else .ok ws

/-- `shift()`: nothing on an empty list; otherwise the loop starting at
`ii = 1`, then `_words[--_wordsLen]`.  The second component is the list
afterwards. -/
def shift (a : splitToWords) : Except Fault (Option String) × splitToWords :=
  if a._wordsLen = 0 then (.ok none, a)
  else
    match shiftLoop a._wordsLen a._wordsLen 1 a._words with
    | .error e => (.error e, a)
    | .ok ws =>
      let a1 : splitToWords := { a with _words := ws, _wordsLen := sub32 a._wordsLen 1 }
      (a1.wordAt a1._wordsLen, a1)

/-- A well-formed list: the words lie within the allocated pointers, and the
counts are `uint32` values. -/
def wellFormed (a : splitToWords) : Prop :=
  a._wordsLen ≤ a._wordsMax ∧ a._words.length = a._wordsMax ∧ a._wordsMax < 2 ^ 32

instance (a : splitToWords) : Decidable a.wellFormed := by
  unfold wellFormed; infer_instance

/-- The words of the list, in order. -/
def words (a : splitToWords) : List String := a._words.take a._wordsLen

end splitToWords

/-! ## stuffedBits: the bits of a block, and what a write leaves behind

The definitions of this section serve the proofs about the codes: they name
the bits stored in a block, the stream with its head at a given place, and the
relation between the stream before a write and the stream at any later time.
-/

namespace stuffedBits

/-- Well-formedness of a stream state, as far as the head and its block go:
the head decomposition holds with `1 <= _dataBit <= 64`; `_data` is the pointer
of block `_dataBlk`, an allocated one; the block of the head exists and the
block count is well below the `uint32` range; every earlier block ends before
the (absolute) position of the head; the head and the used length of its block
lie within the block capacity; and the block lies within the `uint64` range of
positions.  A fresh stream is well formed (`new_wellFormed`). -/
def wellFormed (s : stuffedBits) : Prop :=
  s.headInv ∧ 1 ≤ s._dataBit ∧ s._dataBit ≤ 64 ∧
    s._data = s._dataBlocks s._dataBlk ∧ s._data < s.heapTop ∧
    s._dataBlk < s._dataBlocksLen ∧ s._dataBlocksLen + 3 < 2 ^ 32 ∧
    (∀ i, i < s._dataBlk →
      add64 (s._dataBlockBgn i) (s._dataBlockLen i) < getPosition s) ∧
    s._dataPos ≤ s._dataBlockLenMaxB ∧ s._dataBlockLen s._dataBlk ≤ s._dataBlockLenMaxB ∧
    s._dataBlockBgn s._dataBlk + s._dataBlockLenMaxB + 128 < 2 ^ 64

instance (s : stuffedBits) : Decidable s.wellFormed := by
  unfold wellFormed; infer_instance

end stuffedBits

/-! ## Properties of bitArray -/

theorem getBit_word_eq_testBit (x b : Nat) : (((x >>> b) &&& 1) != 0) = x.testBit b := by
  unfold Nat.testBit
  rw [Nat.and_comm]

theorem testBit_bool_shift (v : Bool) (b j : Nat) :
    ((if v then 1 else 0) <<< b : Nat).testBit j = (decide (j = b) && v) := by
  cases v
  · simp
  · simp [Nat.one_shiftLeft, Nat.testBit_two_pow]
    exact eq_comm

theorem testBit_setWord (x b j : Nat) (v : Bool) (hj : j < 64) :
    (((x &&& not64 (1 <<< b)) ||| ((if v then 1 else 0) <<< b)) : Nat).testBit j
      = if j = b then v else x.testBit j := by
  rw [Nat.testBit_or, Nat.testBit_and, testBit_bool_shift]
  unfold not64 uint64max
  rw [Nat.testBit_xor, Nat.testBit_two_pow_sub_one, Nat.one_shiftLeft, Nat.testBit_two_pow]
  by_cases h : j = b
  · subst h; cases v <;> simp [hj]
  · have h2 : ¬ b = j := fun e => h e.symm
    simp [h, h2, hj]

theorem testBit_flipWord (x b j : Nat) :
    (x ^^^ (1 <<< b)).testBit j = if j = b then !x.testBit j else x.testBit j := by
  rw [Nat.testBit_xor, Nat.one_shiftLeft, Nat.testBit_two_pow]
  by_cases h : j = b
  · subst h; simp
  · have h2 : ¬ b = j := fun e => h e.symm
    simp [h, h2]

theorem and_pow_shiftRight (x b : Nat) : (x &&& (1 <<< b)) >>> b = (x >>> b) &&& 1 := by
  apply Nat.eq_of_testBit_eq
  intro j
  rw [Nat.testBit_shiftRight, Nat.testBit_and, Nat.testBit_and, Nat.testBit_shiftRight,
    Nat.one_shiftLeft, Nat.testBit_two_pow]
  have h1 : Nat.testBit 1 j = decide (0 = j) := by
    have := @Nat.testBit_two_pow 0 j
    simpa using this
  rw [h1]
  congr 1
  simp
  exact eq_comm

namespace bitArray

theorem allocated_words (a : bitArray) (h : a.allocated) :
    ∃ ws, a._bits = some ws ∧ ws.length = a._maxBitAvail / 64 + 1 := by
  unfold allocated at h
  cases hb : a._bits with
  | none => simp [hb] at h
  | some ws => exact ⟨ws, rfl, by simpa [hb] using h⟩

theorem getBit_eq (a : bitArray) (ws : List Nat) (hb : a._bits = some ws)
    (hl : ws.length = a._maxBitAvail / 64 + 1) (p : Nat) (hp : p < a._maxBitAvail) :
    a.getBit p = .ok ((ws.getD (p / 64) 0).testBit (63 - p % 64)) := by
  have hw : p / 64 < ws.length := by omega
  simp only [getBit, hb, hp, not_true_eq_false, if_false, List.getElem?_eq_getElem hw,
    getBit_word_eq_testBit, List.getD_eq_getElem?_getD, Option.getD_some]

theorem setBit_eq (a : bitArray) (ws : List Nat) (hb : a._bits = some ws)
    (hl : ws.length = a._maxBitAvail / 64 + 1) (p : Nat) (hp : p < a._maxBitAvail) (v : Bool) :
    a.setBit p v = (.ok (), { a with _bits := some (ws.set (p / 64)
      (((ws.getD (p / 64) 0) &&& not64 (1 <<< (63 - p % 64)))
        ||| ((if v then 1 else 0) <<< (63 - p % 64)))) }) := by
  have hw : p / 64 < ws.length := by omega
  simp only [setBit, hb, hp, not_true_eq_false, if_false, List.getElem?_eq_getElem hw,
    List.getD_eq_getElem?_getD, Option.getD_some]

theorem flipBit_eq (a : bitArray) (ws : List Nat) (hb : a._bits = some ws)
    (hl : ws.length = a._maxBitAvail / 64 + 1) (p : Nat) (hp : p < a._maxBitAvail) :
    a.flipBit p = (.ok ((ws.getD (p / 64) 0).testBit (63 - p % 64)),
      { a with _bits := some (ws.set (p / 64) ((ws.getD (p / 64) 0) ^^^ (1 <<< (63 - p % 64)))) }) := by
  have hw : p / 64 < ws.length := by omega
  simp only [flipBit, hb, hp, not_true_eq_false, if_false, List.getElem?_eq_getElem hw,
    List.getD_eq_getElem?_getD, Option.getD_some]
  congr 2
  rw [and_pow_shiftRight, getBit_word_eq_testBit]

end bitArray

theorem getD_set_word (ws : List Nat) (w j x : Nat) (hw : w < ws.length) :
    (ws.set w x).getD j 0 = if j = w then x else ws.getD j 0 := by
  simp only [List.getD_eq_getElem?_getD, List.getElem?_set]
  by_cases h : j = w
  · subst h; simp [hw]
  · have h2 : ¬ w = j := fun e => h e.symm
    simp [h, h2]

/-- C1: on an allocated `bitArray` of capacity `n`, for every `p < n` and every
boolean `b`, `setBit(p, b)` succeeds, afterwards `getBit(p)` returns `b`, and
`getBit(q)` returns what it returned before for every `q < n` other than `p`. -/
theorem bitArray_setBit_getBit (a : bitArray) (h : a.allocated) (p : Nat)
    (hp : p < a._maxBitAvail) (b : Bool) :
    (a.setBit p b).1 = .ok () ∧ (a.setBit p b).2.getBit p = .ok b ∧
      ∀ q, q < a._maxBitAvail → q ≠ p → (a.setBit p b).2.getBit q = a.getBit q := by
  obtain ⟨ws, hb, hl⟩ := bitArray.allocated_words a h
  have hw : p / 64 < ws.length := by omega
  rw [bitArray.setBit_eq a ws hb hl p hp b]
  have hg : ∀ (ws2 : List Nat), ws2.length = ws.length → ∀ q, q < a._maxBitAvail →
      ({ a with _bits := some ws2 } : bitArray).getBit q
        = .ok ((ws2.getD (q / 64) 0).testBit (63 - q % 64)) :=
    fun ws2 h2 q hq => bitArray.getBit_eq { a with _bits := some ws2 } ws2 rfl (by rw [h2]; exact hl) q hq
  refine ⟨rfl, ?_, ?_⟩
  · show bitArray.getBit _ p = _
    rw [hg _ (by simp) p hp, getD_set_word _ _ _ _ hw,
      if_pos rfl, testBit_setWord _ _ _ _ (by omega), if_pos rfl]
  · intro q hq hne
    show bitArray.getBit _ q = _
    rw [hg _ (by simp) q hq, bitArray.getBit_eq a ws hb hl q hq,
      getD_set_word _ _ _ _ hw]
    by_cases hqw : q / 64 = p / 64
    · rw [if_pos hqw, testBit_setWord _ _ _ _ (by omega), if_neg (by omega), hqw]
    · rw [if_neg hqw]

/-- C1, at a concrete input: a 100-bit array, position 70, value `true`. -/
theorem bitArray_setBit_getBit_witness :
    (bitArray.new 100).allocated ∧ 70 < (bitArray.new 100)._maxBitAvail ∧
      ((bitArray.new 100).setBit 70 true).1 = .ok () ∧
      ((bitArray.new 100).setBit 70 true).2.getBit 70 = .ok true ∧
      ∀ q, q < (bitArray.new 100)._maxBitAvail → q ≠ 70 →
        ((bitArray.new 100).setBit 70 true).2.getBit q = (bitArray.new 100).getBit q :=
  ⟨by decide, by decide,
    bitArray_setBit_getBit (bitArray.new 100) (by decide) 70 (by decide) true⟩

/-! ## Properties of stuffedBits -/

namespace stuffedBits

theorem ensureSpace_stay (s : stuffedBits) (n : Nat) (h1 : 1 ≤ s._dataBit) (h2 : s._dataBit ≤ 64)
    (hfit : add64 s._dataPos n < s._dataBlockLenMaxB) : ensureSpace s n = .ok s := by
  have h0 : s._dataBit ≠ 0 := by omega
  simp [ensureSpace, h0, h2, hfit]

theorem ensureSpace_new (s : stuffedBits) (n : Nat) (h1 : 1 ≤ s._dataBit) (h2 : s._dataBit ≤ 64)
    (hfit : ¬ add64 s._dataPos n < s._dataBlockLenMaxB) (hn : n ≤ s._dataBlockLenMaxB) :
    ensureSpace s n = .ok (afterNewBlock s) := by
  have h0 : s._dataBit ≠ 0 := by omega
  unfold ensureSpace afterNewBlock
  by_cases hg : add32 s._dataBlocksLen 1 ≥ s._dataBlocksMax
  · simp [h0, h2, hfit, hn, hg, growBlockLists, setArraySize, clearBlock]
  · simp [h0, h2, hfit, hn, hg, growBlockLists, setArraySize, clearBlock]

theorem ensureSpace_ok_cases (s t : stuffedBits) (n : Nat) (h : ensureSpace s n = .ok t) :
    t = s ∨ t = afterNewBlock s := by
  by_cases h0 : s._dataBit = 0
  · simp [ensureSpace, h0] at h
  by_cases h2 : s._dataBit ≤ 64
  swap
  · simp [ensureSpace, h0, h2] at h
  by_cases hfit : add64 s._dataPos n < s._dataBlockLenMaxB
  · rw [ensureSpace_stay s n (by omega) h2 hfit] at h
    left; exact (Except.ok.inj h).symm
  by_cases hn : n ≤ s._dataBlockLenMaxB
  · rw [ensureSpace_new s n (by omega) h2 hfit hn] at h
    right; exact (Except.ok.inj h).symm
  · exfalso
    unfold ensureSpace at h
    by_cases hg : add32 s._dataBlocksLen 1 ≥ s._dataBlocksMax
    · simp [h0, h2, hfit, hn, hg, growBlockLists, setArraySize] at h
    · simp [h0, h2, hfit, hn, hg, growBlockLists, setArraySize] at h

end stuffedBits

open stuffedBits

/-- C3: for every stream state with `1 <= _dataBit <= 64` and every
`spaceNeeded <= _dataBlockLenMaxB`, `ensureSpace(spaceNeeded)` returns normally
and afterwards `_dataPos + spaceNeeded <= _dataBlockLenMaxB`, both as the
`uint64` expression and, when the sum did not wrap on entry, as numbers. -/
theorem stuffedBits_ensureSpace_fits (s : stuffedBits) (spaceNeeded : Nat)
    (h1 : 1 ≤ s._dataBit) (h2 : s._dataBit ≤ 64) (hn : spaceNeeded ≤ s._dataBlockLenMaxB) :
    ∃ t, ensureSpace s spaceNeeded = .ok t ∧
      add64 t._dataPos spaceNeeded ≤ t._dataBlockLenMaxB ∧
      (s._dataPos + spaceNeeded < 2 ^ 64 → t._dataPos + spaceNeeded ≤ t._dataBlockLenMaxB) := by
  by_cases hfit : add64 s._dataPos spaceNeeded < s._dataBlockLenMaxB
  · refine ⟨s, ensureSpace_stay s spaceNeeded h1 h2 hfit, Nat.le_of_lt hfit, ?_⟩
    intro hw
    unfold add64 at hfit
    rw [Nat.mod_eq_of_lt hw] at hfit
    exact Nat.le_of_lt hfit
  · refine ⟨afterNewBlock s, ensureSpace_new s spaceNeeded h1 h2 hfit hn, ?_, ?_⟩
    · show add64 0 spaceNeeded ≤ s._dataBlockLenMaxB
      unfold add64
      exact Nat.le_trans (Nat.mod_le _ _) (by omega)
    · intro _
      show 0 + spaceNeeded ≤ s._dataBlockLenMaxB
      omega

/-- C3, at a concrete input: a 128-bit block holding 100 bits, 64 more needed. -/
theorem stuffedBits_ensureSpace_fits_witness :
    ∃ t, ensureSpace (ofBlocks 128 [0] [0] 0 100) 64 = .ok t ∧
      add64 t._dataPos 64 ≤ t._dataBlockLenMaxB ∧
      ((ofBlocks 128 [0] [0] 0 100)._dataPos + 64 < 2 ^ 64 →
        t._dataPos + 64 ≤ t._dataBlockLenMaxB) :=
  stuffedBits_ensureSpace_fits (ofBlocks 128 [0] [0] 0 100) 64 (by decide) (by decide) (by decide)

/-- The stream after `updateBlk` has moved the head to the next block. -/
theorem updateBlk_ok_cases (s t : stuffedBits) (n : Nat) (h : updateBlk s n = .ok t) :
    (add64 s._dataPos n ≤ s._dataBlockLen s._dataBlk ∧ t = s) ∨
      (¬ add64 s._dataPos n ≤ s._dataBlockLen s._dataBlk ∧
        s._dataPos = s._dataBlockLen s._dataBlk ∧ add64 s._dataBlk 1 < s._dataBlocksLen ∧
        t = { s with
          _dataBlk := add64 s._dataBlk 1
          _dataPos := 0
          _data := s._dataBlocks (add64 s._dataBlk 1)
          _dataWrd := 0
          _dataBit := 64 }) := by
  unfold updateBlk at h
  by_cases h0 : s._dataBit ≠ 0
  swap
  · rw [if_pos h0] at h; cases h
  rw [if_neg (fun hc => hc h0)] at h
  by_cases h2 : s._dataBit ≤ 64
  swap
  · rw [if_pos h2] at h; cases h
  rw [if_neg (fun hc => hc h2)] at h
  by_cases hfit : add64 s._dataPos n ≤ s._dataBlockLen s._dataBlk
  · rw [if_pos hfit] at h
    exact Or.inl ⟨hfit, (Except.ok.inj h).symm⟩
  rw [if_neg hfit] at h
  by_cases hend : s._dataPos = s._dataBlockLen s._dataBlk
  swap
  · rw [if_pos hend] at h; cases h
  rw [if_neg (fun hc => hc hend)] at h
  dsimp only at h
  by_cases hnext : add64 s._dataBlk 1 < s._dataBlocksLen
  · rw [if_neg (fun hc => hc hnext)] at h
    exact Or.inr ⟨hfit, hend, hnext, (Except.ok.inj h).symm⟩
  · rw [if_pos hnext] at h; cases h

theorem chainInv_afterNewBlock (s : stuffedBits) (hty : s._dataBlocksLen < 2 ^ 32)
    (hpos : 0 < s._dataBlocksLen) (h : chainInv s) : chainInv (afterNewBlock s) := by
  intro i hi h0
  by_cases hw : s._dataBlocksLen + 1 = 2 ^ 32
  · have : add32 s._dataBlocksLen 1 = 0 := by unfold add32; rw [hw]; simp
    simp [afterNewBlock, this] at hi
  · have e1 : add32 s._dataBlocksLen 1 = s._dataBlocksLen + 1 := by
      unfold add32; exact Nat.mod_eq_of_lt (by omega)
    have e2 : sub32 (s._dataBlocksLen + 1) 1 = s._dataBlocksLen := by
      unfold sub32; omega
    have e3 : sub32 (s._dataBlocksLen + 1) 2 = s._dataBlocksLen - 1 := by
      unfold sub32; omega
    have e4 : sub32 s._dataBlocksLen 1 = s._dataBlocksLen - 1 := by
      unfold sub32; omega
    simp only [afterNewBlock, e1, e2, e3, e4] at hi ⊢
    by_cases hil : i = s._dataBlocksLen
    · subst hil
      have hne : s._dataBlocksLen - 1 ≠ s._dataBlocksLen := by omega
      simp [Function.update_apply, hne, e1, e2, e3, e4]
    · have hlt : i < s._dataBlocksLen := by omega
      have n1 : i ≠ s._dataBlocksLen := hil
      have n2 : i - 1 ≠ s._dataBlocksLen := by omega
      have n3 : i - 1 ≠ s._dataBlocksLen - 1 := by omega
      simp only [Function.update_apply, e1, e2, e3, e4, n1, n2, n3, if_false]
      exact h i hlt h0

/-- C4 (as the code has it): in every state with `_dataBlk < _dataBlocksLen`
(`_dataBlocksLen` being a `uint32`) in which the block chain relation holds, it
still holds after `updateBit()`, after a successful `updateBlk(n)` and after a
successful `ensureSpace(n)`; after `updateLen()` it still holds when the head is
in the last block or is not past the used length of its block. -/
theorem stuffedBits_chain_preserved (s : stuffedBits) (hty : s._dataBlocksLen < 2 ^ 32)
    (hblk : s._dataBlk < s._dataBlocksLen) (h : chainInv s) :
    (s._dataBlk + 1 = s._dataBlocksLen ∨ s._dataPos ≤ s._dataBlockLen s._dataBlk →
        chainInv (updateLen s)) ∧
      chainInv (updateBit s) ∧
      (∀ n t, updateBlk s n = .ok t → chainInv t) ∧
      (∀ n t, ensureSpace s n = .ok t → chainInv t) := by
  refine ⟨?_, ?_, ?_, ?_⟩
  · intro hc i hi h0
    show s._dataBlockBgn i = add64 (s._dataBlockBgn (i - 1))
      (Function.update s._dataBlockLen s._dataBlk (max s._dataPos (s._dataBlockLen s._dataBlk)) (i - 1))
    have hi2 : i < s._dataBlocksLen := hi
    rcases hc with hc | hc
    · have n1 : i - 1 ≠ s._dataBlk := by omega
      rw [Function.update_noteq n1]
      exact h i hi2 h0
    · rw [Nat.max_eq_right hc, Function.update_eq_self]
      exact h i hi2 h0
  · unfold updateBit
    split
    · exact h
    · exact h
  · intro n t ht
    rcases updateBlk_ok_cases s t n ht with ⟨_, e⟩ | ⟨_, _, _, e⟩
    · rw [e]; exact h
    · rw [e]; exact h
  · intro n t ht
    rcases ensureSpace_ok_cases s t n ht with e | e
    · rw [e]; exact h
    · rw [e]; exact chainInv_afterNewBlock s hty (by omega) h

/-- C4, at a concrete input: two chained blocks, head in the last one. -/
theorem stuffedBits_chain_preserved_witness :
    (ofBlocks 100 [0, 10] [10, 5] 1 7)._dataBlocksLen < 2 ^ 32 ∧
      (ofBlocks 100 [0, 10] [10, 5] 1 7)._dataBlk
        < (ofBlocks 100 [0, 10] [10, 5] 1 7)._dataBlocksLen ∧
      chainInv (ofBlocks 100 [0, 10] [10, 5] 1 7) ∧
      chainInv (updateLen (ofBlocks 100 [0, 10] [10, 5] 1 7)) ∧
      chainInv (updateBit (ofBlocks 100 [0, 10] [10, 5] 1 7)) ∧
      (∀ n t, updateBlk (ofBlocks 100 [0, 10] [10, 5] 1 7) n = .ok t → chainInv t) ∧
      (∀ n t, ensureSpace (ofBlocks 100 [0, 10] [10, 5] 1 7) n = .ok t → chainInv t) :=
  have w := stuffedBits_chain_preserved (ofBlocks 100 [0, 10] [10, 5] 1 7)
    (by decide) (by decide) (by decide)
  ⟨by decide, by decide, by decide, w.1 (Or.inl (by decide)), w.2.1, w.2.2.1, w.2.2.2⟩

/-- C4 as stated fails for `updateLen()`: with the head in block 0 of two
chained blocks, past the used length of block 0, `updateLen()` lengthens block 0
and leaves the start of block 1 where it was. -/
theorem stuffedBits_chain_updateLen_breaks :
    (ofBlocks 100 [0, 10] [10, 5] 0 20)._dataBlk < (ofBlocks 100 [0, 10] [10, 5] 0 20)._dataBlocksLen ∧
      chainInv (ofBlocks 100 [0, 10] [10, 5] 0 20) ∧
      ¬ chainInv (updateLen (ofBlocks 100 [0, 10] [10, 5] 0 20)) := by
  decide

/-- C2, evaluated where the write fits exactly: a single 128-bit block with the
head at bit 100 and 28 bits needed (`100 + 28 = 128`).  `ensureSpace(28)` does
not leave the state alone: it seals block 0 at 100 bits and starts block 1. -/
theorem stuffedBits_ensureSpace_exact_fit :
    (ofBlocks 128 [0] [0] 0 100)._dataPos + 28 ≤ (ofBlocks 128 [0] [0] 0 100)._dataBlockLenMaxB ∧
      (ofBlocks 128 [0] [0] 0 100)._dataBlocksLen = 1 ∧
      (ensureSpace (ofBlocks 128 [0] [0] 0 100) 28).toOption.map
          (fun t => (t._dataBlocksLen, t._dataBlockLen 0, t._dataBlk, t._dataPos))
        = some (2, 100, 1, 0) := by
  decide

/-- C5, evaluated with the head in an earlier block: two blocks of used
lengths 96 and 32, capacity 100, head in block 0 at bit 64, 64 bits needed.
`ensureSpace(64)` starts block 2, leaves the used length of block 0 (the block
the head is in) at 96 and overwrites the used length of block 1 with 64. -/
theorem stuffedBits_ensureSpace_seals_last :
    (ofBlocks 100 [0, 96] [96, 32] 0 64)._dataBlk = 0 ∧
      (ofBlocks 100 [0, 96] [96, 32] 0 64)._dataPos = 64 ∧
      (ensureSpace (ofBlocks 100 [0, 96] [96, 32] 0 64) 64).toOption.map
          (fun t => (t._dataBlocksLen, t._dataBlockLen 0, t._dataBlockLen 1))
        = some (3, 96, 64) := by
  decide

/-- C7, evaluated at a short next block: two blocks of used lengths 10 and 3,
head at the end of block 0, 5 bits requested.  `updateBlk(5)` returns normally
with the head at bit 0 of block 1, where only 3 bits are written. -/
theorem stuffedBits_updateBlk_short_next :
    (updateBlk (ofBlocks 100 [0, 10] [10, 3] 0 10) 5).toOption.map
        (fun t => (t._dataBlk, t._dataPos, t._dataBlockLen t._dataBlk,
          decide (t._dataPos + 5 ≤ t._dataBlockLen t._dataBlk)))
      = some (1, 0, 3, false) := by
  decide

/-- C6: in every stream state with `1 <= _dataBit <= 64`, `updateBlk(readLength)`
stops at an assertion exactly when the span does not fit in the used length of
the current block (`_dataPos + readLength > _dataBlockLen[_dataBlk]`, a `uint64`
sum) and either the head is not at the end of that block or there is no next
block (`_dataBlk + 1 >= _dataBlocksLen`). -/
theorem stuffedBits_updateBlk_fault_iff (s : stuffedBits) (readLength : Nat)
    (h1 : 1 ≤ s._dataBit) (h2 : s._dataBit ≤ 64) :
    updateBlk s readLength = .error .assertFailed ↔
      (add64 s._dataPos readLength > s._dataBlockLen s._dataBlk ∧
        (s._dataPos ≠ s._dataBlockLen s._dataBlk ∨ add64 s._dataBlk 1 ≥ s._dataBlocksLen)) := by
  have h0 : s._dataBit ≠ 0 := by omega
  unfold updateBlk
  rw [if_neg (fun hc => hc h0), if_neg (fun hc => hc h2)]
  by_cases hfit : add64 s._dataPos readLength ≤ s._dataBlockLen s._dataBlk
  · rw [if_pos hfit]
    constructor
    · intro h; cases h
    · intro h; omega
  rw [if_neg hfit]
  by_cases hend : s._dataPos = s._dataBlockLen s._dataBlk
  swap
  · rw [if_pos hend]
    constructor
    · intro _; exact ⟨by omega, Or.inl hend⟩
    · intro _; rfl
  rw [if_neg (fun hc => hc hend)]
  dsimp only
  by_cases hnext : add64 s._dataBlk 1 < s._dataBlocksLen
  · rw [if_neg (fun hc => hc hnext)]
    constructor
    · intro h; cases h
    · rintro ⟨_, h | h⟩
      · exact absurd hend h
      · omega
  · rw [if_pos hnext]
    constructor
    · intro _; exact ⟨by omega, Or.inr (by omega)⟩
    · intro _; rfl

/-- C6, at a concrete input: head at bit 4 of a block with 10 bits written,
8 bits requested. -/
theorem stuffedBits_updateBlk_fault_iff_witness :
    1 ≤ (ofBlocks 100 [0, 10] [10, 3] 0 4)._dataBit ∧
      (ofBlocks 100 [0, 10] [10, 3] 0 4)._dataBit ≤ 64 ∧
      updateBlk (ofBlocks 100 [0, 10] [10, 3] 0 4) 8 = .error .assertFailed :=
  ⟨by decide, by decide,
    (stuffedBits_updateBlk_fault_iff (ofBlocks 100 [0, 10] [10, 3] 0 4) 8
      (by decide) (by decide)).2 (by decide)⟩

/-- C8: with `1 <= _dataBit <= 64`, `updateBlk(readLength)` returns the state
unchanged when `_dataPos + readLength <= _dataBlockLen[_dataBlk]`; otherwise,
when it returns normally, `_dataBlk` is one more (as a `uint64`, and as a number
when the head was in an existing block), `_data` is the pointer of that block,
`_dataPos = 0`, `_dataWrd = 0`, `_dataBit = 64`; whenever it returns normally
the block count, the used lengths, the start offsets, the block pointers and
the stored words are as before. -/
theorem stuffedBits_updateBlk_effect (s : stuffedBits) (readLength : Nat) :
    (1 ≤ s._dataBit → s._dataBit ≤ 64 →
        add64 s._dataPos readLength ≤ s._dataBlockLen s._dataBlk →
        updateBlk s readLength = .ok s) ∧
      ∀ t, updateBlk s readLength = .ok t →
        (¬ add64 s._dataPos readLength ≤ s._dataBlockLen s._dataBlk →
          t._dataBlk = add64 s._dataBlk 1 ∧
          (s._dataBlk < s._dataBlocksLen → s._dataBlocksLen < 2 ^ 32 →
            t._dataBlk = s._dataBlk + 1) ∧
          t._data = s._dataBlocks t._dataBlk ∧
          t._dataPos = 0 ∧ t._dataWrd = 0 ∧ t._dataBit = 64) ∧
        t._dataBlocksLen = s._dataBlocksLen ∧ t._dataBlockLen = s._dataBlockLen ∧
        t._dataBlockBgn = s._dataBlockBgn ∧ t._dataBlocks = s._dataBlocks ∧
        t.heap = s.heap ∧ t.heapTop = s.heapTop ∧
        t._dataBlockLenMaxB = s._dataBlockLenMaxB ∧
        t._dataBlockLenMaxW = s._dataBlockLenMaxW := by
  refine ⟨?_, ?_⟩
  · intro h1 h2 hfit
    have h0 : s._dataBit ≠ 0 := by omega
    unfold updateBlk
    rw [if_neg (fun hc => hc h0), if_neg (fun hc => hc h2), if_pos hfit]
  · intro t h
    rcases updateBlk_ok_cases s t readLength h with ⟨hfit, e⟩ | ⟨hfit, _, _, e⟩
    · subst e
      exact ⟨fun hc => absurd hfit hc, rfl, rfl, rfl, rfl, rfl, rfl, rfl, rfl⟩
    · subst e
      refine ⟨fun _ => ⟨rfl, ?_, rfl, rfl, rfl, rfl⟩, rfl, rfl, rfl, rfl, rfl, rfl, rfl, rfl⟩
      intro hb hty
      show add64 s._dataBlk 1 = s._dataBlk + 1
      unfold add64
      exact Nat.mod_eq_of_lt (by omega)

/-- C8, at a concrete input: two blocks with 10 and 30 bits written.  With the
head at bit 4 of block 0 a 5-bit read leaves the state alone; with the head at
the end of block 0 it moves the head to the start of block 1. -/
theorem stuffedBits_updateBlk_effect_witness :
    updateBlk (ofBlocks 100 [0, 10] [10, 30] 0 4) 5 = .ok (ofBlocks 100 [0, 10] [10, 30] 0 4) ∧
      updateBlk (ofBlocks 100 [0, 10] [10, 30] 0 10) 5
        = .ok (ofBlocks 100 [0, 10] [10, 30] 1 0) ∧
      (ofBlocks 100 [0, 10] [10, 30] 1 0)._dataBlk
        = (ofBlocks 100 [0, 10] [10, 30] 0 10)._dataBlk + 1 ∧
      (ofBlocks 100 [0, 10] [10, 30] 1 0)._dataBlockLen
        = (ofBlocks 100 [0, 10] [10, 30] 0 10)._dataBlockLen :=
  have w := (stuffedBits_updateBlk_effect (ofBlocks 100 [0, 10] [10, 30] 0 10) 5).2
    (ofBlocks 100 [0, 10] [10, 30] 1 0) rfl
  ⟨(stuffedBits_updateBlk_effect (ofBlocks 100 [0, 10] [10, 30] 0 4) 5).1
      (by decide) (by decide) (by decide),
    rfl, (w.1 (by decide)).2.1 (by decide) (by decide), w.2.2.1⟩

/-- C9: on an allocated `bitArray` of capacity `n = _maxBitAvail`, each of
`getBit(pos)`, `setBit(pos, v)` and `flipBit(pos)` stops at its assertion exactly
when `pos >= n` and otherwise returns normally; a `setBit` or `flipBit` that
stops at the assertion leaves the array as it was. -/
theorem bitArray_fails_iff_out_of_range (a : bitArray) (h : a.allocated) (pos : Nat) (v : Bool) :
    (a.getBit pos = .error .assertFailed ↔ a._maxBitAvail ≤ pos) ∧
      ((a.setBit pos v).1 = .error .assertFailed ↔ a._maxBitAvail ≤ pos) ∧
      ((a.flipBit pos).1 = .error .assertFailed ↔ a._maxBitAvail ≤ pos) ∧
      (pos < a._maxBitAvail →
        (a.getBit pos).toBool = true ∧ (a.setBit pos v).1.toBool = true ∧
          (a.flipBit pos).1.toBool = true) ∧
      (a._maxBitAvail ≤ pos → (a.setBit pos v).2 = a ∧ (a.flipBit pos).2 = a) := by
  obtain ⟨ws, hb, hl⟩ := bitArray.allocated_words a h
  by_cases hp : pos < a._maxBitAvail
  · have hn : ¬ a._maxBitAvail ≤ pos := by omega
    rw [bitArray.getBit_eq a ws hb hl pos hp, bitArray.setBit_eq a ws hb hl pos hp v,
      bitArray.flipBit_eq a ws hb hl pos hp]
    refine ⟨⟨fun e => ?_, fun e => absurd e hn⟩, ⟨fun e => ?_, fun e => absurd e hn⟩,
      ⟨fun e => ?_, fun e => absurd e hn⟩, fun _ => ⟨rfl, rfl, rfl⟩, fun e => absurd e hn⟩
    · cases e
    · cases e
    · cases e
  · have hn : a._maxBitAvail ≤ pos := by omega
    have eg : a.getBit pos = .error .assertFailed := by
      unfold bitArray.getBit; exact if_pos hp
    have es : a.setBit pos v = (.error .assertFailed, a) := by
      unfold bitArray.setBit; exact if_pos hp
    have ef : a.flipBit pos = (.error .assertFailed, a) := by
      unfold bitArray.flipBit; exact if_pos hp
    rw [eg, es, ef]
    exact ⟨⟨fun _ => hn, fun _ => rfl⟩, ⟨fun _ => hn, fun _ => rfl⟩, ⟨fun _ => hn, fun _ => rfl⟩,
      fun e => absurd e hp, fun _ => ⟨rfl, rfl⟩⟩

/-- C9, at a concrete input: a 100-bit array and position 100. -/
theorem bitArray_fails_iff_out_of_range_witness :
    (bitArray.new 100).allocated ∧
      (bitArray.new 100).getBit 100 = .error .assertFailed ∧
      ((bitArray.new 100).setBit 100 true).1 = .error .assertFailed ∧
      ((bitArray.new 100).flipBit 100).1 = .error .assertFailed ∧
      ((bitArray.new 100).setBit 100 true).2 = bitArray.new 100 ∧
      ((bitArray.new 100).flipBit 100).2 = bitArray.new 100 :=
  have w := bitArray_fails_iff_out_of_range (bitArray.new 100) (by decide) 100 true
  ⟨by decide, w.1.2 (by decide), w.2.1.2 (by decide), w.2.2.1.2 (by decide),
    (w.2.2.2.2 (by decide)).1, (w.2.2.2.2 (by decide)).2⟩

/-- C10: MSB-first indexing.  On an allocated `bitArray`, for every
`p < capacity`, `getBit(p)` is bit `63 - p % 64` (counted from the least
significant bit) of backing word `p / 64`; and when every backing word is zero,
`setBit(p, true)` leaves word `p / 64` equal to `2 ^ (63 - p % 64)` and every
other word zero. -/
theorem bitArray_msb_first (a : bitArray) (h : a.allocated) (p : Nat) (hp : p < a._maxBitAvail) :
    a.getBit p = .ok ((a.word (p / 64)).testBit (63 - p % 64)) ∧
      ((∀ w, a.word w = 0) →
        (a.setBit p true).2.word (p / 64) = 2 ^ (63 - p % 64) ∧
          ∀ w, w ≠ p / 64 → (a.setBit p true).2.word w = 0) := by
  obtain ⟨ws, hb, hl⟩ := bitArray.allocated_words a h
  have hw : p / 64 < ws.length := by omega
  have hword : ∀ w, a.word w = ws.getD w 0 := by
    intro w; unfold bitArray.word; rw [hb]
  refine ⟨?_, ?_⟩
  · rw [bitArray.getBit_eq a ws hb hl p hp, hword]
  · intro hz
    rw [bitArray.setBit_eq a ws hb hl p hp true]
    have hz2 : ∀ w, ws.getD w 0 = 0 := fun w => by rw [← hword]; exact hz w
    constructor
    · show (ws.set _ _).getD (p / 64) 0 = _
      rw [getD_set_word _ _ _ _ hw, if_pos rfl, hz2]
      simp [Nat.one_shiftLeft]
    · intro w hne
      show (ws.set _ _).getD w 0 = _
      rw [getD_set_word _ _ _ _ hw, if_neg hne, hz2]

/-- C10, at a concrete input: a fresh 200-bit array and position 70, which is
bit 57 of word 1. -/
theorem bitArray_msb_first_witness :
    (bitArray.new 200).allocated ∧ 70 < (bitArray.new 200)._maxBitAvail ∧
      ((bitArray.new 200).setBit 70 true).2.word (70 / 64) = 2 ^ (63 - 70 % 64) ∧
      ∀ w, w ≠ 70 / 64 → ((bitArray.new 200).setBit 70 true).2.word w = 0 :=
  ⟨by decide, by decide,
    (bitArray_msb_first (bitArray.new 200) (by decide) 70 (by decide)).2
      (fun w => by
        show (List.replicate 4 0).getD w 0 = 0
        rcases w with _ | _ | _ | _ | w <;> rfl)⟩

/-! ## bitArray: allocation, clearing, flipping -/

theorem getD_replicate_zero (k w : Nat) : (List.replicate k 0).getD w 0 = 0 := by
  rw [List.getD_eq_getElem?_getD, List.getElem?_replicate]
  split <;> rfl

theorem bitArray_allocate_fresh (a : bitArray) (n : Nat) (h : a.isAllocated = false) :
    a.allocate n = { _maxBitSet := 0, _maxBitAvail := n,
                     _bits := some (List.replicate (n / 64 + 1) 0) } := by
  unfold bitArray.allocate
  rw [if_neg (by simp [h])]

theorem bitArray_getBit_zero_words (a : bitArray) (k : Nat)
    (hb : a._bits = some (List.replicate k 0)) (hk : k = a._maxBitAvail / 64 + 1)
    (p : Nat) (hp : p < a._maxBitAvail) : a.getBit p = .ok false := by
  rw [bitArray.getBit_eq a _ hb (by simp [hk]) p hp, getD_replicate_zero]
  simp

theorem bitArray_clear_eq (a : bitArray) (h : a.allocated) :
    a.clear = .ok { a with _bits := some (List.replicate (a._maxBitAvail / 64 + 1) 0) } := by
  obtain ⟨ws, hb, hl⟩ := bitArray.allocated_words a h
  unfold bitArray.clear
  rw [hb]
  simp only [hl, Nat.lt_irrefl, if_false]
  rw [List.drop_of_length_le (Nat.le_of_eq hl), List.append_nil]

/-- C11 (as the code has it): `allocate(n)` on a not-yet-allocated `bitArray`
reserves exactly `n / 64 + 1` words of 64 bits, and `clear()` on an allocated
array of capacity `m` zeroes exactly its `m / 64 + 1` words; `n / 64 + 1` is
`ceil(n / 64)` when `n` is not a multiple of 64 and `ceil(n / 64) + 1` when it
is. -/
theorem bitArray_allocate_word_count (a : bitArray) (n : Nat) (h : a.isAllocated = false) :
    (a.allocate n).numWords = some (n / 64 + 1) ∧
      (∀ b : bitArray, b.allocated →
        b.clear = .ok { b with _bits := some (List.replicate (b._maxBitAvail / 64 + 1) 0) }) ∧
      (n % 64 ≠ 0 → n / 64 + 1 = (n + 63) / 64) ∧
      (n % 64 = 0 → n / 64 + 1 = (n + 63) / 64 + 1) := by
  rw [bitArray_allocate_fresh a n h]
  refine ⟨?_, ?_, ?_, ?_⟩
  · simp [bitArray.numWords]
  · intro b hb
    exact bitArray_clear_eq b hb
  · intro hn; omega
  · intro hn; omega

/-- C11, at a concrete input: a null `bitArray` and `n = 100`, where
`ceil(100 / 64) = 2`. -/
theorem bitArray_allocate_word_count_witness :
    (bitArray.new 0).isAllocated = false ∧
      ((bitArray.new 0).allocate 100).numWords = some 2 ∧ 100 / 64 + 1 = (100 + 63) / 64 :=
  have w := bitArray_allocate_word_count (bitArray.new 0) 100 (by decide)
  ⟨by decide, w.1, w.2.2.1 (by decide)⟩

/-- C11 as stated fails when `n` is a multiple of 64: a 64-bit array has two
backing words, and `ceil(64 / 64) = 1`. -/
theorem bitArray_allocate_word_count_64 :
    (bitArray.new 64).allocated ∧ (bitArray.new 64).numWords = some 2 ∧
      (bitArray.new 64).numWords ≠ some ((64 + 63) / 64) := by
  decide

/-- C12: for every `n`, `allocate(n)` on a not-yet-allocated `bitArray` gives an
allocated array of capacity `n` in which `getBit(p)` returns `false` for every
`p < n`. -/
theorem bitArray_allocate_zeroed (a : bitArray) (n : Nat) (h : a.isAllocated = false) :
    (a.allocate n).isAllocated = true ∧ (a.allocate n).allocated ∧
      (a.allocate n)._maxBitAvail = n ∧
      ∀ p, p < n → (a.allocate n).getBit p = .ok false := by
  rw [bitArray_allocate_fresh a n h]
  refine ⟨rfl, by simp [bitArray.allocated], rfl, ?_⟩
  intro p hp
  exact bitArray_getBit_zero_words _ (n / 64 + 1) rfl rfl p hp

/-- C12, at a concrete input: a null `bitArray` and `n = 130`. -/
theorem bitArray_allocate_zeroed_witness :
    (bitArray.new 0).isAllocated = false ∧
      ((bitArray.new 0).allocate 130)._maxBitAvail = 130 ∧
      ∀ p, p < 130 → ((bitArray.new 0).allocate 130).getBit p = .ok false :=
  have w := bitArray_allocate_zeroed (bitArray.new 0) 130 (by decide)
  ⟨by decide, w.2.2.1, w.2.2.2⟩

/-- C13: on an already allocated `bitArray`, `allocate(m)` changes nothing, for
every `m`: the array, its capacity and the value of every bit are as before. -/
theorem bitArray_allocate_idempotent (a : bitArray) (m : Nat) (h : a.isAllocated = true) :
    a.allocate m = a ∧ (a.allocate m)._maxBitAvail = a._maxBitAvail ∧
      ∀ p, (a.allocate m).getBit p = a.getBit p := by
  have e : a.allocate m = a := by
    unfold bitArray.allocate
    rw [if_pos h]
  rw [e]
  exact ⟨rfl, rfl, fun _ => rfl⟩

/-- C13, at a concrete input: a 100-bit array with bit 70 set, then
`allocate(500)`. -/
theorem bitArray_allocate_idempotent_witness :
    ((bitArray.new 100).setBit 70 true).2.isAllocated = true ∧
      ((bitArray.new 100).setBit 70 true).2.allocate 500
        = ((bitArray.new 100).setBit 70 true).2 :=
  ⟨by decide,
    (bitArray_allocate_idempotent ((bitArray.new 100).setBit 70 true).2 500 (by decide)).1⟩

/-- C14: on an allocated `bitArray`, for every `p < capacity`, `flipBit(p)`
returns the value `getBit(p)` had before the call, afterwards `getBit(p)` is
the negation of that value, and `getBit(q)` is as before for every `q != p`. -/
theorem bitArray_flipBit_spec (a : bitArray) (h : a.allocated) (p : Nat)
    (hp : p < a._maxBitAvail) :
    ∃ b, a.getBit p = .ok b ∧ (a.flipBit p).1 = .ok b ∧
      (a.flipBit p).2.getBit p = .ok (!b) ∧
      ∀ q, q ≠ p → (a.flipBit p).2.getBit q = a.getBit q := by
  obtain ⟨ws, hb, hl⟩ := bitArray.allocated_words a h
  have hw : p / 64 < ws.length := by omega
  refine ⟨(ws.getD (p / 64) 0).testBit (63 - p % 64), bitArray.getBit_eq a ws hb hl p hp, ?_⟩
  rw [bitArray.flipBit_eq a ws hb hl p hp]
  have hg : ∀ (ws2 : List Nat), ws2.length = ws.length → ∀ q, q < a._maxBitAvail →
      ({ a with _bits := some ws2 } : bitArray).getBit q
        = .ok ((ws2.getD (q / 64) 0).testBit (63 - q % 64)) :=
    fun ws2 h2 q hq =>
      bitArray.getBit_eq { a with _bits := some ws2 } ws2 rfl (by rw [h2]; exact hl) q hq
  refine ⟨rfl, ?_, ?_⟩
  · show bitArray.getBit _ p = _
    rw [hg _ (by simp) p hp, getD_set_word _ _ _ _ hw, if_pos rfl, testBit_flipWord, if_pos rfl]
  · intro q hne
    show bitArray.getBit _ q = _
    by_cases hq : q < a._maxBitAvail
    · rw [hg _ (by simp) q hq, bitArray.getBit_eq a ws hb hl q hq, getD_set_word _ _ _ _ hw]
      by_cases hqw : q / 64 = p / 64
      · rw [if_pos hqw, testBit_flipWord, if_neg (by omega), hqw]
      · rw [if_neg hqw]
    · have e1 : a.getBit q = .error .assertFailed := by
        unfold bitArray.getBit; exact if_pos hq
      rw [e1]
      unfold bitArray.getBit
      exact if_pos hq

/-- C14, at a concrete input: a fresh 100-bit array and position 70. -/
theorem bitArray_flipBit_spec_witness :
    (bitArray.new 100).allocated ∧ 70 < (bitArray.new 100)._maxBitAvail ∧
      ∃ b, (bitArray.new 100).getBit 70 = .ok b ∧ ((bitArray.new 100).flipBit 70).1 = .ok b ∧
        ((bitArray.new 100).flipBit 70).2.getBit 70 = .ok (!b) ∧
        ∀ q, q ≠ 70 → ((bitArray.new 100).flipBit 70).2.getBit q = (bitArray.new 100).getBit q :=
  ⟨by decide, by decide, bitArray_flipBit_spec (bitArray.new 100) (by decide) 70 (by decide)⟩

/-- C15: on an allocated `bitArray`, `clear()` returns normally, leaves the
capacity unchanged, and afterwards `getBit(p)` returns `false` for every
`p < capacity`. -/
theorem bitArray_clear_zeroes (a : bitArray) (h : a.allocated) :
    ∃ c, a.clear = .ok c ∧ c._maxBitAvail = a._maxBitAvail ∧ c.allocated ∧
      ∀ p, p < a._maxBitAvail → c.getBit p = .ok false := by
  refine ⟨_, bitArray_clear_eq a h, rfl, by simp [bitArray.allocated], ?_⟩
  intro p hp
  exact bitArray_getBit_zero_words
    { a with _bits := some (List.replicate (a._maxBitAvail / 64 + 1) 0) }
    (a._maxBitAvail / 64 + 1) rfl rfl p hp

/-- C15, at a concrete input: a 100-bit array with bit 70 set, then cleared. -/
theorem bitArray_clear_zeroes_witness :
    ((bitArray.new 100).setBit 70 true).2.allocated ∧
      ((bitArray.new 100).setBit 70 true).2.getBit 70 = .ok true ∧
      ∃ c, ((bitArray.new 100).setBit 70 true).2.clear = .ok c ∧
        c._maxBitAvail = ((bitArray.new 100).setBit 70 true).2._maxBitAvail ∧ c.allocated ∧
        ∀ p, p < ((bitArray.new 100).setBit 70 true).2._maxBitAvail → c.getBit p = .ok false :=
  ⟨by decide, by decide,
    bitArray_clear_zeroes ((bitArray.new 100).setBit 70 true).2 (by decide)⟩

/-! ## stuffedBits: used lengths, new blocks, the active word -/

theorem ensureSpace_too_big (s : stuffedBits) (n : Nat) (h1 : 1 ≤ s._dataBit)
    (h2 : s._dataBit ≤ 64) (hfit : ¬ add64 s._dataPos n < s._dataBlockLenMaxB)
    (hn : ¬ n ≤ s._dataBlockLenMaxB) : ensureSpace s n = .error .assertFailed := by
  have h0 : s._dataBit ≠ 0 := by omega
  unfold ensureSpace
  by_cases hg : add32 s._dataBlocksLen 1 ≥ s._dataBlocksMax
  · simp [h0, h2, hfit, hn, hg, growBlockLists, setArraySize]
  · simp [h0, h2, hfit, hn, hg, growBlockLists, setArraySize]

theorem ensureSpace_ok_new (s t : stuffedBits) (n : Nat) (ht : ensureSpace s n = .ok t)
    (hfull : ¬ add64 s._dataPos n < s._dataBlockLenMaxB) : t = afterNewBlock s := by
  by_cases h0 : s._dataBit = 0
  · simp [ensureSpace, h0] at ht
  by_cases h2 : s._dataBit ≤ 64
  swap
  · simp [ensureSpace, h0, h2] at ht
  by_cases hn : n ≤ s._dataBlockLenMaxB
  · rw [ensureSpace_new s n (by omega) h2 hfull hn] at ht
    exact (Except.ok.inj ht).symm
  · rw [ensureSpace_too_big s n (by omega) h2 hfull hn] at ht
    cases ht

theorem sub32_add32_one (L : Nat) (h : L < 2 ^ 32) : sub32 (add32 L 1) 1 = L := by
  unfold sub32 add32
  omega

theorem afterNewBlock_len_old (s : stuffedBits) (hty : s._dataBlocksLen < 2 ^ 32) (i : Nat)
    (hi : i < s._dataBlocksLen) :
    (afterNewBlock s)._dataBlockLen i
      = if i + 1 = s._dataBlocksLen then s._dataPos else s._dataBlockLen i := by
  have e1 : sub32 (add32 s._dataBlocksLen 1) 1 = s._dataBlocksLen :=
    sub32_add32_one _ hty
  have e4 : sub32 s._dataBlocksLen 1 = s._dataBlocksLen - 1 := by
    unfold sub32; omega
  have n1 : i ≠ s._dataBlocksLen := by omega
  show Function.update (Function.update s._dataBlockLen (sub32 s._dataBlocksLen 1) s._dataPos)
      (sub32 (add32 s._dataBlocksLen 1) 1) 0 i = _
  rw [e1, e4, Function.update_noteq n1, Function.update_apply]
  by_cases hl : i + 1 = s._dataBlocksLen
  · rw [if_pos hl, if_pos (by omega)]
  · rw [if_neg hl, if_neg (by omega)]

/-- C16 (as the code has it): `updateLen()` never decreases the used length of
any block and leaves `_dataBlockLen[_dataBlk] = max(_dataPos, previous) >=
_dataPos`.  With the head in the last block, a successful `ensureSpace(n)`
never decreases the used length of an existing block other than the head's;
when it starts a new block it sets the used length of the head's block to
`_dataPos`, which is no decrease when `_dataPos` is at least the previous used
length. -/
theorem stuffedBits_usedLength_highWater (s : stuffedBits) (hty : s._dataBlocksLen < 2 ^ 32) :
    (∀ i, s._dataBlockLen i ≤ (updateLen s)._dataBlockLen i) ∧
      (updateLen s)._dataBlockLen (updateLen s)._dataBlk
        = max s._dataPos (s._dataBlockLen s._dataBlk) ∧
      s._dataPos ≤ (updateLen s)._dataBlockLen (updateLen s)._dataBlk ∧
      (s._dataBlk + 1 = s._dataBlocksLen →
        (∀ n t, ensureSpace s n = .ok t → ∀ i, i < s._dataBlocksLen →
          (i ≠ s._dataBlk ∨ s._dataBlockLen i ≤ s._dataPos) →
          s._dataBlockLen i ≤ t._dataBlockLen i) ∧
        (∀ n t, ensureSpace s n = .ok t → ¬ add64 s._dataPos n < s._dataBlockLenMaxB →
          t._dataBlockLen s._dataBlk = s._dataPos)) := by
  have hmax : (updateLen s)._dataBlockLen (updateLen s)._dataBlk
      = max s._dataPos (s._dataBlockLen s._dataBlk) := by
    show Function.update s._dataBlockLen s._dataBlk _ s._dataBlk = _
    rw [Function.update_same]
  refine ⟨?_, hmax, ?_, ?_⟩
  · intro i
    show s._dataBlockLen i ≤ Function.update s._dataBlockLen s._dataBlk _ i
    by_cases hi : i = s._dataBlk
    · subst hi
      rw [Function.update_same]
      exact Nat.le_max_right _ _
    · rw [Function.update_noteq hi]
  · rw [hmax]
    exact Nat.le_max_left _ _
  · intro hlast
    refine ⟨?_, ?_⟩
    · intro n t ht i hi hc
      rcases ensureSpace_ok_cases s t n ht with e | e
      · rw [e]
      · rw [e, afterNewBlock_len_old s hty i hi]
        split
        · rename_i hl
          rcases hc with hc | hc
          · exact absurd (by omega) hc
          · exact hc
        · exact Nat.le_refl _
    · intro n t ht hfull
      rw [ensureSpace_ok_new s t n ht hfull,
        afterNewBlock_len_old s hty s._dataBlk (by omega), if_pos hlast]

/-- C16, at a concrete input: one 128-bit block with 100 bits written and the
head at bit 100 of it (the last block); 64 more bits start a new block and
block 0, the head's block, keeps its 100 bits. -/
theorem stuffedBits_usedLength_highWater_witness :
    (ofBlocks 128 [0] [100] 0 100)._dataBlocksLen < 2 ^ 32 ∧
      (ofBlocks 128 [0] [100] 0 100)._dataBlk + 1 = (ofBlocks 128 [0] [100] 0 100)._dataBlocksLen ∧
      (∀ i, (ofBlocks 128 [0] [100] 0 100)._dataBlockLen i
        ≤ (updateLen (ofBlocks 128 [0] [100] 0 100))._dataBlockLen i) ∧
      (∀ n t, ensureSpace (ofBlocks 128 [0] [100] 0 100) n = .ok t →
        (ofBlocks 128 [0] [100] 0 100)._dataBlockLen 0 ≤ t._dataBlockLen 0) :=
  have w := stuffedBits_usedLength_highWater (ofBlocks 128 [0] [100] 0 100) (by decide)
  ⟨by decide, by decide, w.1,
    fun n t ht => (w.2.2.2 (by decide)).1 n t ht 0 (by decide) (Or.inr (by decide))⟩

/-- C16 as stated fails for `ensureSpace`: one 100-bit block with 90 bits
written and the head moved back to bit 50 of it; `ensureSpace(64)` starts a new
block and cuts the used length of block 0, the head's block, from 90 to 50. -/
theorem stuffedBits_ensureSpace_truncates :
    (ofBlocks 100 [0] [90] 0 50)._dataBlockLen 0 = 90 ∧
      (ensureSpace (ofBlocks 100 [0] [90] 0 50) 64).toOption.map
          (fun t => (t._dataBlocksLen, t._dataBlockLen 0)) = some (2, 50) := by
  decide

/-- C17: in every stream state with `1 <= _dataBit <= 64` in which
`_dataPos + spaceNeeded` does not overflow 64 bits, `ensureSpace(spaceNeeded)`
stops at an assertion exactly when `spaceNeeded > _dataBlockLenMaxB`. -/
theorem stuffedBits_ensureSpace_fault_iff (s : stuffedBits) (spaceNeeded : Nat)
    (h1 : 1 ≤ s._dataBit) (h2 : s._dataBit ≤ 64) (hno : s._dataPos + spaceNeeded < 2 ^ 64) :
    ensureSpace s spaceNeeded = .error .assertFailed ↔ s._dataBlockLenMaxB < spaceNeeded := by
  have hadd : add64 s._dataPos spaceNeeded = s._dataPos + spaceNeeded := by
    unfold add64; exact Nat.mod_eq_of_lt hno
  by_cases hfit : add64 s._dataPos spaceNeeded < s._dataBlockLenMaxB
  · rw [ensureSpace_stay s spaceNeeded h1 h2 hfit]
    constructor
    · intro h; cases h
    · intro h; rw [hadd] at hfit; omega
  · by_cases hn : spaceNeeded ≤ s._dataBlockLenMaxB
    · rw [ensureSpace_new s spaceNeeded h1 h2 hfit hn]
      constructor
      · intro h; cases h
      · intro h; omega
    · rw [ensureSpace_too_big s spaceNeeded h1 h2 hfit hn]
      constructor
      · intro _; omega
      · intro _; rfl

/-- C17, at a concrete input: a 128-bit block, 129 bits needed. -/
theorem stuffedBits_ensureSpace_fault_iff_witness :
    1 ≤ (ofBlocks 128 [0] [0] 0 0)._dataBit ∧ (ofBlocks 128 [0] [0] 0 0)._dataBit ≤ 64 ∧
      (ofBlocks 128 [0] [0] 0 0)._dataPos + 129 < 2 ^ 64 ∧
      ensureSpace (ofBlocks 128 [0] [0] 0 0) 129 = .error .assertFailed :=
  ⟨by decide, by decide, by decide,
    (stuffedBits_ensureSpace_fault_iff (ofBlocks 128 [0] [0] 0 0) 129
      (by decide) (by decide) (by decide)).2 (by decide)⟩

theorem sub32_add32_two (L : Nat) (h : L < 2 ^ 32) (hpos : 0 < L) :
    sub32 (add32 L 1) 2 = L - 1 := by
  unfold sub32 add32
  omega

theorem sub32_one_ne_two (x : Nat) : sub32 x 2 ≠ sub32 x 1 := by
  unfold sub32
  omega

/-- C18: when `ensureSpace(spaceNeeded)` starts a new block (the early return is
not taken) and `spaceNeeded <= _dataBlockLenMaxB`, the call returns normally and
* `_dataBlocksLen` is incremented (a `uint32` increment; one more as a number
  when that does not wrap);
* with `k = _dataBlocksLen - 1` the new last block, `_dataBlockBgn[k] =
  _dataBlockBgn[k-1] + _dataBlockLen[k-1]`, `_dataBlockLen[k] = 0`, and the first
  `_dataBlockLenMaxW` words of block `k` are zero;
* `_data` is block `k`, `_dataPos = 0`, `_dataWrd = 0`, `_dataBit = 64`;
* the pointers of the earlier blocks are as before and no word behind any
  pointer other than the newly allocated one is changed, so the contents of
  every earlier block are as before. -/
theorem stuffedBits_ensureSpace_new_block (s : stuffedBits) (spaceNeeded : Nat)
    (h1 : 1 ≤ s._dataBit) (h2 : s._dataBit ≤ 64)
    (hfull : ¬ add64 s._dataPos spaceNeeded < s._dataBlockLenMaxB)
    (hn : spaceNeeded ≤ s._dataBlockLenMaxB) :
    ∃ t, ensureSpace s spaceNeeded = .ok t ∧
      t._dataBlocksLen = add32 s._dataBlocksLen 1 ∧
      (s._dataBlocksLen + 1 < 2 ^ 32 → t._dataBlocksLen = s._dataBlocksLen + 1) ∧
      (0 < s._dataBlocksLen → s._dataBlocksLen + 1 < 2 ^ 32 →
        sub32 t._dataBlocksLen 1 = s._dataBlocksLen ∧
        sub32 t._dataBlocksLen 2 = s._dataBlocksLen - 1) ∧
      t._dataBlockBgn (sub32 t._dataBlocksLen 1)
        = add64 (t._dataBlockBgn (sub32 t._dataBlocksLen 2))
            (t._dataBlockLen (sub32 t._dataBlocksLen 2)) ∧
      t._dataBlockLen (sub32 t._dataBlocksLen 1) = 0 ∧
      (∀ ii, ii < t._dataBlockLenMaxW →
        t.heap (t._dataBlocks (sub32 t._dataBlocksLen 1)) ii = 0) ∧
      t._data = t._dataBlocks (sub32 t._dataBlocksLen 1) ∧
      t._dataPos = 0 ∧ t._dataWrd = 0 ∧ t._dataBit = 64 ∧
      t._dataBlocks (sub32 t._dataBlocksLen 1) = s.heapTop ∧
      (∀ p, p ≠ s.heapTop → t.heap p = s.heap p) ∧
      (∀ i, i < s._dataBlocksLen → s._dataBlocksLen < 2 ^ 32 →
        t._dataBlocks i = s._dataBlocks i ∧
        (s._dataBlocks i ≠ s.heapTop → t.heap (t._dataBlocks i) = s.heap (s._dataBlocks i))) := by
  refine ⟨afterNewBlock s, ensureSpace_new s spaceNeeded h1 h2 hfull hn, ?_⟩
  refine ⟨?_, ?_, ?_, ?_, ?_, ?_, ?_, ?_, ?_, ?_, ?_, ?_, ?_⟩
  · simp only [afterNewBlock]
  · intro hw
    show add32 s._dataBlocksLen 1 = _
    unfold add32
    exact Nat.mod_eq_of_lt hw
  · intro hpos hw
    exact ⟨sub32_add32_one _ (by omega), sub32_add32_two _ (by omega) hpos⟩
  · simp only [afterNewBlock]
    have hne := sub32_one_ne_two (add32 s._dataBlocksLen 1)
    rw [Function.update_same, Function.update_noteq hne, Function.update_noteq hne]
  · simp only [afterNewBlock]
    rw [Function.update_same]
  · intro ii hii
    simp only [afterNewBlock] at hii ⊢
    rw [Function.update_same, Function.update_same, if_pos hii]
  · simp only [afterNewBlock]
    rw [Function.update_same]
  · simp only [afterNewBlock]
  · simp only [afterNewBlock]
  · simp only [afterNewBlock]
  · simp only [afterNewBlock]
    rw [Function.update_same]
  · intro p hp
    simp only [afterNewBlock]
    rw [Function.update_noteq hp]
  · intro i hi hty
    have e1 : sub32 (add32 s._dataBlocksLen 1) 1 = s._dataBlocksLen := sub32_add32_one _ hty
    have hne : i ≠ sub32 (add32 s._dataBlocksLen 1) 1 := by rw [e1]; omega
    have hb : (afterNewBlock s)._dataBlocks i = s._dataBlocks i := by
      simp only [afterNewBlock]
      rw [Function.update_noteq hne]
    refine ⟨hb, ?_⟩
    intro hfresh
    rw [hb]
    simp only [afterNewBlock]
    rw [Function.update_noteq hfresh]

/-- C18, at a concrete input: one full 128-bit block and 64 bits needed. -/
theorem stuffedBits_ensureSpace_new_block_witness :
    ∃ t, ensureSpace (ofBlocks 128 [0] [100] 0 100) 64 = .ok t ∧
      t._dataBlocksLen = (ofBlocks 128 [0] [100] 0 100)._dataBlocksLen + 1 ∧
      t._dataBlockLen (sub32 t._dataBlocksLen 1) = 0 ∧
      t._dataPos = 0 ∧ t._dataWrd = 0 ∧ t._dataBit = 64 :=
  match stuffedBits_ensureSpace_new_block (ofBlocks 128 [0] [100] 0 100) 64
      (by decide) (by decide) (by decide) (by decide) with
  | ⟨t, ht, _, hlen, _, _, hz, _, _, hp, hw, hb, _⟩ =>
    ⟨t, ht, hlen (by decide), hz, hp, hw, hb⟩

/-- C19: in every stream state whose head is in the last block
(`_dataBlk = _dataBlocksLen - 1`, with `_dataBlocksLen` a `uint32`) and
`_data = _dataBlocks[_dataBlk]`, a successful `ensureSpace(n)` leaves a state
with `_dataBlk = _dataBlocksLen - 1` (the `uint32` expression, and as numbers
when the block count did not wrap) and `_data = _dataBlocks[_dataBlk]`. -/
theorem stuffedBits_ensureSpace_keeps_last (s t : stuffedBits) (n : Nat)
    (hty : s._dataBlocksLen < 2 ^ 32) (hlast : s._dataBlk + 1 = s._dataBlocksLen)
    (hdata : s._data = s._dataBlocks s._dataBlk) (ht : ensureSpace s n = .ok t) :
    t._dataBlk = sub32 t._dataBlocksLen 1 ∧ t._data = t._dataBlocks t._dataBlk ∧
      (s._dataBlocksLen + 1 < 2 ^ 32 → t._dataBlk + 1 = t._dataBlocksLen) := by
  rcases ensureSpace_ok_cases s t n ht with e | e
  · subst e
    refine ⟨?_, hdata, fun _ => hlast⟩
    unfold sub32
    omega
  · subst e
    have e1 : sub32 (add32 s._dataBlocksLen 1) 1 = s._dataBlocksLen := sub32_add32_one _ hty
    have hblk : add64 s._dataBlk 1 = s._dataBlocksLen := by
      unfold add64; omega
    refine ⟨?_, ?_, ?_⟩
    · show add64 s._dataBlk 1 = sub32 (add32 s._dataBlocksLen 1) 1
      rw [e1, hblk]
    · simp only [afterNewBlock]
      rw [hblk, e1, Function.update_same]
    · intro hw
      show add64 s._dataBlk 1 + 1 = add32 s._dataBlocksLen 1
      rw [hblk]
      unfold add32
      omega

/-- C19, at a concrete input: two blocks, head in the last one, which is full. -/
theorem stuffedBits_ensureSpace_keeps_last_witness :
    (ofBlocks 100 [0, 90] [90, 80] 1 80)._dataBlk + 1
        = (ofBlocks 100 [0, 90] [90, 80] 1 80)._dataBlocksLen ∧
      (ofBlocks 100 [0, 90] [90, 80] 1 80)._data
        = (ofBlocks 100 [0, 90] [90, 80] 1 80)._dataBlocks
            (ofBlocks 100 [0, 90] [90, 80] 1 80)._dataBlk ∧
      ensureSpace (ofBlocks 100 [0, 90] [90, 80] 1 80) 32
        = .ok (afterNewBlock (ofBlocks 100 [0, 90] [90, 80] 1 80)) ∧
      (afterNewBlock (ofBlocks 100 [0, 90] [90, 80] 1 80))._dataBlk + 1
        = (afterNewBlock (ofBlocks 100 [0, 90] [90, 80] 1 80))._dataBlocksLen ∧
      (afterNewBlock (ofBlocks 100 [0, 90] [90, 80] 1 80))._data
        = (afterNewBlock (ofBlocks 100 [0, 90] [90, 80] 1 80))._dataBlocks
            (afterNewBlock (ofBlocks 100 [0, 90] [90, 80] 1 80))._dataBlk :=
  have w := stuffedBits_ensureSpace_keeps_last (ofBlocks 100 [0, 90] [90, 80] 1 80)
    (afterNewBlock (ofBlocks 100 [0, 90] [90, 80] 1 80)) 32 (by decide) (by decide) rfl
    (ensureSpace_new _ 32 (by decide) (by decide) (by decide) (by decide))
  ⟨by decide, rfl, ensureSpace_new _ 32 (by decide) (by decide) (by decide) (by decide),
    w.2.2 (by decide), w.2.1⟩

/-- C20: `updateBit()`.  When `_dataBit = 0` the head moves to the next word:
`_dataWrd` is incremented (a `uint64` increment; one more as a number when that
does not wrap) and `_dataBit` becomes 64.  Otherwise the state is unchanged.
In both cases `_dataBlk`, `_data`, `_dataPos`, the block lists and the stored
words are as before, and `_dataBit <= 64` before gives `1 <= _dataBit <= 64`
afterwards. -/
theorem stuffedBits_updateBit_spec (s : stuffedBits) :
    (s._dataBit = 0 →
        (updateBit s)._dataWrd = add64 s._dataWrd 1 ∧
        (s._dataWrd + 1 < 2 ^ 64 → (updateBit s)._dataWrd = s._dataWrd + 1) ∧
        (updateBit s)._dataBit = 64) ∧
      (s._dataBit ≠ 0 → updateBit s = s) ∧
      (updateBit s)._dataBlk = s._dataBlk ∧ (updateBit s)._data = s._data ∧
      (updateBit s)._dataPos = s._dataPos ∧
      (updateBit s)._dataBlocksLen = s._dataBlocksLen ∧
      (updateBit s)._dataBlockBgn = s._dataBlockBgn ∧
      (updateBit s)._dataBlockLen = s._dataBlockLen ∧
      (updateBit s)._dataBlocks = s._dataBlocks ∧ (updateBit s).heap = s.heap ∧
      (s._dataBit ≤ 64 → 1 ≤ (updateBit s)._dataBit ∧ (updateBit s)._dataBit ≤ 64) := by
  by_cases h0 : s._dataBit = 0
  · have e : updateBit s = { s with _dataWrd := add64 s._dataWrd 1, _dataBit := 64 } := by
      unfold updateBit; rw [if_pos h0]
    rw [e]
    refine ⟨fun _ => ⟨rfl, ?_, rfl⟩, fun h => absurd h0 h, rfl, rfl, rfl, rfl, rfl, rfl, rfl, rfl,
      fun _ => ⟨Nat.le_of_ble_eq_true rfl, Nat.le_refl 64⟩⟩
    intro hw
    show add64 s._dataWrd 1 = s._dataWrd + 1
    unfold add64
    exact Nat.mod_eq_of_lt hw
  · have e : updateBit s = s := by
      unfold updateBit; rw [if_neg h0]
    rw [e]
    exact ⟨fun h => absurd h h0, fun _ => rfl, rfl, rfl, rfl, rfl, rfl, rfl, rfl, rfl,
      fun h => ⟨by omega, h⟩⟩

/-- C20, at a concrete input: the head at bit 64 of a block with the first word
used up (`_dataWrd = 0`, `_dataBit = 0`). -/
theorem stuffedBits_updateBit_spec_witness :
    ({ ofBlocks 128 [0] [64] 0 64 with _dataWrd := 0, _dataBit := 0 } : stuffedBits)._dataBit = 0 ∧
      (updateBit { ofBlocks 128 [0] [64] 0 64 with _dataWrd := 0, _dataBit := 0 })._dataWrd = 1 ∧
      (updateBit { ofBlocks 128 [0] [64] 0 64 with _dataWrd := 0, _dataBit := 0 })._dataBit = 64 :=
  have w := (stuffedBits_updateBit_spec
    { ofBlocks 128 [0] [64] 0 64 with _dataWrd := 0, _dataBit := 0 }).1 rfl
  ⟨rfl, w.2.1 (by decide), w.2.2⟩

/-! ## Word counts, masks and bases -/

/-- C21: for every `uint64` bit count `b`, `bitsToWords(b)` is `ceil(b / 64)`,
the least `w` with `64 * w >= b`; `bitsToWords(0) = 0` and
`bitsToWords(64 * k) = k`. -/
theorem stuffedBits_bitsToWords_ceil (b : Nat) (hb : b < 2 ^ 64) :
    bitsToWords b = (b + 63) / 64 ∧ b ≤ 64 * bitsToWords b ∧
      (∀ w, b ≤ 64 * w → bitsToWords b ≤ w) ∧
      bitsToWords 0 = 0 ∧ (∀ k, 64 * k < 2 ^ 64 → bitsToWords (64 * k) = k) := by
  have key : ∀ c, c < 2 ^ 64 → bitsToWords c = (c + 63) / 64 := by
    intro c hc
    unfold bitsToWords add64
    split <;> omega
  refine ⟨key b hb, ?_, ?_, ?_, ?_⟩
  · rw [key b hb]; omega
  · intro w hw
    rw [key b hb]; omega
  · rw [key 0 (by decide)]
  · intro k hk
    rw [key _ hk]; omega

/-- C21, at a concrete input: 65 bits need two words. -/
theorem stuffedBits_bitsToWords_ceil_witness :
    (65 : Nat) < 2 ^ 64 ∧ bitsToWords 65 = 2 ∧ bitsToWords 0 = 0 :=
  have w := stuffedBits_bitsToWords_ceil 65 (by decide)
  ⟨by decide, w.1, w.2.2.2.1⟩

theorem allOnes_shiftRight (W k : Nat) (hk : k ≤ W) :
    (2 ^ W - 1) >>> k = 2 ^ (W - k) - 1 := by
  apply Nat.eq_of_testBit_eq
  intro i
  rw [Nat.testBit_shiftRight, Nat.testBit_two_pow_sub_one, Nat.testBit_two_pow_sub_one]
  congr 1
  apply propext
  omega

theorem testBit_highMask (W k i : Nat) (hk : k ≤ W) :
    (2 ^ W - 2 ^ k).testBit i = (decide (k ≤ i) && decide (i < W)) := by
  have e : 2 ^ W - 2 ^ k = (2 ^ (W - k) - 1) <<< k := by
    rw [Nat.shiftLeft_eq, Nat.sub_mul, Nat.one_mul, ← Nat.pow_add, Nat.sub_add_cancel hk]
  rw [e, Nat.testBit_shiftLeft, Nat.testBit_two_pow_sub_one]
  by_cases h : k ≤ i
  · simp only [h, ge_iff_le, decide_True, Bool.true_and]
    congr 1
    apply propext
    omega
  · simp [h]

theorem allOnes_shiftLeft (W k : Nat) (hk : k ≤ W) :
    ((2 ^ W - 1) <<< k) % 2 ^ W = 2 ^ W - 2 ^ k := by
  apply Nat.eq_of_testBit_eq
  intro i
  rw [Nat.testBit_mod_two_pow, Nat.testBit_shiftLeft, Nat.testBit_two_pow_sub_one,
    testBit_highMask W k i hk]
  by_cases h1 : i < W <;> by_cases h2 : k ≤ i <;> simp [h1, h2]
  omega

theorem and_highMask (W k v : Nat) (hk : k ≤ W) (hv : v < 2 ^ W) :
    v &&& (2 ^ W - 2 ^ k) = v - v % 2 ^ k := by
  have e : v - v % 2 ^ k = (v >>> k) <<< k := by
    rw [Nat.shiftLeft_eq, Nat.shiftRight_eq_div_pow]
    have := Nat.div_add_mod v (2 ^ k)
    rw [Nat.mul_comm] at this
    omega
  rw [e]
  apply Nat.eq_of_testBit_eq
  intro i
  rw [Nat.testBit_and, testBit_highMask W k i hk, Nat.testBit_shiftLeft, Nat.testBit_shiftRight]
  by_cases h2 : k ≤ i
  · have e2 : k + (i - k) = i := by omega
    by_cases h1 : i < W
    · simp [h1, h2, e2]
    · have : v.testBit i = false :=
        Nat.testBit_lt_two_pow (Nat.lt_of_lt_of_le hv (Nat.pow_le_pow_right (by decide) (by omega)))
      simp [h1, h2, e2, this]
  · simp [h2]

theorem or_allOnes (W x : Nat) (hx : x < 2 ^ W) : x ||| (2 ^ W - 1) = 2 ^ W - 1 := by
  apply Nat.eq_of_testBit_eq
  intro i
  rw [Nat.testBit_or, Nat.testBit_two_pow_sub_one]
  by_cases h1 : i < W
  · simp [h1]
  · have : x.testBit i = false :=
      Nat.testBit_lt_two_pow (Nat.lt_of_lt_of_le hx (Nat.pow_le_pow_right (by decide) (by omega)))
    simp [h1, this]

theorem negC_zero (W : Nat) : negC W 0 = 0 := by
  unfold negC
  simp

theorem negC_one (W : Nat) (hW : 0 < W) : negC W 1 = 2 ^ W - 1 := by
  unfold negC
  have h2 : 2 ≤ 2 ^ W := by
    calc 2 = 2 ^ 1 := rfl
      _ ≤ 2 ^ W := Nat.pow_le_pow_right (by decide) hW
  have e1 : 1 % 2 ^ W = 1 := Nat.mod_eq_of_lt (by omega)
  rw [e1]
  exact Nat.mod_eq_of_lt (by omega)

theorem shrC_lt (W : Nat) (oob : Nat → Nat → Nat) (x k : Nat) (hx : x < 2 ^ W) :
    shrC W oob x k < 2 ^ W := by
  unfold shrC
  split
  · rw [Nat.shiftRight_eq_div_pow]
    exact Nat.lt_of_le_of_lt (Nat.div_le_self _ _) hx
  · exact Nat.mod_lt _ (Nat.two_pow_pos _)

theorem shlC_lt (W : Nat) (oob : Nat → Nat → Nat) (x k : Nat) : shlC W oob x k < 2 ^ W := by
  unfold shlC
  split <;> exact Nat.mod_lt _ (Nat.two_pow_pos _)

theorem buildLowBitMask_zero (W : Nat) (oob : Nat → Nat → Nat) :
    buildLowBitMask W oob 0 = 0 := by
  simp [buildLowBitMask, negC_zero]

theorem buildLowBitMask_mid (W : Nat) (hW : W < 2 ^ 64) (oob : Nat → Nat → Nat) (n : Nat)
    (h1 : 1 ≤ n) (h2 : n ≤ W) : buildLowBitMask W oob n = 2 ^ n - 1 := by
  have hc : (W + 2 ^ 64 - n) % 2 ^ 64 = W - n := by omega
  have e : shrC W oob (2 ^ W - 1) (W - n) = 2 ^ n - 1 := by
    unfold shrC
    rw [if_pos (by omega), allOnes_shiftRight W (W - n) (by omega)]
    congr 2
    omega
  have hlt : 2 ^ n - 1 < 2 ^ W := by
    have := Nat.pow_le_pow_right (show 0 < 2 by decide) h2
    have := Nat.two_pow_pos (n)
    omega
  unfold buildLowBitMask
  simp only [hc, e, if_pos (show n ≠ 0 by omega), if_neg (show ¬ n > W by omega),
    negC_one W (by omega), negC_zero, Nat.or_zero]
  exact Nat.and_pow_two_sub_one_of_lt_two_pow hlt

theorem buildLowBitMask_big (W : Nat) (hW : 0 < W) (oob : Nat → Nat → Nat) (n : Nat)
    (h : W < n) : buildLowBitMask W oob n = 2 ^ W - 1 := by
  unfold buildLowBitMask
  simp only [if_pos (show n ≠ 0 by omega), if_pos (show n > W from h), negC_one W hW]
  apply or_allOnes
  rw [Nat.and_pow_two_sub_one_eq_mod]
  exact Nat.mod_lt _ (Nat.two_pow_pos _)

theorem buildHighBitMask_zero (W : Nat) (oob : Nat → Nat → Nat) :
    buildHighBitMask W oob 0 = 0 := by
  simp [buildHighBitMask, negC_zero]

theorem buildHighBitMask_mid (W : Nat) (hW : W < 2 ^ 64) (oob : Nat → Nat → Nat) (n : Nat)
    (h1 : 1 ≤ n) (h2 : n ≤ W) : buildHighBitMask W oob n = 2 ^ W - 2 ^ (W - n) := by
  have hc : (W + 2 ^ 64 - n) % 2 ^ 64 = W - n := by omega
  have e : shlC W oob (2 ^ W - 1) (W - n) = 2 ^ W - 2 ^ (W - n) := by
    unfold shlC
    rw [if_pos (by omega), allOnes_shiftLeft W (W - n) (by omega)]
  have hlt : 2 ^ W - 2 ^ (W - n) < 2 ^ W := by
    have := Nat.two_pow_pos (W - n)
    have := Nat.two_pow_pos (W)
    omega
  unfold buildHighBitMask
  simp only [hc, e, if_pos (show n ≠ 0 by omega), if_neg (show ¬ n > W by omega),
    negC_one W (by omega), negC_zero, Nat.or_zero]
  exact Nat.and_pow_two_sub_one_of_lt_two_pow hlt

theorem buildHighBitMask_big (W : Nat) (hW : 0 < W) (oob : Nat → Nat → Nat) (n : Nat)
    (h : W < n) : buildHighBitMask W oob n = 2 ^ W - 1 := by
  unfold buildHighBitMask
  simp only [if_pos (show n ≠ 0 by omega), if_pos (show n > W from h), negC_one W hW]
  apply or_allOnes
  rw [Nat.and_pow_two_sub_one_eq_mod]
  exact Nat.mod_lt _ (Nat.two_pow_pos _)

theorem highMask_eq_mul (W n : Nat) (h : n ≤ W) :
    2 ^ W - 2 ^ (W - n) = (2 ^ n - 1) * 2 ^ (W - n) := by
  rw [Nat.sub_mul, Nat.one_mul, ← Nat.pow_add]
  congr 2
  omega

/-- C25: for `W` in `{64, 128}`, `buildLowBitMask<W>(numBits)` is 0 when
`numBits = 0`, is `2 ^ numBits - 1 = (1 << numBits) - 1` (exactly the low
`numBits` bits set) when `1 <= numBits <= W`, and is the all-ones word when
`numBits > W`, whatever the machine leaves after an out-of-range shift. -/
theorem buildLowBitMask_spec (W : Nat) (hW : W = 64 ∨ W = 128) (oob : Nat → Nat → Nat)
    (numBits : Nat) :
    (numBits = 0 → buildLowBitMask W oob numBits = 0) ∧
      (1 ≤ numBits → numBits ≤ W →
        buildLowBitMask W oob numBits = 2 ^ numBits - 1 ∧
        buildLowBitMask W oob numBits = (1 <<< numBits) - 1 ∧
        ∀ i, (buildLowBitMask W oob numBits).testBit i = decide (i < numBits)) ∧
      (W < numBits → buildLowBitMask W oob numBits = 2 ^ W - 1) := by
  have hW1 : 0 < W := by omega
  have hW2 : W < 2 ^ 64 := by omega
  refine ⟨?_, ?_, ?_⟩
  · intro h
    rw [h, buildLowBitMask_zero]
  · intro h1 h2
    rw [buildLowBitMask_mid W hW2 oob numBits h1 h2, Nat.one_shiftLeft]
    exact ⟨rfl, rfl, fun i => Nat.testBit_two_pow_sub_one _ _⟩
  · intro h
    exact buildLowBitMask_big W hW1 oob numBits h

/-- C25, at a concrete input: the 64-bit mask of the low 5 bits. -/
theorem buildLowBitMask_spec_witness :
    buildLowBitMask 64 (fun _ _ => 0) 5 = 2 ^ 5 - 1 :=
  ((buildLowBitMask_spec 64 (Or.inl rfl) (fun _ _ => 0) 5).2.1 (by decide) (by decide)).1

/-- C26: for `W` in `{64, 128}`, `buildHighBitMask<W>(numBits)` is 0 when
`numBits = 0`, is the word with exactly the high `numBits` bits set,
`(2 ^ numBits - 1) * 2 ^ (W - numBits)`, when `1 <= numBits <= W`, and is the
all-ones word when `numBits > W`; and for every `0 <= n <= W`,
`buildHighBitMask<W>(n)` is the bitwise complement of
`buildLowBitMask<W>(W - n)`. -/
theorem buildHighBitMask_spec (W : Nat) (hW : W = 64 ∨ W = 128) (oob oobL : Nat → Nat → Nat)
    (numBits : Nat) :
    (numBits = 0 → buildHighBitMask W oob numBits = 0) ∧
      (1 ≤ numBits → numBits ≤ W →
        buildHighBitMask W oob numBits = (2 ^ numBits - 1) * 2 ^ (W - numBits) ∧
        ∀ i, (buildHighBitMask W oob numBits).testBit i
          = (decide (W - numBits ≤ i) && decide (i < W))) ∧
      (W < numBits → buildHighBitMask W oob numBits = 2 ^ W - 1) ∧
      (numBits ≤ W →
        buildHighBitMask W oob numBits = (2 ^ W - 1) ^^^ buildLowBitMask W oobL (W - numBits) ∧
        buildHighBitMask W oob numBits = 2 ^ W - 1 - buildLowBitMask W oobL (W - numBits)) := by
  have hW1 : 0 < W := by omega
  have hW2 : W < 2 ^ 64 := by omega
  have hmid : ∀ n, 1 ≤ n → n ≤ W → ∀ i, (buildHighBitMask W oob n).testBit i
      = (decide (W - n ≤ i) && decide (i < W)) := by
    intro n h1 h2 i
    rw [buildHighBitMask_mid W hW2 oob n h1 h2, testBit_highMask W (W - n) i (by omega)]
  have hcompl : ∀ n, n ≤ W →
      buildHighBitMask W oob n = 2 ^ W - 1 - buildLowBitMask W oobL (W - n) := by
    intro n hn
    have hp := Nat.two_pow_pos (W)
    rcases Nat.eq_zero_or_pos n with h0 | h0
    · subst h0
      rw [buildHighBitMask_zero, Nat.sub_zero,
        buildLowBitMask_mid W hW2 oobL W hW1 (Nat.le_refl _), Nat.sub_self]
    · rcases Nat.eq_or_lt_of_le hn with he | hl
      · subst he
        rw [Nat.sub_self, buildLowBitMask_zero, Nat.sub_zero,
          buildHighBitMask_mid n hW2 oob n h0 (Nat.le_refl _), Nat.sub_self]
        rfl
      · rw [buildHighBitMask_mid W hW2 oob n h0 hn,
          buildLowBitMask_mid W hW2 oobL (W - n) (by omega) (by omega)]
        have := Nat.two_pow_pos (W - n)
        omega
  refine ⟨?_, ?_, ?_, ?_⟩
  · intro h
    rw [h, buildHighBitMask_zero]
  · intro h1 h2
    refine ⟨?_, hmid numBits h1 h2⟩
    rw [buildHighBitMask_mid W hW2 oob numBits h1 h2, highMask_eq_mul W numBits h2]
  · intro h
    exact buildHighBitMask_big W hW1 oob numBits h
  · intro hn
    refine ⟨?_, hcompl numBits hn⟩
    have hlow : buildLowBitMask W oobL (W - numBits) = 2 ^ (W - numBits) - 1 := by
      rcases Nat.eq_zero_or_pos (W - numBits) with h0 | h0
      · rw [h0, buildLowBitMask_zero]
        rfl
      · exact buildLowBitMask_mid W hW2 oobL (W - numBits) h0 (by omega)
    rw [hcompl numBits hn, hlow]
    apply Nat.eq_of_testBit_eq
    intro i
    have e : 2 ^ W - 1 - (2 ^ (W - numBits) - 1) = 2 ^ W - 2 ^ (W - numBits) := by
      have := Nat.two_pow_pos (W - numBits)
      omega
    rw [e, testBit_highMask W (W - numBits) i (by omega), Nat.testBit_xor,
      Nat.testBit_two_pow_sub_one, Nat.testBit_two_pow_sub_one]
    by_cases h1 : i < W <;> by_cases h2 : W - numBits ≤ i <;> simp [h1, h2]
    all_goals omega

/-- C26, at a concrete input: the 64-bit mask of the high 4 bits. -/
theorem buildHighBitMask_spec_witness :
    buildHighBitMask 64 (fun _ _ => 0) 4 = (2 ^ 4 - 1) * 2 ^ (64 - 4) ∧
      buildHighBitMask 64 (fun _ _ => 0) 4
        = (2 ^ 64 - 1) ^^^ buildLowBitMask 64 (fun _ _ => 0) (64 - 4) :=
  have w := buildHighBitMask_spec 64 (Or.inl rfl) (fun _ _ => 0) (fun _ _ => 0) 4
  ⟨(w.2.1 (by decide) (by decide)).1, (w.2.2.2 (by decide)).1⟩

theorem clearLeft_generic (W v n : Nat) (hn : n < W) :
    v &&& ((2 ^ W - 1) >>> n) = v % 2 ^ (W - n) := by
  rw [allOnes_shiftRight W n (Nat.le_of_lt hn), Nat.and_pow_two_sub_one_eq_mod]

theorem clearRight_generic (W v n : Nat) (hn : n < W) (hv : v < 2 ^ W) :
    v &&& (((2 ^ W - 1) <<< n) % 2 ^ W) = v - v % 2 ^ n := by
  rw [allOnes_shiftLeft W n (Nat.le_of_lt hn), and_highMask W n v (Nat.le_of_lt hn) hv]

theorem saveLeft_generic (W : Nat) (hW : W < 2 ^ 32) (oob : Nat → Nat → Nat) (v n : Nat)
    (h1 : 1 ≤ n) (hn : n ≤ W) (hv : v < 2 ^ W) :
    v &&& shlC W oob (2 ^ W - 1) (sub32 W n) = v - v % 2 ^ (W - n) := by
  have hc : sub32 W n = W - n := by unfold sub32; omega
  unfold shlC
  rw [hc, if_pos (by omega), allOnes_shiftLeft W (W - n) (by omega),
    and_highMask W (W - n) v (by omega) hv]

theorem saveRight_generic (W : Nat) (hW : W < 2 ^ 32) (oob : Nat → Nat → Nat) (v n : Nat)
    (h1 : 1 ≤ n) (hn : n ≤ W) :
    v &&& shrC W oob (2 ^ W - 1) (sub32 W n) = v % 2 ^ n := by
  have hc : sub32 W n = W - n := by unfold sub32; omega
  have e : W - (W - n) = n := by omega
  unfold shrC
  rw [hc, if_pos (by omega), allOnes_shiftRight W (W - n) (by omega), e,
    Nat.and_pow_two_sub_one_eq_mod]

/-- C28: for every 64-bit `v` and every `0 <= n <= 64`,
`clearLeftBits(v, n) = v mod 2^(64-n)`, `clearRightBits(v, n) = v - (v mod 2^n)`,
`saveLeftBits(v, n) = v - clearLeftBits(v, n)` and
`saveRightBits(v, n) = v - clearRightBits(v, n)`; the same equations hold for
the 128-bit overloads with 128 in place of 64. -/
theorem clearSaveBits_spec (oob : Nat → Nat → Nat) (n : Nat) :
    (∀ v, v < 2 ^ 64 → n ≤ 64 →
      clearLeftBits v n = v % 2 ^ (64 - n) ∧
      clearRightBits v n = v - v % 2 ^ n ∧
      saveLeftBits oob v n = v - clearLeftBits v n ∧
      saveRightBits oob v n = v - clearRightBits v n) ∧
    (∀ v, v < 2 ^ 128 → n ≤ 128 →
      clearLeftBits128 v n = v % 2 ^ (128 - n) ∧
      clearRightBits128 v n = v - v % 2 ^ n ∧
      saveLeftBits128 oob v n = v - clearLeftBits128 v n ∧
      saveRightBits128 oob v n = v - clearRightBits128 v n) := by
  constructor
  · intro v hv hn
    have hcl : clearLeftBits v n = v % 2 ^ (64 - n) := by
      unfold clearLeftBits
      split
      · have e : 64 - n = 0 := by omega
        rw [e]; omega
      · exact clearLeft_generic 64 v n (by omega)
    have hcr : clearRightBits v n = v - v % 2 ^ n := by
      unfold clearRightBits
      split
      · have e : n = 64 := by omega
        rw [e, Nat.mod_eq_of_lt hv, Nat.sub_self]
      · exact clearRight_generic 64 v n (by omega) hv
    refine ⟨hcl, hcr, ?_, ?_⟩
    · rw [hcl]
      unfold saveLeftBits
      split
      · rename_i h0
        rw [h0, Nat.mod_eq_of_lt hv, Nat.sub_self]
      · exact saveLeft_generic 64 (by decide) oob v n (by omega) hn hv
    · rw [hcr]
      unfold saveRightBits
      split
      · rename_i h0
        rw [h0]
        have : v % 2 ^ 0 = 0 := by simp [Nat.mod_one]
        omega
      · have := saveRight_generic 64 (by decide) oob v n (by omega) hn
        have hle := Nat.mod_le v (2 ^ n)
        show v &&& shrC 64 oob (2 ^ 64 - 1) (sub32 64 n) = _
        omega
  · intro v hv hn
    have hcl : clearLeftBits128 v n = v % 2 ^ (128 - n) := by
      unfold clearLeftBits128
      split
      · have e : 128 - n = 0 := by omega
        rw [e]; omega
      · exact clearLeft_generic 128 v n (by omega)
    have hcr : clearRightBits128 v n = v - v % 2 ^ n := by
      unfold clearRightBits128
      split
      · have e : n = 128 := by omega
        rw [e, Nat.mod_eq_of_lt hv, Nat.sub_self]
      · exact clearRight_generic 128 v n (by omega) hv
    refine ⟨hcl, hcr, ?_, ?_⟩
    · rw [hcl]
      unfold saveLeftBits128
      split
      · rename_i h0
        rw [h0, Nat.mod_eq_of_lt hv, Nat.sub_self]
      · exact saveLeft_generic 128 (by decide) oob v n (by omega) hn hv
    · rw [hcr]
      unfold saveRightBits128
      split
      · rename_i h0
        rw [h0]
        have : v % 2 ^ 0 = 0 := by simp [Nat.mod_one]
        omega
      · have := saveRight_generic 128 (by decide) oob v n (by omega) hn
        have hle := Nat.mod_le v (2 ^ n)
        show v &&& shrC 128 oob (2 ^ 128 - 1) (sub32 128 n) = _
        omega

/-- C28, at a concrete input: the word `0xf0f0` and `n = 56`. -/
theorem clearSaveBits_spec_witness :
    clearLeftBits 0xf0f0 56 = 0xf0f0 % 2 ^ (64 - 56) ∧
      clearRightBits 0xf0f0 56 = 0xf0f0 - 0xf0f0 % 2 ^ 56 ∧
      saveLeftBits (fun _ _ => 0) 0xf0f0 56 = 0xf0f0 - clearLeftBits 0xf0f0 56 ∧
      saveRightBits (fun _ _ => 0) 0xf0f0 56 = 0xf0f0 - clearRightBits 0xf0f0 56 :=
  (clearSaveBits_spec (fun _ _ => 0) 56).1 0xf0f0 (by decide) (by decide)

/-! ## Counting bits -/

theorem smear_step (x y m k : Nat) (hk : k ≤ m)
    (h : ∀ i, y.testBit i = true ↔ ∃ j, i ≤ j ∧ j < i + m ∧ x.testBit j = true) (i : Nat) :
    (y ||| (y >>> k)).testBit i = true ↔ ∃ j, i ≤ j ∧ j < i + (m + k) ∧ x.testBit j = true := by
  rw [Nat.testBit_or, Nat.testBit_shiftRight, Bool.or_eq_true, h i, h (k + i)]
  constructor
  · rintro (⟨j, h1, h2, h3⟩ | ⟨j, h1, h2, h3⟩)
    · exact ⟨j, h1, by omega, h3⟩
    · exact ⟨j, by omega, by omega, h3⟩
  · rintro ⟨j, h1, h2, h3⟩
    by_cases hj : j < i + m
    · exact Or.inl ⟨j, h1, hj, h3⟩
    · exact Or.inr ⟨j, by omega, by omega, h3⟩

theorem smear_base (x i : Nat) :
    x.testBit i = true ↔ ∃ j, i ≤ j ∧ j < i + 1 ∧ x.testBit j = true := by
  constructor
  · intro h
    exact ⟨i, Nat.le_refl _, by omega, h⟩
  · rintro ⟨j, h1, h2, h3⟩
    have e : j = i := by omega
    rw [← e]; exact h3

theorem top_bit_set (x s : Nat) (hlt : x < 2 ^ (s + 1)) (hge : 2 ^ s ≤ x) :
    x.testBit s = true := by
  obtain ⟨j, hj, hb⟩ := Nat.ge_two_pow_implies_high_bit_true hge
  by_cases e : j = s
  · rw [← e]; exact hb
  · have : x.testBit j = false :=
      Nat.testBit_lt_two_pow
        (Nat.lt_of_lt_of_le hlt (Nat.pow_le_pow_right (by decide) (by omega)))
    rw [this] at hb
    cases hb

theorem smear_eq (x y s m : Nat) (hs : s ≤ m) (hlt : x < 2 ^ s) (hge : s = 0 ∨ 2 ^ (s - 1) ≤ x)
    (h : ∀ i, y.testBit i = true ↔ ∃ j, i ≤ j ∧ j < i + m ∧ x.testBit j = true) :
    y = 2 ^ s - 1 := by
  apply Nat.eq_of_testBit_eq
  intro i
  rw [Nat.testBit_two_pow_sub_one]
  by_cases hi : i < s
  · have hs1 : s - 1 + 1 = s := by omega
    have hge2 : 2 ^ (s - 1) ≤ x := by
      rcases hge with h0 | h0
      · omega
      · exact h0
    have ht := top_bit_set x (s - 1) (by rw [hs1]; exact hlt) hge2
    rw [(h i).2 ⟨s - 1, by omega, by omega, ht⟩]
    simp [hi]
  · have : y.testBit i = false := by
      rcases hb : y.testBit i with _ | _
      · rfl
      · obtain ⟨j, h1, _, h3⟩ := (h i).1 hb
        have : x.testBit j = false :=
          Nat.testBit_lt_two_pow
            (Nat.lt_of_lt_of_le hlt (Nat.pow_le_pow_right (by decide) (by omega)))
        rw [this] at h3
        cases h3
    rw [this]
    simp [hi]

theorem countNumberOfSetBits64_allOnes :
    ∀ k : Fin 65, countNumberOfSetBits64 (2 ^ k.val - 1) = k.val := by
  decide

theorem countNumberOfSetBits32_allOnes :
    ∀ k : Fin 33, countNumberOfSetBits32 (2 ^ k.val - 1) = k.val := by
  decide

theorem countNumberOfBits64_eq (x s : Nat) (hs : s ≤ 64) (hlt : x < 2 ^ s)
    (hge : s = 0 ∨ 2 ^ (s - 1) ≤ x) : countNumberOfBits64 x = s := by
  unfold countNumberOfBits64
  have h1 := smear_step x x 1 1 (Nat.le_refl _) (smear_base x)
  have h2 := smear_step x _ 2 2 (Nat.le_refl _) h1
  have h3 := smear_step x _ 4 4 (Nat.le_refl _) h2
  have h4 := smear_step x _ 8 8 (Nat.le_refl _) h3
  have h5 := smear_step x _ 16 16 (Nat.le_refl _) h4
  have h6 := smear_step x _ 32 32 (Nat.le_refl _) h5
  simp only []
  rw [smear_eq x _ s 64 hs hlt hge h6]
  exact countNumberOfSetBits64_allOnes ⟨s, by omega⟩

theorem countNumberOfBits32_eq (x s : Nat) (hs : s ≤ 32) (hlt : x < 2 ^ s)
    (hge : s = 0 ∨ 2 ^ (s - 1) ≤ x) : countNumberOfBits32 x = s := by
  unfold countNumberOfBits32
  have h1 := smear_step x x 1 1 (Nat.le_refl _) (smear_base x)
  have h2 := smear_step x _ 2 2 (Nat.le_refl _) h1
  have h3 := smear_step x _ 4 4 (Nat.le_refl _) h2
  have h4 := smear_step x _ 8 8 (Nat.le_refl _) h3
  have h5 := smear_step x _ 16 16 (Nat.le_refl _) h4
  simp only []
  rw [smear_eq x _ s 32 hs hlt hge h5]
  exact countNumberOfSetBits32_allOnes ⟨s, by omega⟩

theorem bitLength_facts (x W : Nat) (hx : x < 2 ^ W) (h0 : 0 < x) :
    x.log2 + 1 ≤ W ∧ x < 2 ^ (x.log2 + 1) ∧ 2 ^ (x.log2 + 1 - 1) ≤ x ∧
      ∀ n, x < 2 ^ n → x.log2 + 1 ≤ n := by
  have hne : x ≠ 0 := by omega
  refine ⟨?_, Nat.lt_log2_self, Nat.log2_self_le hne, ?_⟩
  · exact (Nat.log2_lt hne).2 hx
  · intro n hn
    exact (Nat.log2_lt hne).2 hn

/-- C27: `countNumberOfBits64(x)` (and `countNumberOfBits32(x)` for a 32-bit
`x`) is the number of bits needed to represent `x`: 0 when `x = 0`,
`floor(log2(x)) + 1` when `x > 0`, and in both cases the least `n` with
`x < 2^n`. -/
theorem countNumberOfBits_spec (x : Nat) :
    (x < 2 ^ 64 →
      (x = 0 → countNumberOfBits64 x = 0) ∧
      (0 < x → countNumberOfBits64 x = Nat.log2 x + 1) ∧
      x < 2 ^ countNumberOfBits64 x ∧ ∀ n, x < 2 ^ n → countNumberOfBits64 x ≤ n) ∧
    (x < 2 ^ 32 →
      (x = 0 → countNumberOfBits32 x = 0) ∧
      (0 < x → countNumberOfBits32 x = Nat.log2 x + 1) ∧
      x < 2 ^ countNumberOfBits32 x ∧ ∀ n, x < 2 ^ n → countNumberOfBits32 x ≤ n) := by
  constructor
  · intro hx
    rcases Nat.eq_zero_or_pos x with h0 | h0
    · have e : countNumberOfBits64 x = 0 :=
        countNumberOfBits64_eq x 0 (by decide) (by omega) (Or.inl rfl)
      rw [e]
      exact ⟨fun _ => rfl, fun h => by omega, by omega, fun n _ => Nat.zero_le n⟩
    · obtain ⟨f1, f2, f3, f4⟩ := bitLength_facts x 64 hx h0
      have e : countNumberOfBits64 x = x.log2 + 1 :=
        countNumberOfBits64_eq x _ f1 f2 (Or.inr f3)
      rw [e]
      exact ⟨fun h => by omega, fun _ => rfl, f2, f4⟩
  · intro hx
    rcases Nat.eq_zero_or_pos x with h0 | h0
    · have e : countNumberOfBits32 x = 0 :=
        countNumberOfBits32_eq x 0 (by decide) (by omega) (Or.inl rfl)
      rw [e]
      exact ⟨fun _ => rfl, fun h => by omega, by omega, fun n _ => Nat.zero_le n⟩
    · obtain ⟨f1, f2, f3, f4⟩ := bitLength_facts x 32 hx h0
      have e : countNumberOfBits32 x = x.log2 + 1 :=
        countNumberOfBits32_eq x _ f1 f2 (Or.inr f3)
      rw [e]
      exact ⟨fun h => by omega, fun _ => rfl, f2, f4⟩

/-- C27, at a concrete input: 1000 needs ten bits. -/
theorem countNumberOfBits_spec_witness :
    countNumberOfBits64 1000 = 10 ∧ (1000 : Nat) < 2 ^ countNumberOfBits64 1000 ∧
      countNumberOfBits32 1000 = 10 :=
  have w := countNumberOfBits_spec 1000
  ⟨by decide, (w.1 (by decide)).2.2.1, by decide⟩

/-! ## expandTo3 -/

theorem expandTo3_term (v k j : Nat) :
    ((v &&& (3 <<< (2 * k))) <<< k).testBit j
      = (decide (3 * k ≤ j ∧ j < 3 * k + 2) && v.testBit (j - k)) := by
  have e3 : (3 : Nat) = 2 ^ 2 - 1 := rfl
  rw [Nat.testBit_shiftLeft, Nat.testBit_and, Nat.testBit_shiftLeft, e3,
    Nat.testBit_two_pow_sub_one]
  by_cases h1 : 3 * k ≤ j
  · by_cases h2 : j < 3 * k + 2
    · have a1 : j ≥ k := by omega
      have a2 : j - k ≥ 2 * k := by omega
      have a3 : j - k - 2 * k < 2 := by omega
      simp [h1, h2, a1, a2, a3]
    · have a3 : ¬ j - k - 2 * k < 2 := by omega
      simp [h2, a3]
  · by_cases a1 : j ≥ k
    · have a2 : ¬ j - k ≥ 2 * k := by omega
      simp [h1, a1, a2]
    · simp [h1, a1]

theorem testBit_foldl_or (f : Nat → Nat) (l : List Nat) (a j : Nat) :
    (l.foldl (fun o k => o ||| f k) a).testBit j
      = (a.testBit j || l.any (fun k => (f k).testBit j)) := by
  induction l generalizing a with
  | nil => simp
  | cons x xs ih =>
    rw [List.foldl_cons, ih, Nat.testBit_or, List.any_cons, Bool.or_assoc]

theorem expandTo3Word_eq_fold (v : Nat) :
    expandTo3Word v
      = (List.range 21).foldl (fun o k => o ||| (v &&& (3 <<< (2 * k))) <<< k) 0 := by
  have e : (0 : Nat) ||| (v &&& (3 <<< (2 * 0))) <<< 0 = (v &&& 3) <<< 0 := by
    rw [Nat.zero_or]
    rfl
  simp only [List.range, List.range.loop, List.foldl]
  rw [e]
  rfl

theorem expandTo3Word_testBit (v j : Nat) :
    (expandTo3Word v).testBit j = true
      ↔ ∃ k, k ≤ 20 ∧ 3 * k ≤ j ∧ j < 3 * k + 2 ∧ v.testBit (j - k) = true := by
  rw [expandTo3Word_eq_fold, testBit_foldl_or, Nat.zero_testBit, Bool.false_or,
    List.any_eq_true]
  constructor
  · rintro ⟨k, hk, hb⟩
    rw [expandTo3_term, Bool.and_eq_true, decide_eq_true_eq] at hb
    exact ⟨k, by have := List.mem_range.1 hk; omega, hb.1.1, hb.1.2, hb.2⟩
  · rintro ⟨k, hk, h1, h2, hb⟩
    refine ⟨k, List.mem_range.2 (by omega), ?_⟩
    rw [expandTo3_term, Bool.and_eq_true, decide_eq_true_eq]
    exact ⟨⟨h1, h2⟩, hb⟩

theorem expandTo3_ok (v : Nat) (hv : v < 2 ^ 42) : expandTo3 v = .ok (expandTo3Word v) := by
  have hm : v &&& 0xffffc0000000000 = 0 := by
    have e : (0xffffc0000000000 : Nat) = 2 ^ 60 - 2 ^ 42 := by decide
    rw [e]
    apply Nat.eq_of_testBit_eq
    intro i
    rw [Nat.testBit_and, testBit_highMask 60 42 i (by decide), Nat.zero_testBit]
    by_cases h : 42 ≤ i
    · have : v.testBit i = false :=
        Nat.testBit_lt_two_pow (Nat.lt_of_lt_of_le hv (Nat.pow_le_pow_right (by decide) h))
      rw [this, Bool.false_and]
    · simp [h]
  unfold expandTo3
  rw [if_neg (by rw [hm]; exact fun h => h rfl)]

theorem expandTo3Word_fields (v k : Nat) (hk : k ≤ 20) :
    (expandTo3Word v).testBit (3 * k) = v.testBit (2 * k) ∧
      (expandTo3Word v).testBit (3 * k + 1) = v.testBit (2 * k + 1) ∧
      (expandTo3Word v).testBit (3 * k + 2) = false := by
  refine ⟨?_, ?_, ?_⟩
  · rw [Bool.eq_iff_iff, expandTo3Word_testBit]
    constructor
    · rintro ⟨c, _, h1, h2, hb⟩
      have e : 3 * k - c = 2 * k := by omega
      rw [e] at hb; exact hb
    · intro hb
      refine ⟨k, hk, Nat.le_refl _, by omega, ?_⟩
      have e : 3 * k - k = 2 * k := by omega
      rw [e]; exact hb
  · rw [Bool.eq_iff_iff, expandTo3Word_testBit]
    constructor
    · rintro ⟨c, _, h1, h2, hb⟩
      have e : 3 * k + 1 - c = 2 * k + 1 := by omega
      rw [e] at hb; exact hb
    · intro hb
      refine ⟨k, hk, by omega, by omega, ?_⟩
      have e : 3 * k + 1 - k = 2 * k + 1 := by omega
      rw [e]; exact hb
  · rcases hb : (expandTo3Word v).testBit (3 * k + 2) with _ | _
    · rfl
    · obtain ⟨c, _, h1, h2, _⟩ := (expandTo3Word_testBit v _).1 hb
      omega

theorem expandTo3Word_top (v : Nat) : (expandTo3Word v).testBit 63 = false := by
  rcases hb : (expandTo3Word v).testBit 63 with _ | _
  · rfl
  · obtain ⟨c, h0, h1, h2, _⟩ := (expandTo3Word_testBit v _).1 hb
    omega

theorem expandTo3Word_digit (v k : Nat) (hk : k ≤ 20) :
    expandTo3Word v / 8 ^ k % 8 = v / 4 ^ k % 4 := by
  obtain ⟨f0, f1, f2⟩ := expandTo3Word_fields v k hk
  have e8 : (8 : Nat) ^ k = 2 ^ (3 * k) := by rw [Nat.pow_mul]
  have e4 : (4 : Nat) ^ k = 2 ^ (2 * k) := by rw [Nat.pow_mul]
  have e8b : (8 : Nat) = 2 ^ 3 := rfl
  have e4b : (4 : Nat) = 2 ^ 2 := rfl
  rw [e8, e4, e8b, e4b]
  rw [← Nat.shiftRight_eq_div_pow, ← Nat.shiftRight_eq_div_pow]
  apply Nat.eq_of_testBit_eq
  intro i
  rw [Nat.testBit_mod_two_pow, Nat.testBit_mod_two_pow, Nat.testBit_shiftRight,
    Nat.testBit_shiftRight]
  rcases i with _ | _ | _ | i
  · simpa using f0
  · simpa using f1
  · simpa using f2
  · have a : ¬ i + 1 + 1 + 1 < 3 := by omega
    have b : ¬ i + 1 + 1 + 1 < 2 := by omega
    rw [decide_eq_false a, decide_eq_false b, Bool.false_and, Bool.false_and]

/-- C29: `expandTo3` turns a 2-bit-packed word into a 3-bit-packed word: for
every `v < 2^42` the call returns a word `o` such that, for every `k` in
`0..20`, bits `3k` and `3k+1` of `o` are bits `2k` and `2k+1` of `v`, bit `3k+2`
of `o` is 0, and bit 63 of `o` is 0; so the `k`-th octal digit of `o` is the
`k`-th base-4 digit of `v`. -/
theorem expandTo3_spec (v : Nat) (hv : v < 2 ^ 42) :
    ∃ o, expandTo3 v = .ok o ∧
      (∀ k, k ≤ 20 →
        o.testBit (3 * k) = v.testBit (2 * k) ∧
        o.testBit (3 * k + 1) = v.testBit (2 * k + 1) ∧
        o.testBit (3 * k + 2) = false) ∧
      o.testBit 63 = false ∧
      ∀ k, k ≤ 20 → o / 8 ^ k % 8 = v / 4 ^ k % 4 :=
  ⟨expandTo3Word v, expandTo3_ok v hv, expandTo3Word_fields v, expandTo3Word_top v,
    expandTo3Word_digit v⟩

/-- C29, at a concrete input: `0x1b` is `0123` in base 4 and expands to octal
`0123`. -/
theorem expandTo3_spec_witness :
    (0x1b : Nat) < 2 ^ 42 ∧ expandTo3 0x1b = .ok 0o123 ∧
      ∃ o, expandTo3 0x1b = .ok o ∧ ∀ k, k ≤ 20 → o / 8 ^ k % 8 = 0x1b / 4 ^ k % 4 :=
  match expandTo3_spec 0x1b (by decide) with
  | ⟨o, h, _, _, hd⟩ => ⟨by decide, by decide, o, h, hd⟩

/-! ## Bases -/

theorem encodeTable_le (k : Nat) : ([0, 1, 2, 3, 4, 4, 4, 4] : List Nat).getD k 0 ≤ 4 := by
  match k with
  | 0 | 1 | 2 | 3 | 4 | 5 | 6 | 7 => decide
  | k + 8 => simp

/-- C30: `encode2bitBase` maps bases by the documented table irrespective of
case: `A`, `a` to 0; `C`, `c` to 1; `T`, `t` to 2; `G`, `g` to 3; `N`, `n` to 4;
and for every input character the result is at most 4. -/
theorem encode2bitBase_table :
    encode2bitBase ('A'.toNat : Nat) = 0 ∧ encode2bitBase ('a'.toNat : Nat) = 0 ∧
      encode2bitBase ('C'.toNat : Nat) = 1 ∧ encode2bitBase ('c'.toNat : Nat) = 1 ∧
      encode2bitBase ('T'.toNat : Nat) = 2 ∧ encode2bitBase ('t'.toNat : Nat) = 2 ∧
      encode2bitBase ('G'.toNat : Nat) = 3 ∧ encode2bitBase ('g'.toNat : Nat) = 3 ∧
      encode2bitBase ('N'.toNat : Nat) = 4 ∧ encode2bitBase ('n'.toNat : Nat) = 4 ∧
      ∀ base : Int, encode2bitBase base ≤ 4 := by
  refine ⟨by decide, by decide, by decide, by decide, by decide, by decide, by decide,
    by decide, by decide, by decide, ?_⟩
  intro base
  exact encodeTable_le _

/-! ## stuffedBits: the codes -/

/-- C22 as stated fails: in a fresh stream with 128-bit blocks the five
Elias-gamma codes for `[1,2,3,4,5]` take 21 bits, and afterwards the block list
still has its one block. -/
theorem stuffedBits_eliasGamma_one_block :
    (setAll setEliasGamma [1, 2, 3, 4, 5] (new 128)).toOption.map
        (fun s => (s._dataBlocksLen, getPosition s)) = some (1, 21) ∧
      (setAll setEliasGamma [1, 2, 3, 4, 5] (new 128)).toOption.map
        (fun s => decide (1 < s._dataBlocksLen)) = some false := by
  decide!

/-- C22 (as the code has it): in a fresh stream whose block capacity is 128
bits, writing the Elias-gamma codes for `[1,2,3,4,5]` in order leaves the block
list at one block, and decoding five Elias-gamma values from the start of the
stream returns exactly `[1,2,3,4,5]`; written eight times over (40 values) the
codes no longer fit one block, the block list grows to two blocks, and decoding
from the start returns exactly the 40 values written. -/
theorem stuffedBits_eliasGamma_example :
    writeAllThenReadAll setEliasGamma getEliasGamma (new 128) [1, 2, 3, 4, 5]
        = .ok ([1, 2, 3, 4, 5], 1) ∧
      writeAllThenReadAll setEliasGamma getEliasGamma (new 128)
          (List.replicate 8 [1, 2, 3, 4, 5]).flatten
        = .ok ((List.replicate 8 [1, 2, 3, 4, 5]).flatten, 2) := by
  decide!

/-! ## stuffedBits: the codes, bit by bit -/

namespace stuffedBits

end stuffedBits

namespace stuffedBits

end stuffedBits

namespace stuffedBits

end stuffedBits

namespace stuffedBits

end stuffedBits

namespace stuffedBits

end stuffedBits

namespace stuffedBits

end stuffedBits

namespace stuffedBits

theorem new_wellFormed (nBits : Nat) (h : nBits + 128 < 2 ^ 64) :
    (stuffedBits.new nBits).wellFormed := by
  refine ⟨?_, ?_, ?_, rfl, ?_, ?_, ?_, ?_, ?_, ?_, ?_⟩
  · show (0 : Nat) = 64 * (0 / 64) + (64 - (64 - 0 % 64))
    decide
  · show 1 ≤ 64 - 0 % 64
    decide
  · show 64 - 0 % 64 ≤ 64
    decide
  · show (0 : Nat) < 1
    decide
  · show (0 : Nat) < 1
    decide
  · show 1 + 3 < 2 ^ 32
    decide
  · intro i hi
    exact absurd hi (Nat.not_lt_zero i)
  · exact Nat.zero_le _
  · exact Nat.zero_le _
  · show 0 + nBits + 128 < 2 ^ 64
    omega

theorem setUnary_size_wraps (s : stuffedBits) (v : Nat) (hv : v = 2 ^ 32 - 1 ∨ v = 2 ^ 63 - 1)
    (r : Nat × stuffedBits) (h : setUnary s v = .ok r) : r.1 = 0 := by
  have e : add64 v 1 % 2 ^ 32 = 0 := by
    rcases hv with rfl | rfl <;> decide
  unfold setUnary at h
  cases h2 : ensureSpace s (add64 v 1) with
  | error e => rw [h2] at h; cases h
  | ok s1 =>
    rw [h2] at h
    simp only [] at h
    rw [← Except.ok.inj h]
    exact e

end stuffedBits

theorem testBit_of_lt_two_pow (x n i : Nat) (hx : x < 2 ^ n) (hi : n ≤ i) :
    x.testBit i = false :=
  Nat.testBit_lt_two_pow (Nat.lt_of_lt_of_le hx (Nat.pow_le_pow_right (by decide) hi))

theorem readSpan_testBit (f : Nat → Nat) (pos w : Nat) (hw2 : w ≤ 128)
    (hf : ∀ k, f k < 2 ^ 128) (i : Nat) :
    (wordArray.readSpan f pos w (2 ^ w - 1)).testBit i
      = (decide (i < w) && segBit f (pos + w - 1 - i)) := by
  unfold wordArray.readSpan segBit
  simp only []
  by_cases hi : i < w
  swap
  · split <;> simp [hi]
  split
  · rename_i h
    rw [Nat.testBit_and, Nat.testBit_shiftRight, Nat.testBit_two_pow_sub_one]
    have e1 : (pos + w - 1 - i) / 128 = pos / 128 := by omega
    have e2 : 127 - (pos + w - 1 - i) % 128 = 128 - pos % 128 - w + i := by omega
    rw [e1, e2]
    simp [hi]
  · rename_i h
    rw [Nat.testBit_and, Nat.testBit_or, Nat.testBit_mod_two_pow, Nat.testBit_shiftLeft,
      Nat.testBit_shiftRight, Nat.testBit_two_pow_sub_one]
    by_cases h2 : i < pos % 128 + w - 128
    · have e1 : (pos + w - 1 - i) / 128 = pos / 128 + 1 := by omega
      have e2 : 127 - (pos + w - 1 - i) % 128 = 128 - (pos % 128 + w - 128) + i := by omega
      have a1 : ¬ i ≥ pos % 128 + w - 128 := by omega
      rw [e1, e2]
      simp [hi, a1]
    · have e1 : (pos + w - 1 - i) / 128 = pos / 128 := by omega
      have e2 : 127 - (pos + w - 1 - i) % 128 = i - (pos % 128 + w - 128) := by omega
      have a1 : i ≥ pos % 128 + w - 128 := by omega
      have a2 : i < 128 := by omega
      have a3 : (f (pos / 128 + 1)).testBit (128 - (pos % 128 + w - 128) + i) = false :=
        testBit_of_lt_two_pow _ 128 _ (hf _) (by omega)
      rw [e1, e2, a3]
      simp [hi, a1, a2]

theorem testBit_uint128max (i : Nat) : uint128max.testBit i = decide (i < 128) := by
  unfold uint128max
  exact Nat.testBit_two_pow_sub_one 128 i

theorem writeSpan_segBit (f : Nat → Nat) (pos w v : Nat) (hw2 : w ≤ 128) (p : Nat) :
    segBit (wordArray.writeSpan f pos w (2 ^ w - 1) (v &&& (2 ^ w - 1))) p
      = if pos ≤ p ∧ p < pos + w then v.testBit (pos + w - 1 - p) else segBit f p := by
  unfold wordArray.writeSpan segBit
  simp only []
  split
  · rename_i h
    by_cases hp : p / 128 = pos / 128
    · rw [hp, Function.update_same, Nat.testBit_or, Nat.testBit_and, Nat.testBit_xor,
        testBit_uint128max, Nat.testBit_shiftLeft, Nat.testBit_shiftLeft, Nat.testBit_and,
        Nat.testBit_two_pow_sub_one]
      by_cases hs : pos ≤ p ∧ p < pos + w
      · have a1 : 127 - p % 128 ≥ 128 - pos % 128 - w := by omega
        have a2 : 127 - p % 128 - (128 - pos % 128 - w) < w := by omega
        have a3 : 127 - p % 128 < 128 := by omega
        have e : 127 - p % 128 - (128 - pos % 128 - w) = pos + w - 1 - p := by omega
        have b1 : pos + w - 1 - p < w := by omega
        rw [if_pos hs, e]
        simp [a1, a3, b1]
      · rw [if_neg hs]
        have a3 : 127 - p % 128 < 128 := by omega
        by_cases a1 : 127 - p % 128 ≥ 128 - pos % 128 - w
        · have a2 : ¬ 127 - p % 128 - (128 - pos % 128 - w) < w := by omega
          simp [a1, a2, a3]
        · simp [a1, a3]
    · have hs : ¬ (pos ≤ p ∧ p < pos + w) := by omega
      rw [Function.update_noteq hp, if_neg hs]
  · rename_i h
    by_cases hp2 : p / 128 = pos / 128 + 1
    · rw [hp2, Function.update_same, Nat.testBit_or, Nat.testBit_and,
        Nat.testBit_two_pow_sub_one, Nat.testBit_shiftLeft, Nat.testBit_and, Nat.testBit_and,
        Nat.testBit_two_pow_sub_one, Nat.testBit_two_pow_sub_one]
      by_cases hs : pos ≤ p ∧ p < pos + w
      · have a1 : 127 - p % 128 ≥ 128 - (pos % 128 + w - 128) := by omega
        have a2 : ¬ 127 - p % 128 < 128 - (pos % 128 + w - 128) := by omega
        have a4 : 127 - p % 128 - (128 - (pos % 128 + w - 128)) < w := by omega
        have a5 : 127 - p % 128 - (128 - (pos % 128 + w - 128)) < pos % 128 + w - 128 := by
          omega
        have e : 127 - p % 128 - (128 - (pos % 128 + w - 128)) = pos + w - 1 - p := by omega
        have b1 : pos + w - 1 - p < w := by omega
        have b2 : pos + w - 1 - p < pos % 128 + w - 128 := by omega
        rw [if_pos hs, e]
        simp [a1, a2, b1, b2]
      · rw [if_neg hs]
        have a1 : ¬ 127 - p % 128 ≥ 128 - (pos % 128 + w - 128) := by omega
        have a2 : 127 - p % 128 < 128 - (pos % 128 + w - 128) := by omega
        simp [a1, a2]
    · rw [Function.update_noteq hp2]
      by_cases hp : p / 128 = pos / 128
      · rw [hp, Function.update_same, Nat.testBit_or, Nat.testBit_and, Nat.testBit_xor,
          testBit_uint128max, Nat.testBit_two_pow_sub_one, Nat.testBit_shiftRight,
          Nat.testBit_and, Nat.testBit_two_pow_sub_one]
        have a3 : 127 - p % 128 < 128 := by omega
        by_cases hs : pos ≤ p ∧ p < pos + w
        · have a1 : 127 - p % 128 < 128 - pos % 128 := by omega
          have a2 : pos % 128 + w - 128 + (127 - p % 128) < w := by omega
          have e : pos % 128 + w - 128 + (127 - p % 128) = pos + w - 1 - p := by omega
          have b1 : pos + w - 1 - p < w := by omega
          rw [if_pos hs, e]
          simp [a1, a3, b1]
        · have a1 : ¬ 127 - p % 128 < 128 - pos % 128 := by omega
          have a2 : ¬ pos % 128 + w - 128 + (127 - p % 128) < w := by omega
          rw [if_neg hs]
          simp [a1, a2, a3]
      · have hs : ¬ (pos ≤ p ∧ p < pos + w) := by omega
        rw [Function.update_noteq hp, if_neg hs]

theorem writeSpan_lt (f : Nat → Nat) (pos w v : Nat) (hw2 : w ≤ 128)
    (hf : ∀ k, f k < 2 ^ 128) (k : Nat) :
    wordArray.writeSpan f pos w (2 ^ w - 1) (v &&& (2 ^ w - 1)) k < 2 ^ 128 := by
  unfold wordArray.writeSpan
  simp only []
  split
  · rename_i h
    by_cases hk : k = pos / 128
    · rw [hk, Function.update_same]
      apply Nat.lt_pow_two_of_testBit
      intro i hi
      have a1 : (f (pos / 128)).testBit i = false := testBit_of_lt_two_pow _ 128 _ (hf _) hi
      have a2 : ¬ i - (128 - pos % 128 - w) < w := by omega
      rw [Nat.testBit_or, Nat.testBit_and, Nat.testBit_shiftLeft, Nat.testBit_and,
        Nat.testBit_two_pow_sub_one, a1]
      simp [a2]
    · rw [Function.update_noteq hk]
      exact hf k
  · rename_i h
    by_cases hk2 : k = pos / 128 + 1
    · rw [hk2, Function.update_same]
      apply Nat.lt_pow_two_of_testBit
      intro i hi
      have a1 : (f (pos / 128 + 1)).testBit i = false :=
        testBit_of_lt_two_pow _ 128 _ (hf _) hi
      have a2 : ¬ i - (128 - (pos % 128 + w - 128)) < pos % 128 + w - 128 := by omega
      rw [Nat.testBit_or, Nat.testBit_and, Nat.testBit_shiftLeft, Nat.testBit_and,
        Nat.testBit_two_pow_sub_one, a1]
      simp [a2]
    · rw [Function.update_noteq hk2]
      by_cases hk : k = pos / 128
      · rw [hk, Function.update_same]
        apply Nat.lt_pow_two_of_testBit
        intro i hi
        have a1 : (f (pos / 128)).testBit i = false := testBit_of_lt_two_pow _ 128 _ (hf _) hi
        have a2 : ¬ pos % 128 + w - 128 + i < w := by omega
        rw [Nat.testBit_or, Nat.testBit_and, Nat.testBit_shiftRight, Nat.testBit_and,
          Nat.testBit_two_pow_sub_one, a1]
        simp [a2]
      · rw [Function.update_noteq hk]
        exact hf k

theorem readSpan_writeSpan_same (f : Nat → Nat) (pos w v : Nat) (hw2 : w ≤ 128)
    (hf : ∀ k, f k < 2 ^ 128) (hv : v < 2 ^ w) :
    wordArray.readSpan (wordArray.writeSpan f pos w (2 ^ w - 1) (v &&& (2 ^ w - 1)))
      pos w (2 ^ w - 1) = v := by
  apply Nat.eq_of_testBit_eq
  intro i
  rw [readSpan_testBit _ pos w hw2 (writeSpan_lt f pos w v hw2 hf) i,
    writeSpan_segBit f pos w v hw2]
  by_cases hi : i < w
  · have hs : pos ≤ pos + w - 1 - i ∧ pos + w - 1 - i < pos + w := by omega
    have e : pos + w - 1 - (pos + w - 1 - i) = i := by omega
    rw [if_pos hs, e]
    simp [hi]
  · rw [testBit_of_lt_two_pow v w i hv (by omega)]
    simp [hi]

theorem readSpan_writeSpan_other (f : Nat → Nat) (pos pos2 w v : Nat) (hw2 : w ≤ 128)
    (hf : ∀ k, f k < 2 ^ 128) (hd : pos2 + w ≤ pos ∨ pos + w ≤ pos2) :
    wordArray.readSpan (wordArray.writeSpan f pos w (2 ^ w - 1) (v &&& (2 ^ w - 1)))
      pos2 w (2 ^ w - 1) = wordArray.readSpan f pos2 w (2 ^ w - 1) := by
  apply Nat.eq_of_testBit_eq
  intro i
  rw [readSpan_testBit _ pos2 w hw2 (writeSpan_lt f pos w v hw2 hf) i,
    readSpan_testBit f pos2 w hw2 hf i, writeSpan_segBit f pos w v hw2]
  by_cases hi : i < w
  · have hs : ¬ (pos ≤ pos2 + w - 1 - i ∧ pos2 + w - 1 - i < pos + w) := by omega
    rw [if_neg hs]
  · simp [hi]

namespace wordArray

theorem touch_segments (a : wordArray) (seg s : Nat) (hs : s ≤ seg) :
    (a.touch seg)._segments s = a.content s := by
  unfold touch content
  by_cases h : seg < a._segmentsLen
  · rw [if_pos h, if_pos (by omega)]
  · rw [if_neg h]
    show (if a._segmentsLen ≤ s ∧ s ≤ seg then fun _ => 0 else a._segments s) = _
    by_cases h2 : s < a._segmentsLen
    · rw [if_neg (by omega), if_pos h2]
    · rw [if_pos (by omega), if_neg h2]

theorem touch_content (a : wordArray) (seg s : Nat) : (a.touch seg).content s = a.content s := by
  by_cases hs : s ≤ seg
  · have h1 := touch_segments a seg s hs
    unfold content at *
    unfold touch at *
    by_cases h : seg < a._segmentsLen
    · rw [if_pos h]
    · rw [if_neg h] at h1 ⊢
      show (if s < seg + 1 then _ else _) = _
      rw [if_pos (by omega)]
      exact h1
  · unfold content touch
    by_cases h : seg < a._segmentsLen
    · rw [if_pos h]
    · rw [if_neg h]
      show (if s < seg + 1 then _ else _) = _
      rw [if_neg (by omega), if_neg (by omega)]

theorem touch_len (a : wordArray) (seg : Nat) : seg < (a.touch seg)._segmentsLen := by
  unfold touch
  by_cases h : seg < a._segmentsLen
  · rw [if_pos h]; exact h
  · rw [if_neg h]; exact Nat.lt_succ_self seg

theorem touch_params (a : wordArray) (seg : Nat) :
    (a.touch seg)._valueWidth = a._valueWidth ∧ (a.touch seg)._valueMask = a._valueMask ∧
      (a.touch seg)._valuesPerSegment = a._valuesPerSegment := by
  unfold touch
  split <;> exact ⟨rfl, rfl, rfl⟩

theorem content_lt (a : wordArray) (h : ∀ seg wrd, a._segments seg wrd < 2 ^ 128) (s k : Nat) :
    a.content s k < 2 ^ 128 := by
  unfold content
  split
  · exact h s k
  · exact Nat.two_pow_pos 128

theorem get_eq (a : wordArray) (eIdx : Nat) :
    (a.get eIdx).1 = readSpan (a.content (eIdx / a._valuesPerSegment))
      ((a._valueWidth * (eIdx % a._valuesPerSegment)) % 2 ^ 64) a._valueWidth a._valueMask := by
  unfold get
  simp only []
  rw [touch_segments a _ _ (Nat.le_refl _)]

theorem set_params (a : wordArray) (eIdx v : Nat) :
    (a.set eIdx v)._valueWidth = a._valueWidth ∧ (a.set eIdx v)._valueMask = a._valueMask ∧
      (a.set eIdx v)._valuesPerSegment = a._valuesPerSegment := by
  unfold set setNval
  exact touch_params a _

theorem set_content (a : wordArray) (eIdx v s : Nat) :
    (a.set eIdx v).content s
      = if s = eIdx / a._valuesPerSegment then
          writeSpan (a.content (eIdx / a._valuesPerSegment))
            ((a._valueWidth * (eIdx % a._valuesPerSegment)) % 2 ^ 64) a._valueWidth
            a._valueMask (v &&& a._valueMask)
        else a.content s := by
  have hl := touch_len a (eIdx / a._valuesPerSegment)
  have hseg := touch_segments a (eIdx / a._valuesPerSegment) _ (Nat.le_refl _)
  have hc := touch_content a (eIdx / a._valuesPerSegment) s
  unfold content at hc ⊢
  unfold set setNval
  simp only []
  by_cases hs : s = eIdx / a._valuesPerSegment
  · rw [if_pos hs, hs, if_pos hl, Function.update_same, hseg]
    rfl
  · rw [if_neg hs, Function.update_noteq hs]
    exact hc

end wordArray

namespace wordArray

theorem touch_lt (a : wordArray) (h : ∀ seg wrd, a._segments seg wrd < 2 ^ 128) (seg s k : Nat) :
    (a.touch seg)._segments s k < 2 ^ 128 := by
  unfold touch
  by_cases h1 : seg < a._segmentsLen
  · rw [if_pos h1]; exact h s k
  · rw [if_neg h1]
    show (if a._segmentsLen ≤ s ∧ s ≤ seg then fun _ => 0 else a._segments s) k < _
    split
    · exact Nat.two_pow_pos 128
    · exact h s k

theorem pos_eq (a : wordArray) (ha : a.valid) (eIdx : Nat) :
    (a._valueWidth * (eIdx % a._valuesPerSegment)) % 2 ^ 64
      = a._valueWidth * (eIdx % a._valuesPerSegment) := by
  obtain ⟨_, _, _, hvps, hsz, _⟩ := ha
  apply Nat.mod_eq_of_lt
  have h1 : eIdx % a._valuesPerSegment ≤ a._valuesPerSegment :=
    Nat.le_of_lt (Nat.mod_lt _ hvps)
  exact Nat.lt_of_le_of_lt (Nat.mul_le_mul_left _ h1) hsz

theorem spans_disjoint (a : wordArray) (eIdx j : Nat) (hne : j ≠ eIdx)
    (hs : j / a._valuesPerSegment = eIdx / a._valuesPerSegment) :
    a._valueWidth * (j % a._valuesPerSegment) + a._valueWidth
        ≤ a._valueWidth * (eIdx % a._valuesPerSegment) ∨
      a._valueWidth * (eIdx % a._valuesPerSegment) + a._valueWidth
        ≤ a._valueWidth * (j % a._valuesPerSegment) := by
  have hm : j % a._valuesPerSegment ≠ eIdx % a._valuesPerSegment := by
    intro h
    apply hne
    rw [← Nat.div_add_mod j a._valuesPerSegment, ← Nat.div_add_mod eIdx a._valuesPerSegment,
      hs, h]
  rcases Nat.lt_or_gt_of_ne hm with h | h
  · left
    have := Nat.mul_le_mul_left a._valueWidth (Nat.succ_le_of_lt h)
    rw [Nat.mul_succ] at this
    exact this
  · right
    have := Nat.mul_le_mul_left a._valueWidth (Nat.succ_le_of_lt h)
    rw [Nat.mul_succ] at this
    exact this

theorem new_valid (w segSize : Nat) (h1 : 1 ≤ w) (h2 : w ≤ 128) (h3 : w ≤ segSize)
    (h4 : segSize < 2 ^ 64) : (wordArray.new w segSize).valid := by
  refine ⟨h1, h2, ?_, ?_, ?_, ?_⟩
  · show ((1 <<< w) - 1) % 2 ^ 64 = (2 ^ w - 1) % 2 ^ 64
    rw [Nat.one_shiftLeft]
  · exact Nat.div_pos h3 (by omega)
  · exact Nat.lt_of_le_of_lt (Nat.mul_div_le segSize w) h4
  · intro _ _
    exact Nat.two_pow_pos 128

end wordArray

namespace wordArray

theorem valid_mask (a : wordArray) (ha : a.valid) (hw : a._valueWidth ≤ 64) :
    a._valueMask = 2 ^ a._valueWidth - 1 := by
  obtain ⟨_, _, hm, _⟩ := ha
  rw [hm]
  apply Nat.mod_eq_of_lt
  have h1 : 2 ^ a._valueWidth ≤ 2 ^ 64 := Nat.pow_le_pow_right (by decide) hw
  have h2 : 0 < 2 ^ a._valueWidth := Nat.two_pow_pos _
  omega

/-- What holds of `set` and `get`: in every `wordArray` with a value width `w`
in `[1,64]` (and the parameters the constructor derives from it), for every
`v < 2^w` and every element index `eIdx`, whether the value lies inside one
128-bit word or straddles a word boundary, `set(eIdx, v)` followed by
`get(eIdx)` returns `v`, `get(j)` returns what it returned before for every
other index `j`, and the array is again well formed. -/
theorem set_get_of_width_le_64 (a : wordArray) (ha : a.valid) (hw : a._valueWidth ≤ 64)
    (eIdx v : Nat) (hv : v < 2 ^ a._valueWidth) :
    ((a.set eIdx v).get eIdx).1 = v ∧
      (∀ j, j ≠ eIdx → ((a.set eIdx v).get j).1 = (a.get j).1) ∧
      (a.set eIdx v).valid := by
  have ha2 := ha
  have hm := valid_mask a ha hw
  obtain ⟨h1, h2, hm0, hvps, hsz, hb⟩ := ha
  obtain ⟨p1, p2, p3⟩ := wordArray.set_params a eIdx v
  have hf := wordArray.content_lt a hb (eIdx / a._valuesPerSegment)
  refine ⟨?_, ?_, ?_⟩
  · rw [wordArray.get_eq, p1, p2, p3, wordArray.set_content, if_pos rfl, hm]
    exact readSpan_writeSpan_same _ _ _ v h2 hf hv
  · intro j hj
    rw [wordArray.get_eq, wordArray.get_eq, p1, p2, p3, wordArray.set_content]
    by_cases hs : j / a._valuesPerSegment = eIdx / a._valuesPerSegment
    · rw [if_pos hs, hs, hm, wordArray.pos_eq a ha2 j, wordArray.pos_eq a ha2 eIdx]
      exact readSpan_writeSpan_other _ _ _ _ v h2 hf
        (wordArray.spans_disjoint a eIdx j hj hs)
    · rw [if_neg hs]
  · refine ⟨by rw [p1]; exact h1, by rw [p1]; exact h2, by rw [p1, p2]; exact hm0,
      by rw [p3]; exact hvps, by rw [p1, p3]; exact hsz, ?_⟩
    intro s k
    unfold wordArray.set wordArray.setNval
    dsimp only
    by_cases hs : s = eIdx / a._valuesPerSegment
    · rw [hs, Function.update_same, hm]
      apply writeSpan_lt _ _ _ v h2
      intro k2
      exact wordArray.touch_lt a hb _ _ _
    · rw [Function.update_noteq hs]
      exact wordArray.touch_lt a hb _ _ _

end wordArray

theorem decodeTable_mem (k : Nat) :
    (['A', 'C', 'T', 'G', 'N', 'N', 'N', 'N'] : List Char).getD k 'A'
      ∈ ['A', 'C', 'T', 'G', 'N'] := by
  match k with
  | 0 | 1 | 2 | 3 | 4 | 5 | 6 | 7 => decide
  | k + 8 => simp

/-- C31: decoding undoes encoding up to case and always returns uppercase: for
every `b` in `{A,C,G,T,N,a,c,g,t,n}`, `decode2bitBase(encode2bitBase(b))` is the
uppercase form of `b`; for every code `x` in `0..4`,
`encode2bitBase(decode2bitBase(x)) = x`; and for every `x`,
`decode2bitBase(x)` is one of `A`, `C`, `T`, `G`, `N`. -/
theorem decode2bitBase_encode2bitBase :
    (∀ b ∈ ['A', 'C', 'G', 'T', 'N', 'a', 'c', 'g', 't', 'n'],
      decode2bitBase (encode2bitBase (b.toNat : Nat)) = b.toUpper) ∧
    (∀ x ∈ [0, 1, 2, 3, 4], encode2bitBase ((decode2bitBase x).toNat : Nat) = x) ∧
    (∀ x : Nat, decode2bitBase x ∈ ['A', 'C', 'T', 'G', 'N']) := by
  refine ⟨by decide, by decide, ?_⟩
  intro x
  exact decodeTable_mem _

/-- C31, at a concrete input: `g` encodes to 3, which decodes to `G`. -/
theorem decode2bitBase_encode2bitBase_witness :
    decode2bitBase (encode2bitBase ('g'.toNat : Nat)) = 'G' ∧
      encode2bitBase ((decode2bitBase 3).toNat : Nat) = 3 :=
  ⟨decode2bitBase_encode2bitBase.1 'g' (by decide),
    decode2bitBase_encode2bitBase.2.1 3 (by decide)⟩

/-! ## stuffedBits: the head relation -/

/-- C32: the head decomposition `_dataPos = 64 * _dataWrd + (64 - _dataBit)`
(with `_dataPos` a `uint64`) is preserved by `updateBit()`, by every successful
`updateBlk(n)` and by every successful `ensureSpace(n)`; each of the latter two
either leaves the three fields as they were or resets them to `_dataPos = 0`,
`_dataWrd = 0`, `_dataBit = 64`.  `updateBit()` also keeps `_dataBit <= 64`. -/
theorem stuffedBits_headInv_preserved (s : stuffedBits) (hinv : s.headInv)
    (hpos : s._dataPos < 2 ^ 64) :
    (updateBit s).headInv ∧
      (s._dataBit ≤ 64 → (updateBit s)._dataBit ≤ 64) ∧
      (∀ n t, updateBlk s n = .ok t → t.headInv ∧
        ((t._dataPos = s._dataPos ∧ t._dataWrd = s._dataWrd ∧ t._dataBit = s._dataBit) ∨
          (t._dataPos = 0 ∧ t._dataWrd = 0 ∧ t._dataBit = 64))) ∧
      (∀ n t, ensureSpace s n = .ok t → t.headInv ∧
        ((t._dataPos = s._dataPos ∧ t._dataWrd = s._dataWrd ∧ t._dataBit = s._dataBit) ∨
          (t._dataPos = 0 ∧ t._dataWrd = 0 ∧ t._dataBit = 64))) := by
  unfold headInv at hinv
  refine ⟨?_, ?_, ?_, ?_⟩
  · unfold updateBit headInv
    split
    · rename_i h0
      show s._dataPos = 64 * add64 s._dataWrd 1 + (64 - 64)
      unfold add64
      omega
    · exact hinv
  · intro hb
    unfold updateBit
    split
    · exact Nat.le_refl 64
    · exact hb
  · intro n t ht
    rcases updateBlk_ok_cases s t n ht with ⟨_, e⟩ | ⟨_, _, _, e⟩
    · rw [e]
      exact ⟨hinv, Or.inl ⟨rfl, rfl, rfl⟩⟩
    · rw [e]
      exact ⟨rfl, Or.inr ⟨rfl, rfl, rfl⟩⟩
  · intro n t ht
    rcases ensureSpace_ok_cases s t n ht with e | e
    · rw [e]
      exact ⟨hinv, Or.inl ⟨rfl, rfl, rfl⟩⟩
    · rw [e]
      exact ⟨rfl, Or.inr ⟨rfl, rfl, rfl⟩⟩

/-- C32, at a concrete input: the head at bit 64 of a block with the first word
used up (`_dataWrd = 0`, `_dataBit = 0`); `updateBit` moves to word 1. -/
theorem stuffedBits_headInv_preserved_witness :
    ({ ofBlocks 128 [0] [100] 0 64 with _dataWrd := 0, _dataBit := 0 } : stuffedBits).headInv ∧
      (updateBit { ofBlocks 128 [0] [100] 0 64 with _dataWrd := 0, _dataBit := 0 }).headInv ∧
      (updateBit { ofBlocks 128 [0] [100] 0 64 with _dataWrd := 0, _dataBit := 0 })._dataWrd
        = 1 :=
  ⟨by decide,
    (stuffedBits_headInv_preserved
      { ofBlocks 128 [0] [100] 0 64 with _dataWrd := 0, _dataBit := 0 }
      (by decide) (by decide)).1,
    by decide⟩

/-! ## expandTo3 and compressTo2: the assertions -/

/-- C33 fails on the code: the assertion of `expandTo3` tests bits 42..59 only
(`0xffffc0000000000` has fifteen hexadecimal digits).  `v = 2^42` stops at the
assertion, but `v = 2^60` and `v = 2^63` pass it and `expandTo3` returns 0, the
set bit dropped. -/
theorem expandTo3_accepts_high_bits :
    expandTo3 (2 ^ 42) = .error .assertFailed ∧
      expandTo3 (2 ^ 60) = .ok 0 ∧ expandTo3 (2 ^ 63) = .ok 0 ∧
      ¬ ((2 : Nat) ^ 60 < 2 ^ 42) := by
  decide

/-! ## The save functions beyond the word width -/

/-- C35 fails on the code for `n > 64`: the shift count `64 - n` wraps as a
`uint32` to a value of 64 or more, an out-of-range shift.  On a machine that
takes the count modulo 64, `saveLeftBits(v, 65)` keeps bit 63 of `v` only and
`saveRightBits(v, 65)` keeps bit 0 only, whereas `clearLeftBits(v, 65)` and
`clearRightBits(v, 65)` are 0; for `n = 64` both save functions return `v`. -/
theorem saveBits_beyond_width :
    saveLeftBits (fun x k => x <<< (k % 64)) (2 ^ 64 - 1) 65 = 2 ^ 63 ∧
      saveLeftBits (fun x k => x <<< (k % 64)) 1 65 = 0 ∧
      saveRightBits (fun x k => x >>> (k % 64)) (2 ^ 64 - 1) 65 = 1 ∧
      saveRightBits (fun x k => x >>> (k % 64)) 2 65 = 0 ∧
      clearLeftBits (2 ^ 64 - 1) 65 = 0 ∧ clearRightBits (2 ^ 64 - 1) 65 = 0 ∧
      saveLeftBits (fun x k => x <<< (k % 64)) (2 ^ 64 - 1) 64 = 2 ^ 64 - 1 ∧
      saveRightBits (fun x k => x >>> (k % 64)) (2 ^ 64 - 1) 64 = 2 ^ 64 - 1 := by
  decide

/-! ## The Fibonacci table -/

theorem fibonacciPair_le (n : Nat) : (fibonacciPair n).1 ≤ (fibonacciPair n).2 := by
  cases n with
  | zero => exact Nat.le_refl 1
  | succ k => exact Nat.le_add_left _ _

theorem fibonacci_mono (n : Nat) : fibonacci n ≤ fibonacci (n + 1) :=
  fibonacciPair_le n

theorem fibonacci_add_two (n : Nat) : fibonacci (n + 2) = fibonacci (n + 1) + fibonacci n := by
  show (fibonacciPair n).1 + (fibonacciPair n).2 = (fibonacciPair n).2 + (fibonacciPair n).1
  exact Nat.add_comm _ _

theorem fibonacci_eq_fib (n : Nat) : fibonacci n = Nat.fib (n + 1) := by
  induction n using Nat.strong_induction_on with
  | _ n ih =>
    match n with
    | 0 => rfl
    | 1 => rfl
    | k + 2 =>
      rw [fibonacci_add_two, ih (k + 1) (by omega), ih k (by omega), Nat.fib_add_two (n := k + 1)]
      exact Nat.add_comm _ _

theorem fibonacci_ge (n : Nat) (h : 93 ≤ n) : 2 ^ 64 ≤ fibonacci n := by
  induction n, h using Nat.le_induction with
  | base => decide
  | succ k _ ih => exact Nat.le_trans ih (fibonacci_mono k)

/-- C38: with the documented definition `F(0) = F(1) = 1`,
`F(n) = F(n-1) + F(n-2)`, one has `F(92) < 2^64 <= F(93)`: each of the first 93
Fibonacci numbers fits a `uint64`, no later one does, and the 93-entry table
computed by the recurrence in `uint64` arithmetic holds the true values
`F(0)..F(92)`, none of them wrapped. -/
theorem fibonacci_table :
    fibonacci 0 = 1 ∧ fibonacci 1 = 1 ∧
      (∀ n, fibonacci (n + 2) = fibonacci (n + 1) + fibonacci n) ∧
      (∀ n, fibonacci n = Nat.fib (n + 1)) ∧
      fibonacci 92 < 2 ^ 64 ∧ 2 ^ 64 ≤ fibonacci 93 ∧
      (∀ n, n < 93 → fibonacci n < 2 ^ 64) ∧
      (∀ n, 93 ≤ n → 2 ^ 64 ≤ fibonacci n) ∧
      (∀ i, i < 93 → _fibData i = fibonacci i) := by
  have h1 : ∀ n : Fin 93, fibonacci n.val < 2 ^ 64 ∧ _fibData n.val = fibonacci n.val := by
    decide
  exact ⟨rfl, rfl, fibonacci_add_two, fibonacci_eq_fib, by decide, by decide,
    fun n hn => (h1 ⟨n, hn⟩).1, fibonacci_ge, fun i hi => (h1 ⟨i, hi⟩).2⟩

/-- C38, at a concrete input: the last entry of the table. -/
theorem fibonacci_table_witness :
    fibonacci 92 = 12200160415121876738 ∧ fibonacci 92 < 2 ^ 64 ∧
      _fibData 92 = fibonacci 92 ∧ 2 ^ 64 ≤ fibonacci 100 :=
  ⟨by decide, fibonacci_table.2.2.2.2.2.2.1 92 (by decide),
    fibonacci_table.2.2.2.2.2.2.2.2 92 (by decide),
    fibonacci_table.2.2.2.2.2.2.2.1 100 (by decide)⟩

/-! ## compressTo2 -/

theorem compressTo2_term (v k j : Nat) :
    ((v &&& (3 <<< (3 * k))) >>> k).testBit j
      = (decide (2 * k ≤ j ∧ j < 2 * k + 2) && v.testBit (k + j)) := by
  have e3 : (3 : Nat) = 2 ^ 2 - 1 := rfl
  rw [Nat.testBit_shiftRight, Nat.testBit_and, Nat.testBit_shiftLeft, e3,
    Nat.testBit_two_pow_sub_one]
  by_cases h1 : 2 * k ≤ j
  · by_cases h2 : j < 2 * k + 2
    · have a2 : k + j ≥ 3 * k := by omega
      have a3 : k + j - 3 * k < 2 := by omega
      simp [h1, h2, a2, a3]
    · have a3 : ¬ k + j - 3 * k < 2 := by omega
      simp [h2, a3]
  · have a2 : ¬ k + j ≥ 3 * k := by omega
    simp [h1, a2]

theorem compressTo2Word_eq_fold (v : Nat) :
    compressTo2Word v
      = (List.range 21).foldl (fun o k => o ||| (v &&& (3 <<< (3 * k))) >>> k) 0 := by
  have e : (0 : Nat) ||| (v &&& (3 <<< (3 * 0))) >>> 0 = (v &&& 3) >>> 0 := by
    rw [Nat.zero_or]
    rfl
  simp only [List.range, List.range.loop, List.foldl]
  rw [e]
  rfl

theorem compressTo2Word_testBit (v j : Nat) :
    (compressTo2Word v).testBit j = true
      ↔ ∃ k, k ≤ 20 ∧ 2 * k ≤ j ∧ j < 2 * k + 2 ∧ v.testBit (k + j) = true := by
  rw [compressTo2Word_eq_fold, testBit_foldl_or, Nat.zero_testBit, Bool.false_or,
    List.any_eq_true]
  constructor
  · rintro ⟨k, hk, hb⟩
    rw [compressTo2_term, Bool.and_eq_true, decide_eq_true_eq] at hb
    exact ⟨k, by have := List.mem_range.1 hk; omega, hb.1.1, hb.1.2, hb.2⟩
  · rintro ⟨k, hk, h1, h2, hb⟩
    refine ⟨k, List.mem_range.2 (by omega), ?_⟩
    rw [compressTo2_term, Bool.and_eq_true, decide_eq_true_eq]
    exact ⟨⟨h1, h2⟩, hb⟩

theorem compressTo2Word_lt (v : Nat) : compressTo2Word v < 2 ^ 42 := by
  apply Nat.lt_pow_two_of_testBit
  intro i hi
  rcases hb : (compressTo2Word v).testBit i with _ | _
  · rfl
  · obtain ⟨k, h0, h1, h2, _⟩ := (compressTo2Word_testBit v i).1 hb
    omega

theorem compressTo2_ok (v : Nat) : compressTo2 v = .ok (compressTo2Word v) := by
  have hm : compressTo2Word v &&& 0xffffc0000000000 = 0 := by
    have e : (0xffffc0000000000 : Nat) = 2 ^ 60 - 2 ^ 42 := by decide
    rw [e]
    apply Nat.eq_of_testBit_eq
    intro i
    rw [Nat.testBit_and, testBit_highMask 60 42 i (by decide), Nat.zero_testBit]
    by_cases h : 42 ≤ i
    · rw [testBit_of_lt_two_pow _ 42 i (compressTo2Word_lt v) h, Bool.false_and]
    · simp [h]
  unfold compressTo2
  rw [if_neg (by rw [hm]; exact fun h => h rfl)]

theorem compressTo2Word_expandTo3Word (v : Nat) (hv : v < 2 ^ 42) :
    compressTo2Word (expandTo3Word v) = v := by
  apply Nat.eq_of_testBit_eq
  intro j
  rw [Bool.eq_iff_iff, compressTo2Word_testBit]
  constructor
  · rintro ⟨k, hk, h1, h2, hb⟩
    obtain ⟨f0, f1, _⟩ := expandTo3Word_fields v k hk
    rcases Nat.eq_or_lt_of_le h1 with e | e
    · have e2 : k + j = 3 * k := by omega
      rw [e2, f0, e] at hb
      exact hb
    · have e2 : k + j = 3 * k + 1 := by omega
      have e3 : j = 2 * k + 1 := by omega
      rw [e2, f1, ← e3] at hb
      exact hb
  · intro hb
    have hj : j < 42 := by
      rcases Nat.lt_or_ge j 42 with h | h
      · exact h
      · rw [testBit_of_lt_two_pow v 42 j hv h] at hb
        cases hb
    obtain ⟨f0, f1, _⟩ := expandTo3Word_fields v (j / 2) (by omega)
    refine ⟨j / 2, by omega, by omega, by omega, ?_⟩
    rcases Nat.mod_two_eq_zero_or_one j with h | h
    · have e2 : j / 2 + j = 3 * (j / 2) := by omega
      have e3 : 2 * (j / 2) = j := by omega
      rw [e2, f0, e3]
      exact hb
    · have e2 : j / 2 + j = 3 * (j / 2) + 1 := by omega
      have e3 : 2 * (j / 2) + 1 = j := by omega
      rw [e2, f1, e3]
      exact hb

/-- C34: `compressTo2` is a left inverse of `expandTo3`: for every `v < 2^42`,
`expandTo3(v)` returns a word `o` and `compressTo2(o) = v`; and `compressTo2`
never fails: for every input its assertion holds and the result is below
`2^42`. -/
theorem compressTo2_expandTo3 :
    (∀ v, v < 2 ^ 42 → ∃ o, expandTo3 v = .ok o ∧ compressTo2 o = .ok v) ∧
      (∀ x, ∃ r, compressTo2 x = .ok r ∧ r < 2 ^ 42) := by
  constructor
  · intro v hv
    refine ⟨expandTo3Word v, expandTo3_ok v hv, ?_⟩
    rw [compressTo2_ok, compressTo2Word_expandTo3Word v hv]
  · intro x
    exact ⟨compressTo2Word x, compressTo2_ok x, compressTo2Word_lt x⟩

/-- C34, at a concrete input: `0x1b` expands to octal `0123` and compresses
back. -/
theorem compressTo2_expandTo3_witness :
    expandTo3 0x1b = .ok 0o123 ∧ compressTo2 0o123 = .ok 0x1b ∧
      ∃ o, expandTo3 0x1b = .ok o ∧ compressTo2 o = .ok 0x1b :=
  ⟨by decide, by decide, compressTo2_expandTo3.1 0x1b (by decide)⟩

/-! ## splitToWords -/

/-- C36 fails on the code: `last(i)` tests only `_wordsLen == 0`, so for
`i >= _wordsLen > 0` it reads `_words` at the wrapped index
`_wordsLen - i - 1`.  With one word and room for four pointers, `last(1)` reads
index `2^32 - 1`, outside the array, and `last(2^32 - 2)` returns the stale
pointer at index 2; `first(1)` returns null, and `last(0)` the word. -/
theorem splitToWords_last_out_of_range :
    splitToWords.last ⟨1, 4, ["a", "x", "y", "z"]⟩ 1 = .error .badAccess ∧
      splitToWords.last ⟨1, 4, ["a", "x", "y", "z"]⟩ (2 ^ 32 - 2) = .ok (some "y") ∧
      splitToWords.first ⟨1, 4, ["a", "x", "y", "z"]⟩ 1 = .ok none ∧
      splitToWords.last ⟨1, 4, ["a", "x", "y", "z"]⟩ 0 = .ok (some "a") := by
  decide

theorem swap_adjacent (pre : List String) (x y : String) (t : List String) :
    (pre ++ x :: y :: t)[pre.length + 1 - 1]? = some x ∧
      (pre ++ x :: y :: t)[pre.length + 1]? = some y ∧
      ((pre ++ x :: y :: t).set (pre.length + 1 - 1) y).set (pre.length + 1) x
        = (pre ++ [y]) ++ x :: t := by
  induction pre with
  | nil => simp
  | cons p ps ih =>
    obtain ⟨h1, h2, h3⟩ := ih
    simp only [Nat.add_sub_cancel] at h1 h3 ⊢
    refine ⟨?_, ?_, ?_⟩
    · simpa using h1
    · simpa using h2
    · simp

theorem shiftLoop_rotates (len : Nat) (w : String) (rest : List String) :
    ∀ (suf pre : List String) (fuel : Nat), suf.length ≤ fuel →
      pre.length + 1 + suf.length = len →
      splitToWords.shiftLoop len fuel (pre.length + 1) (pre ++ w :: (suf ++ rest))
        = .ok (pre ++ suf ++ w :: rest) := by
  intro suf
  induction suf with
  | nil =>
    intro pre fuel _ hlen
    have hn : ¬ pre.length + 1 < len := by simp at hlen; omega
    cases fuel with
    | zero => simp [splitToWords.shiftLoop]
    | succ f => simp [splitToWords.shiftLoop, hn]
  | cons y ys ih =>
    intro pre fuel hf hlen
    have hlt : pre.length + 1 < len := by simp at hlen; omega
    cases fuel with
    | zero => simp at hf
    | succ f =>
      obtain ⟨h1, h2, h3⟩ := swap_adjacent pre w y (ys ++ rest)
      have hr := ih (pre ++ [y]) f (by simp at hf; omega) (by simp at hlen ⊢; omega)
      have e : (pre ++ [y]).length + 1 = pre.length + 1 + 1 := by simp
      rw [e] at hr
      unfold splitToWords.shiftLoop
      rw [if_pos hlt]
      show (match (pre ++ w :: (y :: ys ++ rest))[pre.length + 1 - 1]?,
          (pre ++ w :: (y :: ys ++ rest))[pre.length + 1]? with
        | some x, some y2 => _
        | _, _ => _) = _
      rw [List.cons_append, h1, h2]
      simp only []
      rw [h3, hr]
      simp

theorem getElem?_append_cons (ws : List String) (w : String) (t : List String) :
    (ws ++ w :: t)[ws.length]? = some w := by
  induction ws with
  | nil => simp
  | cons x xs ih => simpa using ih

namespace splitToWords

theorem words_split (a : splitToWords) : a._words = a.words ++ a._words.drop a._wordsLen :=
  (List.take_append_drop _ _).symm

theorem words_length (a : splitToWords) (h : a.wellFormed) : a.words.length = a._wordsLen := by
  obtain ⟨h1, h2, _⟩ := h
  unfold words
  rw [List.length_take]
  omega

end splitToWords

/-- C37: on a well-formed list of `n >= 1` words `w0..w(n-1)`, `shift()`
returns `w0` and leaves the list `w1..w(n-1)` in their order with
`numWords() = n - 1`, and `pop()` returns `w(n-1)` and leaves `w0..w(n-2)`; on
an empty list both return null and change nothing. -/
theorem splitToWords_shift_pop (a : splitToWords) (hwf : a.wellFormed) :
    (a._wordsLen = 0 → a.shift = (.ok none, a) ∧ a.pop = (.ok none, a)) ∧
      (∀ w ws, a.words = w :: ws →
        a.shift.1 = .ok (some w) ∧ a.shift.2.words = ws ∧
        a.shift.2.numWords = a.numWords - 1) ∧
      (∀ ws w, a.words = ws ++ [w] →
        a.pop.1 = .ok (some w) ∧ a.pop.2.words = ws ∧
        a.pop.2.numWords = a.numWords - 1) := by
  have hlen := splitToWords.words_length a hwf
  have hsplit := splitToWords.words_split a
  obtain ⟨hw1, hw2, hw3⟩ := hwf
  refine ⟨?_, ?_, ?_⟩
  · intro h0
    unfold splitToWords.shift splitToWords.pop
    rw [if_pos h0, if_pos h0]
    exact ⟨rfl, rfl⟩
  · intro w ws hws
    rw [hws] at hlen hsplit
    have hn : a._wordsLen = ws.length + 1 := by rw [← hlen]; rfl
    have hne : ¬ a._wordsLen = 0 := by omega
    have hsub : sub32 a._wordsLen 1 = ws.length := by unfold sub32; omega
    have hloop := shiftLoop_rotates a._wordsLen w (a._words.drop a._wordsLen) ws []
      a._wordsLen (by omega) (by simp; omega)
    simp only [List.nil_append, List.length_nil, Nat.zero_add] at hloop
    have hsplit2 : a._words = w :: (ws ++ List.drop a._wordsLen a._words) := by
      rw [← List.cons_append]; exact hsplit
    rw [← hsplit2] at hloop
    unfold splitToWords.shift
    rw [if_neg hne, hloop]
    simp only [hsub]
    refine ⟨?_, ?_, ?_⟩
    · unfold splitToWords.wordAt
      show (match (ws ++ w :: List.drop a._wordsLen a._words)[ws.length]? with
        | none => _
        | some w2 => _) = _
      rw [getElem?_append_cons]
    · unfold splitToWords.words
      simp
    · unfold splitToWords.numWords
      show ws.length = a._wordsLen - 1
      omega
  · intro ws w hws
    rw [hws] at hlen hsplit
    have hn : a._wordsLen = ws.length + 1 := by rw [← hlen]; simp
    have hne : ¬ a._wordsLen = 0 := by omega
    have hsub : sub32 a._wordsLen 1 = ws.length := by unfold sub32; omega
    unfold splitToWords.pop
    rw [if_neg hne]
    simp only [hsub]
    refine ⟨?_, ?_, ?_⟩
    · unfold splitToWords.wordAt
      show (match a._words[ws.length]? with
        | none => _
        | some w2 => _) = _
      rw [hsplit, List.append_assoc]
      show (match (ws ++ w :: List.drop a._wordsLen a._words)[ws.length]? with
        | none => _
        | some w2 => _) = _
      rw [getElem?_append_cons]
    · unfold splitToWords.words
      show List.take ws.length a._words = ws
      rw [hsplit]
      simp
    · unfold splitToWords.numWords
      show ws.length = a._wordsLen - 1
      omega

/-- C37, at a concrete input: three words in an array of four pointers. -/
theorem splitToWords_shift_pop_witness :
    (splitToWords.shift ⟨3, 4, ["a", "b", "c", "x"]⟩).1 = .ok (some "a") ∧
      (splitToWords.shift ⟨3, 4, ["a", "b", "c", "x"]⟩).2.words = ["b", "c"] ∧
      (splitToWords.pop ⟨3, 4, ["a", "b", "c", "x"]⟩).1 = .ok (some "c") ∧
      (splitToWords.pop ⟨3, 4, ["a", "b", "c", "x"]⟩).2.words = ["a", "b"] :=
  have w := splitToWords_shift_pop ⟨3, 4, ["a", "b", "c", "x"]⟩ (by decide)
  have s := w.2.1 "a" ["b", "c"] (by decide)
  have p := w.2.2 ["a", "b"] "c" (by decide)
  ⟨s.1, s.2.1, p.1, p.2.1⟩
